import Mathlib

/-!
# Verification of the open-design-sdk loading / readiness pipeline

A shallow embedding of the loading, dependency-resolution and readiness
orchestration logic of the open-design-sdk repository:

* `DesignFacade.loadArtboard`, `DesignFacade.unloadArtboard`,
  `DesignFacade._loadArtboardContent`, `DesignFacade._loadRenderingDesignArtboard`,
  `DesignFacade._loadFontsToRendering`, `DesignFacade.downloadBitmapAsset(s)`
  (sdk/src/design-facade.ts),
* `ArtboardFacade.load` (sdk/src/artboard-facade.ts),
* `RenderingDesign.loadArtboard` / `loadFont` / `loadImage` /
  `markArtboardAsReady` / `unloadArtboard` (rendering/src/rendering-design.ts),
* `RenderingArtboard.load` / `markAsReady` / `unload`
  (rendering/src/rendering-artboard.ts),
* `keepUniqueBitmapAssetDescriptors` / `keepUniqueFontDescriptors`
  (octopus-reader/src/utils/assets-utils.ts).

Sequential executions are modelled in a state monad `SM` over an explicit
design-facade state; every collaborator round-trip (Content Store, Rendering
Backend Proxy, font source) appends an event to a trace, so that theorems can
speak about which commands an operation issues and in which order.  External
collaborators (local cache store, API, rendering process responses) are
modelled at their interface boundary through an environment `SEnv`.
Cancellation-token observations are counted and a token "cancelled from the
k-th observation on" is part of the environment, mirroring
`cancelToken.throwIfCancelled()` and the token parameter that collaborator
calls receive.

Concurrent invocations of `_loadRenderingDesignArtboard` (claim C1) are
modelled separately as an interleaving machine, see the `Conc` namespace below.
-/

namespace ODS

/-- Error kinds surfaced by the loading pipeline (spec §7; the `throw new
Error(...)` sites of `design-facade.ts`, `rendering-design.ts`,
`rendering-artboard.ts`).  `fuelExhausted` is not a source error: it is the
out-of-fuel marker of the fuel-indexed embedding of the unguarded recursion of
`_loadRenderingDesignArtboard` (a run that only ever ends in `fuelExhausted`
models nontermination). -/
inductive Err where
  | notConfiguredRendering
  | notConfiguredCache
  | notConfiguredApi
  | cannotLoad
  | noSuchArtboard
  | filenameMissing
  | loadArtboardFailed
  | getDepsFailed
  | finalizeFailed
  | dependencyMissing
  | notReadyAfterLoad
  | unloadFailed
  | cancelled
  | fuelExhausted
deriving DecidableEq

/-- Observable collaborator calls of the pipeline.  `query…` events are
read-only questions to a collaborator, `cmd…` events are Rendering Backend
Proxy commands (`execCommand` round-trips), `contentRead` / `apiFetch…` /
`save…` are Content Store operations.  `readySet` is a state-transition
marker: it is appended exactly when `RenderingArtboard._ready` flips to
`true` (rendering-artboard.ts line 184). -/
inductive Ev where
  | queryHasContent (artboardId : String)
  | contentRead (artboardId : String)
  | apiFetchContent (artboardId : String)
  | saveContent (artboardId : String)
  | queryFilename (artboardId : String)
  | cmdLoadArtboard (artboardId : String)
  | cmdGetDeps (artboardId : String)
  | cmdFinalize (artboardId : String)
  | readySet (artboardId : String)
  | cmdUnloadArtboard (artboardId : String)
  | queryResolveAsset (name : String)
  | apiFetchAsset (name : String)
  | saveAsset (name : String)
  | queryFontPath (psName : String)
  | cmdLoadFont (psName : String)
  | cmdLoadImage (key : String)
deriving DecidableEq

/-- The mutable per-artboard state the Rendering Backend Proxy wrapper keeps
(`RenderingArtboard._ready`, `RenderingArtboard._pendingSymbolIds`). -/
structure RAState where
  ready : Bool
  pendingSymbolIds : List String
deriving DecidableEq

end ODS

deriving instance DecidableEq for Except

namespace ODS

/-- Association-list lookup, keyed on the first component (the embedding of a
JS `Map.get`). -/
def getA {β : Type} : List (String × β) → String → Option β
  | [], _ => none
  | p :: m, k => if p.1 = k then some p.2 else getA m k

/-- Association-list insert-or-replace (the embedding of a JS `Map.set`:
an existing key keeps its position, a new key is appended at the end). -/
def setA {β : Type} : List (String × β) → String → β → List (String × β)
  | [], k, v => [(k, v)]
  | p :: m, k, v => if p.1 = k then (k, v) :: m else p :: setA m k v

/-- Association-list removal (the embedding of a JS `Map.delete`). -/
def eraseA {β : Type} (m : List (String × β)) (k : String) : List (String × β) :=
  m.filter (fun p => ¬(p.1 = k))

/-- Set-like insertion into a membership list (the embedding of a JS
`Set.add`). -/
def insertS (l : List String) (k : String) : List String :=
  if k ∈ l then l else l ++ [k]

/-- Set-like removal from a membership list. -/
def removeS (l : List String) (k : String) : List String :=
  l.filter (fun x => ¬(x = k))

/-- The design-facade / rendering-design state a sequential execution of the
pipeline reads and writes:

* `loadingArtboardPromises` — `DesignFacade._loadingArtboardPromises`
  (design-facade.ts line 74), with each stored promise represented by its
  settled outcome (in a sequential execution an awaited promise has settled);
* `loadedContent` — the set of artboard ids whose entity has its octopus
  content set (`ArtboardFacade.isLoaded()`);
* `renderingArtboards` — `RenderingDesign._artboards`;
* `loadedFonts` / `loadedBitmaps` — `RenderingDesign._loadedFonts` /
  `_loadedBitmaps`;
* `cachedContent` / `cachedAssets` — the artboard contents / bitmap assets
  present in the local cache (`LocalDesign`, the Content Store boundary);
* `obsCount` — how many cancellation-token observation points have been
  passed;
* `trace` — the events issued so far. -/
structure SState where
  loadingArtboardPromises : List (String × Except Err Unit)
  loadedContent : List String
  renderingArtboards : List (String × RAState)
  loadedFonts : List String
  loadedBitmaps : List String
  cachedContent : List String
  cachedAssets : List String
  obsCount : Nat
  trace : List Ev
deriving DecidableEq

/-- An artboard's manifest entry (id, optional component id, optional page
id) as kept by the octopus-reader `Design` entity. -/
structure ArtboardMeta where
  id : String
  componentId : Option String
  pageId : Option String
deriving DecidableEq

/-- The collaborator boundary: manifest data, proxy responses, availability
flags of the optional collaborators, and the per-artboard answers of the
external rendering process (`deps` is the `symbols` list the
`get-artboard-dependencies` command reports). -/
structure SEnvB where
  artboards : List ArtboardMeta
  deps : String → List String
  hasRenderingDesign : Bool
  hasLocalDesign : Bool
  hasApi : Bool
  hasFontSource : Bool
  loadAssets : Bool
  loadArtboardOk : Bool
  getDepsOk : Bool
  finalizeOk : Bool
  unloadOk : Bool
  fontPathOf : String → Option String
  bitmapAssets : String → List String
  fonts : String → List String

/-- The environment of a run: the collaborator boundary plus the cancellation
token, where `cancelAt = some k` means the token is cancelled from the `k`-th
observation point on (`some 0`: already cancelled when the operation starts)
and `none` means it is never cancelled. -/
structure SEnv where
  base : SEnvB
  cancelAt : Option Nat

/-- The sequential-execution monad: state passing over `SState` with
`Except`-style error propagation (a thrown JS `Error` / promise rejection). -/
def SM (α : Type) : Type := SState → Except Err α × SState

instance : Monad SM where
  pure a := fun st => (Except.ok a, st)
  bind m k := fun st =>
    match m st with
    | (Except.ok a, st') => k a st'
    | (Except.error e, st') => (Except.error e, st')

/-- Append an event to the trace (a collaborator call is issued). -/
def emitEv (e : Ev) : SM Unit := fun st => (Except.ok (), { st with trace := st.trace ++ [e] })

/-- Throw an error (promise rejection). -/
def throwE {α : Type} (e : Err) : SM α := fun st => (Except.error e, st)

/-- Read the current state. -/
def getSt : SM SState := fun st => (Except.ok st, st)

/-- Apply a synchronous state update. -/
def modSt (f : SState → SState) : SM Unit := fun st => (Except.ok (), f st)

/-- Re-raise a settled promise outcome (awaiting an already stored promise). -/
def liftE (o : Except Err Unit) : SM Unit := fun st => (o, st)

/-- A cancellation-token observation point: `throwIfCancelled`, or a
collaborator receiving the token and rejecting when it is cancelled.  The
observation counter advances either way. -/
def observe (env : SEnv) : SM Unit := fun st =>
  match env.cancelAt with
  | some k =>
      if k ≤ st.obsCount
      then (Except.error Err.cancelled, { st with obsCount := st.obsCount + 1 })
      else (Except.ok (), { st with obsCount := st.obsCount + 1 })
  | none => (Except.ok (), { st with obsCount := st.obsCount + 1 })

/-- A collaborator call that receives the cancellation token: the collaborator
observes the token first (rejecting without side effect when it is cancelled,
spec §5 "checked at least once per suspension point") and otherwise performs
the call. -/
def tokenCall (env : SEnv) (e : Ev) : SM Unit := do
  observe env
  emitEv e

/-- Manifest lookup by artboard id (`DesignFacade.getArtboardById`). -/
def findArtboard (env : SEnv) (artboardId : String) : Option ArtboardMeta :=
  env.base.artboards.find? (fun a => a.id = artboardId)

/-- Manifest lookup by component id (`DesignFacade.getArtboardByComponentId`,
backed by the octopus-reader component index). -/
def findByComponent (env : SEnv) (componentId : String) : Option ArtboardMeta :=
  env.base.artboards.find? (fun a => a.componentId = some componentId)

/-- Readiness as reported by `RenderingDesign.isArtboardReady`
(rendering-design.ts lines 54-57): the artboard is registered and its
`ready` flag is set. -/
def raReady (st : SState) (artboardId : String) : Bool :=
  match getA st.renderingArtboards artboardId with
  | some ra => ra.ready
  | none => false

namespace RenderingDesign

/-- `RenderingDesign.loadFont` (rendering-design.ts lines 93-114): fonts
already pushed for this design are skipped; otherwise the postscript name is
recorded as loaded *before* the `load-font` command is sent.  The command
result is not inspected. -/
def loadFont (psName : String) : SM Unit := do
  let st ← getSt
  if psName ∈ st.loadedFonts then pure ()
  else do
    modSt (fun s => { s with loadedFonts := insertS s.loadedFonts psName })
    emitEv (Ev.cmdLoadFont psName)

/-- `RenderingDesign.loadImage` (rendering-design.ts lines 116-128): bitmap
keys already pushed for this design are skipped; otherwise the `load-image`
command is sent and the key is recorded afterwards.  The command result is
not inspected. -/
def loadImage (bitmapKey : String) : SM Unit := do
  let st ← getSt
  if bitmapKey ∈ st.loadedBitmaps then pure ()
  else do
    emitEv (Ev.cmdLoadImage bitmapKey)
    modSt (fun s => { s with loadedBitmaps := insertS s.loadedBitmaps bitmapKey })

/-- `RenderingDesign.markArtboardAsReady` (rendering-design.ts lines 130-137)
followed by `RenderingArtboard.markAsReady` (rendering-artboard.ts lines
172-185): issue `finalize-artboard`; if the response lacks the success flag,
throw and leave the artboard state untouched; on success set `_ready = true`. -/
def markArtboardAsReady (env : SEnv) (artboardId : String) : SM Unit := do
  let st ← getSt
  match getA st.renderingArtboards artboardId with
  | none => throwE Err.noSuchArtboard
  | some ra => do
      emitEv (Ev.cmdFinalize artboardId)
      if env.base.finalizeOk then do
        modSt (fun s =>
          { s with renderingArtboards :=
              (setA s.renderingArtboards artboardId { ra with ready := true }) })
        emitEv (Ev.readySet artboardId)
      else throwE Err.finalizeFailed

/-- `RenderingDesign.loadArtboard` (rendering-design.ts lines 59-91) together
with `RenderingArtboard.load` (rendering-artboard.ts lines 100-125).  When the
artboard is already registered, the previous `RenderingArtboard` is returned
as is (without re-issuing commands); the caller then reads its
`pendingSymbolIds`, which is what this embedding returns.  Otherwise the
artboard is registered (`ready = false`, no pending symbols yet — the
constructor state), `load-artboard` and `get-artboard-dependencies` are
issued, and the reported symbol list is stored and returned. -/
def loadArtboard (env : SEnv) (artboardId : String) : SM (List String) := do
  let st ← getSt
  match getA st.renderingArtboards artboardId with
  | some prev => pure prev.pendingSymbolIds
  | none => do
      modSt (fun s =>
        { s with renderingArtboards :=
            (setA s.renderingArtboards artboardId { ready := false, pendingSymbolIds := [] }) })
      emitEv (Ev.cmdLoadArtboard artboardId)
      if env.base.loadArtboardOk then do
        emitEv (Ev.cmdGetDeps artboardId)
        if env.base.getDepsOk then do
          modSt (fun s =>
            { s with renderingArtboards :=
                (setA s.renderingArtboards artboardId
                  { ready := false, pendingSymbolIds := env.base.deps artboardId }) })
          pure (env.base.deps artboardId)
        else throwE Err.getDepsFailed
      else throwE Err.loadArtboardFailed

/-- `RenderingDesign.unloadArtboard` (rendering-design.ts lines 267-276) with
`RenderingArtboard.unload` (rendering-artboard.ts): a missing artboard is an
error; otherwise `unload-artboard` is issued and the entry removed. -/
def unloadArtboard (env : SEnv) (artboardId : String) : SM Unit := do
  let st ← getSt
  match getA st.renderingArtboards artboardId with
  | none => throwE Err.noSuchArtboard
  | some _ => do
      emitEv (Ev.cmdUnloadArtboard artboardId)
      if env.base.unloadOk then
        modSt (fun s => { s with renderingArtboards := eraseA s.renderingArtboards artboardId })
      else throwE Err.unloadFailed

end RenderingDesign

namespace DesignFacade

/-- `DesignFacade._loadArtboardContent` (design-facade.ts lines 2275-2311).
With a local design: `hasArtboardContent` (no token is passed to it), a
remote fetch + cache write on a miss (fatal when the API is not configured),
then the local content read.  Without a local design the content is read from
the API directly. -/
def loadArtboardContent (env : SEnv) (artboardId : String) : SM Unit := do
  if env.base.hasLocalDesign then do
    emitEv (Ev.queryHasContent artboardId)
    let st ← getSt
    if artboardId ∈ st.cachedContent then
      tokenCall env (Ev.contentRead artboardId)
    else
      if env.base.hasApi then do
        tokenCall env (Ev.apiFetchContent artboardId)
        tokenCall env (Ev.saveContent artboardId)
        modSt (fun s => { s with cachedContent := insertS s.cachedContent artboardId })
        tokenCall env (Ev.contentRead artboardId)
      else throwE Err.notConfiguredApi
  else
    if env.base.hasApi then tokenCall env (Ev.contentRead artboardId)
    else throwE Err.cannotLoad

/-- The promise created at design-facade.ts lines 2191-2196: run the content
load; when it resolves, set the octopus on the artboard entity.  The settled
outcome (stored in `_loadingArtboardPromises` at line 2198) is recorded
either way: a rejected promise stays in the registry. -/
def recordLoadingPromise (artboardId : String) (m : SM Unit) : SM Unit := fun st =>
  match m st with
  | (Except.ok _, st') =>
      (Except.ok (),
        { st' with
          loadedContent := insertS st'.loadedContent artboardId,
          loadingArtboardPromises :=
            setA st'.loadingArtboardPromises artboardId (Except.ok ()) })
  | (Except.error e, st') =>
      (Except.error e,
        { st' with
          loadingArtboardPromises :=
            setA st'.loadingArtboardPromises artboardId (Except.error e) })

/-- `DesignFacade.loadArtboard` (design-facade.ts lines 2172-2203): unknown
artboards are an error; a previously stored loading promise is awaited (its
settled outcome is re-raised); otherwise, when the artboard entity is not
loaded, a fresh content-load promise is created, stored and awaited. -/
def loadArtboard (env : SEnv) (artboardId : String) : SM Unit := do
  if (findArtboard env artboardId).isNone then throwE Err.noSuchArtboard
  else do
    let st ← getSt
    match getA st.loadingArtboardPromises artboardId with
    | some outcome => liftE outcome
    | none =>
        if artboardId ∈ st.loadedContent then pure ()
        else recordLoadingPromise artboardId (loadArtboardContent env artboardId)

/-- `ArtboardFacade.load` (artboard-facade.ts lines 174-180): a no-op when the
entity is already loaded, otherwise delegate to `DesignFacade.loadArtboard`. -/
def artboardLoad (env : SEnv) (artboardId : String) : SM Unit := do
  let st ← getSt
  if artboardId ∈ st.loadedContent then pure ()
  else loadArtboard env artboardId

/-- `DesignFacade.unloadArtboard` (design-facade.ts lines 2253-2273): unknown
artboards are an error; unloading a not-loaded artboard only warns; otherwise
the entity content is discarded and, when a rendering design is configured,
`RenderingDesign.unloadArtboard` runs.  The `_loadingArtboardPromises`
registry is not touched. -/
def unloadArtboard (env : SEnv) (artboardId : String) : SM Unit := do
  if (findArtboard env artboardId).isNone then throwE Err.noSuchArtboard
  else do
    let st ← getSt
    if artboardId ∈ st.loadedContent then do
      modSt (fun s => { s with loadedContent := removeS s.loadedContent artboardId })
      if env.base.hasRenderingDesign then RenderingDesign.unloadArtboard env artboardId
      else pure ()
    else pure ()

end DesignFacade

end ODS

namespace ODS

namespace DesignFacade

/-- `DesignFacade.downloadBitmapAsset` (design-facade.ts lines 2382-2417):
requires the API and the local cache; `resolveBitmapAsset` receives the
cancellation token; an already-cached asset is returned as is, otherwise its
bytes are fetched from the API and persisted. -/
def downloadBitmapAsset (env : SEnv) (name : String) : SM Unit := do
  if ¬env.base.hasApi then throwE Err.notConfiguredApi
  else if ¬env.base.hasLocalDesign then throwE Err.notConfiguredCache
  else do
    tokenCall env (Ev.queryResolveAsset name)
    let st ← getSt
    if name ∈ st.cachedAssets then pure ()
    else do
      tokenCall env (Ev.apiFetchAsset name)
      tokenCall env (Ev.saveAsset name)
      modSt (fun s => { s with cachedAssets := insertS s.cachedAssets name })

/-- `DesignFacade.downloadBitmapAssets` (design-facade.ts lines 2337-2361):
the descriptors are processed with the `sequence` async helper, i.e. one
after the other. -/
def downloadBitmapAssets (env : SEnv) : List String → SM Unit
  | [] => pure ()
  | n :: rest => do
      downloadBitmapAsset env n
      downloadBitmapAssets env rest

/-- The `sequence` body of `DesignFacade._loadFontsToRendering`
(design-facade.ts lines 2754-2769): resolve the font path (the resolver
receives the token); on a match push the font to the rendering design and
check the token; on a miss only warn. -/
def loadFontsToRenderingSeq (env : SEnv) : List String → SM Unit
  | [] => pure ()
  | n :: rest => do
      tokenCall env (Ev.queryFontPath n)
      (match env.base.fontPathOf n with
       | some _ => do
           RenderingDesign.loadFont n
           observe env
       | none => pure ())
      loadFontsToRenderingSeq env rest

/-- `DesignFacade._loadFontsToRendering` (design-facade.ts lines 2738-2770):
without a font source the call is a silent no-op; without a rendering design
it is an error; otherwise the fonts are processed sequentially. -/
def loadFontsToRendering (env : SEnv) (fonts : List String) : SM Unit := do
  if ¬env.base.hasFontSource then pure ()
  else if ¬env.base.hasRenderingDesign then throwE Err.notConfiguredRendering
  else loadFontsToRenderingSeq env fonts

/-- The `sequence(desc.pendingSymbolIds, …)` body of
`DesignFacade._loadRenderingDesignArtboard` (design-facade.ts lines
2708-2715): each pending component id is resolved through the component
index — a missing defining artboard is fatal — and the defining artboard is
loaded recursively (`recur` is the recursive call with the same parameters). -/
def loadDependencies (env : SEnv) (recur : String → SM Unit) : List String → SM Unit
  | [] => pure ()
  | c :: rest => do
      (match findByComponent env c with
       | none => throwE Err.dependencyMissing
       | some b => recur b.id)
      loadDependencies env recur rest

/-- Step 8 of `_loadRenderingDesignArtboard` (design-facade.ts 2717-2728): when
the SDK is configured to load assets, collect and download the bitmap assets
and load the fonts into the rendering process; otherwise do nothing. -/
def loadAssetsStep (env : SEnv) (artboardId : String) : SM Unit :=
  if env.base.loadAssets then do
    observe env
    observe env
    downloadBitmapAssets env (env.base.bitmapAssets artboardId)
    loadFontsToRendering env (env.base.fonts artboardId)
  else pure ()

/-- One unfolding of `DesignFacade._loadRenderingDesignArtboard`
(design-facade.ts lines 2660-2736), with the recursive dependency call
abstracted as `recur`:

1. rendering design configured? (2667-2670)
2. already ready in the proxy → return immediately (2672-2674)
3. local design configured? artboard known? (2676-2684)
4. `artboard.load({ cancelToken })` (2688)
5. `localDesign.getArtboardContentFilename(id, { cancelToken })`, fatal when
   no filename is available (2690-2696)
6. `renderingDesign.loadArtboard` (2698-2702) and `throwIfCancelled` (2703)
7. recursive loads of the pending dependency components (2708-2715)
8. when `loadAssets`: collect + download bitmap assets and fonts; the
   `throwIfCancelled` checks of 2719 and 2722 follow the two collections;
   the two pipelines of the `Promise.all` of 2724-2727 are independent and
   are modelled one after the other (2717-2728)
9. `markArtboardAsReady` (2730), `throwIfCancelled` (2731) and the final
   readiness check (2733-2735). -/
def loadRenderingDesignArtboardStep (env : SEnv) (recur : String → SM Unit)
    (artboardId : String) : SM Unit := do
  if ¬env.base.hasRenderingDesign then throwE Err.notConfiguredRendering
  else do
    let st0 ← getSt
    if raReady st0 artboardId then pure ()
    else if ¬env.base.hasLocalDesign then throwE Err.notConfiguredCache
    else if (findArtboard env artboardId).isNone then throwE Err.noSuchArtboard
    else do
      artboardLoad env artboardId
      tokenCall env (Ev.queryFilename artboardId)
      let st1 ← getSt
      if artboardId ∉ st1.cachedContent then throwE Err.filenameMissing
      else do
        let pend ← RenderingDesign.loadArtboard env artboardId
        observe env
        loadDependencies env recur pend
        loadAssetsStep env artboardId
        RenderingDesign.markArtboardAsReady env artboardId
        observe env
        let st2 ← getSt
        if raReady st2 artboardId then pure () else throwE Err.notReadyAfterLoad

/-- `DesignFacade._loadRenderingDesignArtboard`, fuel-indexed: the source
recursion carries no termination guard, so the embedding spends one unit of
fuel per recursive call and reports `fuelExhausted` when the fuel runs out
(an execution that ends in `fuelExhausted` for every fuel models a
nonterminating recursion). -/
def loadRenderingDesignArtboard (env : SEnv) : Nat → String → SM Unit
  | 0 => fun _ => throwE Err.fuelExhausted
  | fuel + 1 => loadRenderingDesignArtboardStep env (loadRenderingDesignArtboard env fuel)

end DesignFacade

/-! ## Asset-descriptor aggregation (octopus-reader/src/utils/assets-utils.ts) -/

/-- First-occurrence deduplication of a list (the order-preserving semantics
of iterating a JS `Set`). -/
def firstDedup {α : Type} [DecidableEq α] : List α → List α
  | [] => []
  | x :: xs => x :: (firstDedup xs).filter (fun y => ¬(y = x))

/-- Modelled from the spec: `mergeArrays`
(octopus-reader/src/utils/array-utils.ts is not part of the provided
sources).  Spec §3: aggregation "merges descriptors with the same key by
unioning their layer-id sets"; the union of two id lists keeps the first
occurrence of each id, left operand first. -/
def mergeArrays {α : Type} [DecidableEq α] (a b : List α) : List α :=
  firstDedup (a ++ b)

/-- `AggregatedBitmapAssetDescriptor`
(octopus-reader/src/types/bitmap-assets.type.ts). -/
structure AggregatedBitmapAssetDescriptor where
  name : String
  layerIds : List String
  prerendered : Bool
deriving DecidableEq

/-- `AggregatedFontDescriptor` (octopus-reader/src/types/fonts.type.ts). -/
structure AggregatedFontDescriptor where
  fontPostScriptName : String
  fontPostScriptNameSynthetic : Bool
  fontTypes : List String
  fontName : Option String
  layerIds : List String
deriving DecidableEq

/-- One `forEach` step of `keepUniqueBitmapAssetDescriptors`
(assets-utils.ts lines 17-29): look the name up in the accumulated unique
map; a fresh entry starts from the current descriptor's `name`/`prerendered`
with empty `layerIds`; the (fresh or existing) entry's `layerIds` are merged
with the current descriptor's and the entry is stored under its name.  The
map is modelled as the insertion-ordered list of its values. -/
def keepUniqueBitmapStep (acc : List AggregatedBitmapAssetDescriptor)
    (d : AggregatedBitmapAssetDescriptor) : List AggregatedBitmapAssetDescriptor :=
  match acc.find? (fun u => u.name = d.name) with
  | some u =>
      acc.map (fun v =>
        if v.name = d.name then { u with layerIds := mergeArrays u.layerIds d.layerIds } else v)
  | none =>
      acc ++ [{ name := d.name, prerendered := d.prerendered,
                layerIds := mergeArrays [] d.layerIds }]

/-- `keepUniqueBitmapAssetDescriptors` (assets-utils.ts lines 12-32). -/
def keepUniqueBitmapAssetDescriptors
    (bitmapAssetDescs : List AggregatedBitmapAssetDescriptor) :
    List AggregatedBitmapAssetDescriptor :=
  bitmapAssetDescs.foldl keepUniqueBitmapStep []

/-- One `forEach` step of `keepUniqueFontDescriptors` (assets-utils.ts lines
39-57): a fresh entry starts from the current descriptor's fields with empty
`layerIds`; then both `fontTypes` and `layerIds` are merged with the current
descriptor's. -/
def keepUniqueFontStep (acc : List AggregatedFontDescriptor)
    (d : AggregatedFontDescriptor) : List AggregatedFontDescriptor :=
  match acc.find? (fun u => u.fontPostScriptName = d.fontPostScriptName) with
  | some u =>
      acc.map (fun v =>
        if v.fontPostScriptName = d.fontPostScriptName then
          { u with
            fontTypes := mergeArrays u.fontTypes d.fontTypes,
            layerIds := mergeArrays u.layerIds d.layerIds }
        else v)
  | none =>
      acc ++ [{ fontPostScriptName := d.fontPostScriptName,
                fontPostScriptNameSynthetic := d.fontPostScriptNameSynthetic,
                fontTypes := mergeArrays d.fontTypes d.fontTypes,
                fontName := d.fontName,
                layerIds := mergeArrays [] d.layerIds }]

/-- `keepUniqueFontDescriptors` (assets-utils.ts lines 34-60). -/
def keepUniqueFontDescriptors (fontDescs : List AggregatedFontDescriptor) :
    List AggregatedFontDescriptor :=
  fontDescs.foldl keepUniqueFontStep []

end ODS

namespace ODS

/-!
## Interleaved concurrent executions of `_loadRenderingDesignArtboard`

`Conc` models N concurrent invocations of
`DesignFacade._loadRenderingDesignArtboard` for one and the same artboard id,
under the cooperative single-threaded JS scheduling model (spec §5): code
between two `await` suspension points runs atomically, and at every
suspension point any other task may be scheduled.  Each task is a program
counter naming the suspension point it is parked at; the shared state is the
part of the facade/rendering state these invocations touch.  The modelled
artboard has no pending dependency components (`get-artboard-dependencies`
reports an empty list) and the invocations run with `loadAssets = false`, so
the machine is exactly the concurrency skeleton of the operation; the
recursive dependency handling is covered by the sequential embedding above.
No cancellation token is supplied (`cancelToken = null`).
-/
namespace Conc

/-- Collaborator calls observable in the concurrent machine (the events of
`Ev` restricted to this flow, for the single fixed artboard id). -/
inductive CEv where
  | queryHasContent
  | contentRead
  | apiFetchContent
  | saveContent
  | queryFilename
  | cmdLoadArtboard
  | cmdGetDeps
  | cmdFinalize
deriving DecidableEq

/-- The lifecycle of the shared `_loadingArtboardPromises` entry for the
artboard: no entry yet, a stored pending promise, or a stored settled promise
(`done true` resolved / `done false` rejected). -/
inductive Reg where
  | empty
  | inflight
  | done (ok : Bool)
deriving DecidableEq

/-- The program counter of one `_loadRenderingDesignArtboard` invocation:
each `pAwait…` names the `await` suspension point the task is parked at.

* `pStart` — not yet run: the synchronous prologue (design-facade.ts
  2667-2684, artboard-facade.ts 175, design-facade.ts 2183-2198) is next;
* `pAwaitHasContent` / `pAwaitFetch` / `pAwaitSave` / `pAwaitRead` — inside
  the content-load promise body (design-facade.ts 2275-2311): parked at
  `hasArtboardContent`, `getArtboardContentJsonStream`,
  `saveArtboardContentJsonStream`, `getArtboardContent` respectively;
* `pAwaitPromise` — parked on another task's stored loading promise
  (design-facade.ts 2187/2199);
* `pAfterLoad` — `artboard.load` resolved, `getArtboardContentFilename` next;
* `pAwaitFilename` — parked on `getArtboardContentFilename` (2690);
* `pAwaitProxyLoad` — parked on the `load-artboard` command
  (rendering-artboard.ts 106-117);
* `pAwaitDeps` — parked on `get-artboard-dependencies` (157-170);
* `pPreFinalize` — `renderingDesign.loadArtboard` resolved (with an empty
  pending list), `markArtboardAsReady` next (2698-2730);
* `pAwaitFinalize` — parked on `finalize-artboard` (172-185);
* `pDone b` — resolved (`b` records whether this task issued its own
  `finalize-artboard` command or returned through the early readiness check);
* `pDoneErr` — rejected. -/
inductive PC where
  | pStart
  | pAwaitHasContent
  | pAwaitFetch
  | pAwaitSave
  | pAwaitRead
  | pAwaitPromise
  | pAfterLoad
  | pAwaitFilename
  | pAwaitProxyLoad
  | pAwaitDeps
  | pPreFinalize
  | pAwaitFinalize
  | pDone (viaFinalize : Bool)
  | pDoneErr
deriving DecidableEq

/-- Collaborator responses for the one artboard: is its content in the local
cache, is the API configured, is the octopus filename resolvable, and the
success flags of the proxy commands. -/
structure CEnv where
  contentCached : Bool
  hasApi : Bool
  filenameAvailable : Bool
  loadArtboardOk : Bool
  getDepsOk : Bool
  finalizeOk : Bool

/-- The shared state the concurrent invocations read and write: the
`_loadingArtboardPromises` entry, the artboard entity's loaded flag, the
`RenderingDesign._artboards` entry (`raExists`) and its `ready` flag, and the
trace of issued collaborator calls. -/
structure CState where
  registry : Reg
  isLoaded : Bool
  raExists : Bool
  raReady : Bool
  trace : List CEv
deriving DecidableEq

/-- One atomic step of a task parked at `pc`: the synchronous segment from
its suspension point to the next one.  `none` when the task is terminal or
blocked (parked on a promise that has not settled). -/
def stepTask (env : CEnv) (c : CState) : PC → Option (CState × PC)
  | PC.pStart =>
      if c.raReady then some (c, PC.pDone false)
      else if c.isLoaded then some (c, PC.pAfterLoad)
      else
        match c.registry with
        | Reg.empty =>
            some ({ c with registry := Reg.inflight,
                           trace := c.trace ++ [CEv.queryHasContent] },
                  PC.pAwaitHasContent)
        | _ => some (c, PC.pAwaitPromise)
  | PC.pAwaitHasContent =>
      if env.contentCached then
        some ({ c with trace := c.trace ++ [CEv.contentRead] }, PC.pAwaitRead)
      else if env.hasApi then
        some ({ c with trace := c.trace ++ [CEv.apiFetchContent] }, PC.pAwaitFetch)
      else
        some ({ c with registry := Reg.done false }, PC.pDoneErr)
  | PC.pAwaitFetch =>
      some ({ c with trace := c.trace ++ [CEv.saveContent] }, PC.pAwaitSave)
  | PC.pAwaitSave =>
      some ({ c with trace := c.trace ++ [CEv.contentRead] }, PC.pAwaitRead)
  | PC.pAwaitRead =>
      some ({ c with registry := Reg.done true, isLoaded := true }, PC.pAfterLoad)
  | PC.pAwaitPromise =>
      match c.registry with
      | Reg.done true => some (c, PC.pAfterLoad)
      | Reg.done false => some (c, PC.pDoneErr)
      | _ => none
  | PC.pAfterLoad =>
      some ({ c with trace := c.trace ++ [CEv.queryFilename] }, PC.pAwaitFilename)
  | PC.pAwaitFilename =>
      if ¬env.filenameAvailable then some (c, PC.pDoneErr)
      else if c.raExists then some (c, PC.pPreFinalize)
      else
        some ({ c with raExists := true,
                       trace := c.trace ++ [CEv.cmdLoadArtboard] },
              PC.pAwaitProxyLoad)
  | PC.pAwaitProxyLoad =>
      if env.loadArtboardOk then
        some ({ c with trace := c.trace ++ [CEv.cmdGetDeps] }, PC.pAwaitDeps)
      else some (c, PC.pDoneErr)
  | PC.pAwaitDeps =>
      if env.getDepsOk then some (c, PC.pPreFinalize)
      else some (c, PC.pDoneErr)
  | PC.pPreFinalize =>
      if c.raExists then
        some ({ c with trace := c.trace ++ [CEv.cmdFinalize] }, PC.pAwaitFinalize)
      else some (c, PC.pDoneErr)
  | PC.pAwaitFinalize =>
      if env.finalizeOk then
        some ({ c with raReady := true }, PC.pDone true)
      else some (c, PC.pDoneErr)
  | PC.pDone _ => none
  | PC.pDoneErr => none

/-- A system configuration: the shared state plus the program counters of the
N concurrent invocations. -/
structure Config where
  shared : CState
  tasks : List PC
deriving DecidableEq

/-- Scheduling one step of the task at index `i` (a no-op when the index is
out of range or the task is blocked/terminal). -/
def stepC (env : CEnv) (cfg : Config) (i : Nat) : Config :=
  match cfg.tasks.get? i with
  | none => cfg
  | some pc =>
      match stepTask env cfg.shared pc with
      | none => cfg
      | some (sh', pc') => { shared := sh', tasks := cfg.tasks.set i pc' }

/-- Run a schedule (the list of task indices picked by the cooperative
scheduler, in order). -/
def runC (env : CEnv) : List Nat → Config → Config
  | [], cfg => cfg
  | i :: rest, cfg => runC env rest (stepC env cfg i)

/-- The initial configuration of N concurrent invocations: nothing loaded or
registered yet, all tasks about to run their prologue. -/
def initConfig (n : Nat) : Config :=
  { shared := { registry := Reg.empty, isLoaded := false, raExists := false,
                raReady := false, trace := [] },
    tasks := List.replicate n PC.pStart }

/-- All collaborators behave: content is in the local cache (or the API is
available), the octopus filename resolves, and every proxy command reports
success. -/
def GoodEnv (env : CEnv) : Prop :=
  (env.contentCached = true ∨ env.hasApi = true) ∧ env.filenameAvailable = true ∧
    env.loadArtboardOk = true ∧ env.getDepsOk = true ∧ env.finalizeOk = true

end Conc

/-! ## Concrete designs used in the end-to-end runs -/

/-- A two-artboard design: `A` defines component `ca` and the proxy's
`get-artboard-dependencies` answer for `A` names `cb`, the component defined
by `B`; `B` has no dependencies.  All collaborators are configured and
behave, and asset loading is disabled. -/
def twoArtboardBase : SEnvB :=
  { artboards := [⟨"A", some "ca", none⟩, ⟨"B", some "cb", none⟩],
    deps := fun id => if id = "A" then ["cb"] else [],
    hasRenderingDesign := true, hasLocalDesign := true, hasApi := true,
    hasFontSource := true, loadAssets := false,
    loadArtboardOk := true, getDepsOk := true, finalizeOk := true, unloadOk := true,
    fontPathOf := fun _ => none, bitmapAssets := fun _ => [], fonts := fun _ => [] }

/-- The same design with the dependency of `A` pointing at a component id no
artboard defines. -/
def missingDepBase : SEnvB :=
  { twoArtboardBase with deps := fun id => if id = "A" then ["nope"] else [] }

/-- The same design with a component cycle: `A` depends on `cb` (defined by
`B`) and `B` depends on `ca` (defined by `A`). -/
def cyclicBase : SEnvB :=
  { twoArtboardBase with deps := fun id => if id = "A" then ["cb"] else ["ca"] }

/-- A fresh facade state: in-flight registry, rendering-artboard map, loaded
sets and trace all empty, both octopus files already present in the local
cache. -/
def freshState : SState := ⟨[], [], [], [], [], ["A", "B"], [], 0, []⟩

/-- The cyclic design together with a never-cancelled token. -/
def envCycle : SEnv := ⟨cyclicBase, none⟩

end ODS

namespace ODS

/-! ## Basic lemmas about the execution monad and the list helpers -/

theorem SM_bind_apply {α β : Type} (m : SM α) (k : α → SM β) (st : SState) :
    (m >>= k) st =
      match m st with
      | (Except.ok a, st') => k a st'
      | (Except.error e, st') => (Except.error e, st') := rfl

theorem SM_pure_apply {α : Type} (a : α) (st : SState) :
    (pure a : SM α) st = (Except.ok a, st) := rfl

/-- `t₂` extends `t₁`: the events of `t₁` form an initial segment of `t₂`. -/
def Ext (t₁ t₂ : List Ev) : Prop := ∃ u, t₂ = t₁ ++ u

theorem Ext.refl_ext (t : List Ev) : Ext t t := ⟨[], by simp⟩

theorem Ext.trans_ext {t₁ t₂ t₃ : List Ev} (h₁ : Ext t₁ t₂) (h₂ : Ext t₂ t₃) : Ext t₁ t₃ := by
  obtain ⟨u, hu⟩ := h₁
  obtain ⟨v, hv⟩ := h₂
  exact ⟨u ++ v, by simp [hv, hu]⟩

theorem getA_setA_self {β : Type} (m : List (String × β)) (k : String) (v : β) :
    getA (setA m k v) k = some v := by
  induction m with
  | nil => simp [getA, setA]
  | cons p m ih =>
      by_cases hp : p.1 = k
      · simp [getA, setA, hp]
      · simp [getA, setA, hp, ih]

theorem getA_setA_ne {β : Type} (m : List (String × β)) (k k' : String) (v : β)
    (h : k' ≠ k) : getA (setA m k v) k' = getA m k' := by
  have hkk : ¬(k = k') := fun hk => h hk.symm
  induction m with
  | nil => simp [getA, setA, hkk]
  | cons p m ih =>
      by_cases hp : p.1 = k
      · have hp' : ¬(p.1 = k') := by rw [hp]; exact hkk
        simp [getA, setA, hp, hp', hkk]
      · by_cases hq : p.1 = k'
        · simp [getA, setA, hp, hq, h]
        · simp [getA, setA, hp, hq, ih]

end ODS

namespace ODS

/-! ## Claim C3: a failed `finalize-artboard` leaves the artboard un-ready -/

/-- **C3.** For every registered artboard, when the `finalize-artboard`
command responds without a success flag, `RenderingArtboard.markAsReady`
raises an error (`'The artboard cannot be marked as ready'`) and the whole
rendering-artboard state — in particular the `ready` flag — is left exactly
as it was: the only effect of the failed call is the issued command itself.
A failing load therefore never exposes a partially-ready artboard. -/
theorem markAsReady_not_ok_raises_and_keeps_ready (env : SEnv) (artboardId : String)
    (st : SState) (ra : RAState)
    (hra : getA st.renderingArtboards artboardId = some ra)
    (hok : env.base.finalizeOk = false) :
    RenderingDesign.markArtboardAsReady env artboardId st
        = (Except.error Err.finalizeFailed,
           { st with trace := st.trace ++ [Ev.cmdFinalize artboardId] })
      ∧ (RenderingDesign.markArtboardAsReady env artboardId st).2.renderingArtboards
          = st.renderingArtboards
      ∧ raReady (RenderingDesign.markArtboardAsReady env artboardId st).2 artboardId
          = raReady st artboardId := by
  have h : RenderingDesign.markArtboardAsReady env artboardId st
      = (Except.error Err.finalizeFailed,
         { st with trace := st.trace ++ [Ev.cmdFinalize artboardId] }) := by
    simp [RenderingDesign.markArtboardAsReady, SM_bind_apply, SM_pure_apply, getSt, emitEv,
      throwE, hra, hok]
  refine ⟨h, ?_, ?_⟩ <;> rw [h] <;> rfl

/-- Witness for `markAsReady_not_ok_raises_and_keeps_ready` at a concrete
state and environment. -/
theorem markAsReady_not_ok_witness :
    (getA (SState.mk [] [] [("A", ⟨false, []⟩)] [] [] [] [] 0 []).renderingArtboards "A"
        = some ⟨false, []⟩)
      ∧ ((SEnv.mk ⟨[], fun _ => [], true, true, true, true, false, true, true, false, true,
            fun _ => none, fun _ => [], fun _ => []⟩ none).base.finalizeOk = false)
      ∧ RenderingDesign.markArtboardAsReady
          (SEnv.mk ⟨[], fun _ => [], true, true, true, true, false, true, true, false, true,
            fun _ => none, fun _ => [], fun _ => []⟩ none) "A"
          (SState.mk [] [] [("A", ⟨false, []⟩)] [] [] [] [] 0 [])
          = (Except.error Err.finalizeFailed,
             { SState.mk [] [] [("A", ⟨false, []⟩)] [] [] [] [] 0 [] with
               trace := [] ++ [Ev.cmdFinalize "A"] }) :=
  ⟨by decide, rfl,
    (markAsReady_not_ok_raises_and_keeps_ready _ "A" _ ⟨false, []⟩ (by decide) rfl).1⟩

/-! ## Claim C4: a ready artboard makes the load operation a no-op -/

/-- **C4.** When the Rendering Backend Proxy already reports the artboard as
ready (`isArtboardReady` is `true`), `_loadRenderingDesignArtboard` resolves
immediately with the state — including the trace of issued collaborator
calls — completely unchanged: zero additional Content Store or Rendering
Backend Proxy calls are performed. -/
theorem loadRenderingDesignArtboard_ready_is_noop (env : SEnv) (fuel : Nat)
    (artboardId : String) (st : SState)
    (hrd : env.base.hasRenderingDesign = true)
    (hready : raReady st artboardId = true) :
    DesignFacade.loadRenderingDesignArtboard env (fuel + 1) artboardId st
      = (Except.ok (), st) := by
  simp [DesignFacade.loadRenderingDesignArtboard, DesignFacade.loadRenderingDesignArtboardStep,
    SM_bind_apply, SM_pure_apply, getSt, throwE, hrd, hready]

/-- Witness for `loadRenderingDesignArtboard_ready_is_noop` at a concrete
ready artboard. -/
theorem loadRenderingDesignArtboard_ready_is_noop_witness :
    (raReady (SState.mk [] [] [("A", ⟨true, []⟩)] [] [] [] [] 0 []) "A" = true)
      ∧ DesignFacade.loadRenderingDesignArtboard
          (SEnv.mk ⟨[], fun _ => [], true, true, true, true, false, true, true, true, true,
            fun _ => none, fun _ => [], fun _ => []⟩ none) 1 "A"
          (SState.mk [] [] [("A", ⟨true, []⟩)] [] [] [] [] 0 [])
          = (Except.ok (), SState.mk [] [] [("A", ⟨true, []⟩)] [] [] [] [] 0 []) :=
  ⟨by decide,
    loadRenderingDesignArtboard_ready_is_noop _ 0 "A" _ rfl (by decide)⟩

end ODS

namespace ODS

/-! ## Claim C7: per-key dedup of `load-image` / `load-font` commands -/

/-- **C7.** Within one rendering design session: a `loadImage` call for a
bitmap key already in the per-design loaded set returns without sending any
command and without touching the state, and likewise `loadFont` for a
postscript name already in the loaded-fonts set; consequently staging the
same bitmap key (resp. postscript name) twice issues exactly one
`load-image` (resp. `load-font`) command for it — one command when the key
was new, none when it had already been pushed. -/
theorem loadImage_loadFont_per_key_dedup :
    (∀ (st : SState) (key : String), key ∈ st.loadedBitmaps →
        RenderingDesign.loadImage key st = (Except.ok (), st))
      ∧ (∀ (st : SState) (psName : String), psName ∈ st.loadedFonts →
          RenderingDesign.loadFont psName st = (Except.ok (), st))
      ∧ (∀ (st : SState) (key : String),
          ((RenderingDesign.loadImage key >>= fun _ => RenderingDesign.loadImage key)
              st).2.trace.count (Ev.cmdLoadImage key)
            = st.trace.count (Ev.cmdLoadImage key)
                + (if key ∈ st.loadedBitmaps then 0 else 1))
      ∧ (∀ (st : SState) (psName : String),
          ((RenderingDesign.loadFont psName >>= fun _ => RenderingDesign.loadFont psName)
              st).2.trace.count (Ev.cmdLoadFont psName)
            = st.trace.count (Ev.cmdLoadFont psName)
                + (if psName ∈ st.loadedFonts then 0 else 1)) := by
  refine ⟨?_, ?_, ?_, ?_⟩
  · intro st key h
    simp [RenderingDesign.loadImage, SM_bind_apply, SM_pure_apply, getSt, emitEv, modSt, h]
  · intro st psName h
    simp [RenderingDesign.loadFont, SM_bind_apply, SM_pure_apply, getSt, emitEv, modSt, h]
  · intro st key
    by_cases h : key ∈ st.loadedBitmaps
    · simp [RenderingDesign.loadImage, SM_bind_apply, SM_pure_apply, getSt, emitEv, modSt, h]
    · simp [RenderingDesign.loadImage, SM_bind_apply, SM_pure_apply, getSt, emitEv, modSt, h,
        insertS, List.count_append]
  · intro st psName
    by_cases h : psName ∈ st.loadedFonts
    · simp [RenderingDesign.loadFont, SM_bind_apply, SM_pure_apply, getSt, emitEv, modSt, h]
    · simp [RenderingDesign.loadFont, SM_bind_apply, SM_pure_apply, getSt, emitEv, modSt, h,
        insertS, List.count_append]

/-- Witness for `loadImage_loadFont_per_key_dedup`: an already-pushed key is
skipped, and staging the bitmap key `"img"` twice on a fresh session issues
exactly one `load-image` command. -/
theorem loadImage_loadFont_per_key_dedup_witness :
    ("img" ∈ (SState.mk [] [] [] [] ["img"] [] [] 0 []).loadedBitmaps
        ∧ RenderingDesign.loadImage "img" (SState.mk [] [] [] [] ["img"] [] [] 0 [])
            = (Except.ok (), SState.mk [] [] [] [] ["img"] [] [] 0 []))
      ∧ ((RenderingDesign.loadImage "img" >>= fun _ => RenderingDesign.loadImage "img")
            (SState.mk [] [] [] [] [] [] [] 0 [])).2.trace.count (Ev.cmdLoadImage "img")
          = (SState.mk [] [] [] [] [] [] [] 0 []).trace.count (Ev.cmdLoadImage "img")
              + (if "img" ∈ (SState.mk [] [] [] [] [] [] [] 0 []).loadedBitmaps then 0 else 1) :=
  ⟨⟨by decide,
      loadImage_loadFont_per_key_dedup.1 (SState.mk [] [] [] [] ["img"] [] [] 0 []) "img"
        (by decide)⟩,
    loadImage_loadFont_per_key_dedup.2.2.1 (SState.mk [] [] [] [] [] [] [] 0 []) "img"⟩

end ODS

namespace ODS

/-! ## Frame lemmas: which state fields a computation can touch -/

/-- `m` preserves the projection `f` of the state. -/
def Preserves {α γ : Type} (f : SState → γ) (m : SM α) : Prop :=
  ∀ st, f ((m st).2) = f st

theorem Preserves.bind_pres {α β γ : Type} {f : SState → γ} {m : SM α} {k : α → SM β}
    (hm : Preserves f m) (hk : ∀ a, Preserves f (k a)) : Preserves f (m >>= k) := by
  intro st
  rw [SM_bind_apply]
  rcases h : m st with ⟨r, st'⟩
  have hst' : f st' = f st := by have := hm st; rw [h] at this; exact this
  cases r with
  | ok a => rw [← hst']; exact hk a st'
  | error e => exact hst'

theorem Preserves.pure_pres {α γ : Type} (f : SState → γ) (a : α) :
    Preserves f (pure a : SM α) := fun _ => rfl

theorem Preserves.throwE_pres {α γ : Type} (f : SState → γ) (e : Err) :
    Preserves f (throwE e : SM α) := fun _ => rfl

theorem Preserves.getSt_pres {γ : Type} (f : SState → γ) : Preserves f getSt := fun _ => rfl

theorem Preserves.liftE_pres {γ : Type} (f : SState → γ) (o : Except Err Unit) :
    Preserves f (liftE o) := fun _ => rfl

theorem Preserves.ite_pres {α γ : Type} {f : SState → γ} (c : Prop) [Decidable c]
    {m m' : SM α} (hm : Preserves f m) (hm' : Preserves f m') :
    Preserves f (if c then m else m') := by
  by_cases h : c <;> simp [h, hm, hm']

/-- The projection of the state the content/asset layer may not touch: the
in-flight registry, the loaded-entity set, the rendering artboards and the
per-design loaded font/bitmap sets. -/
def coreProj (st : SState) :
    List (String × Except Err Unit) × List String × List (String × RAState)
      × List String × List String :=
  (st.loadingArtboardPromises, st.loadedContent, st.renderingArtboards,
    st.loadedFonts, st.loadedBitmaps)

theorem Preserves.emitEv_pres {γ : Type} (f : SState → γ)
    (hf : ∀ st tr, f { st with trace := tr } = f st) (e : Ev) :
    Preserves f (emitEv e) := by
  intro st; exact hf st _

theorem Preserves.observe_pres {γ : Type} (f : SState → γ)
    (hf : ∀ st n, f { st with obsCount := n } = f st) (env : SEnv) :
    Preserves f (observe env) := by
  intro st
  unfold ODS.observe
  rcases env.cancelAt with _ | k
  · exact hf st _
  · by_cases h : k ≤ st.obsCount <;> simp [h] <;> exact hf st _

theorem coreProj_trace : ∀ (st : SState) (tr : List Ev), coreProj { st with trace := tr } = coreProj st := by
  intro st tr; rfl

theorem coreProj_obs : ∀ (st : SState) (n : Nat), coreProj { st with obsCount := n } = coreProj st := by
  intro st n; rfl

theorem Preserves.tokenCall_pres (env : SEnv) (e : Ev) : Preserves coreProj (tokenCall env e) := by
  unfold ODS.tokenCall
  exact Preserves.bind_pres (Preserves.observe_pres _ coreProj_obs env)
    (fun _ => Preserves.emitEv_pres _ coreProj_trace e)

/-- `DesignFacade._loadArtboardContent` only touches the local cache content
set, the observation counter and the trace. -/
theorem loadArtboardContent_core (env : SEnv) (a : String) :
    Preserves coreProj (DesignFacade.loadArtboardContent env a) := by
  unfold DesignFacade.loadArtboardContent
  refine Preserves.ite_pres _ ?_ ?_
  · refine Preserves.bind_pres (Preserves.emitEv_pres _ coreProj_trace _) (fun _ => ?_)
    refine Preserves.bind_pres (Preserves.getSt_pres _) (fun st' => ?_)
    refine Preserves.ite_pres _ (Preserves.tokenCall_pres env _) ?_
    refine Preserves.ite_pres _ ?_ (Preserves.throwE_pres _ _)
    refine Preserves.bind_pres (Preserves.tokenCall_pres env _) (fun _ => ?_)
    refine Preserves.bind_pres (Preserves.tokenCall_pres env _) (fun _ => ?_)
    refine Preserves.bind_pres ?_ (fun _ => Preserves.tokenCall_pres env _)
    intro st; rfl
  · exact Preserves.ite_pres _ (Preserves.tokenCall_pres env _) (Preserves.throwE_pres _ _)

end ODS

namespace ODS

/-! ## Claim C10: the in-flight content-load registry is never cleared -/

theorem Preserves.modSt_pres {γ : Type} {f : SState → γ} {g : SState → SState}
    (h : ∀ st, f (g st) = f st) : Preserves f (modSt g) := fun st => h st

/-- The `_loadingArtboardPromises` registry projection. -/
def registryProj (st : SState) : List (String × Except Err Unit) :=
  st.loadingArtboardPromises

theorem loadArtboardContent_registry (env : SEnv) (a : String) :
    Preserves registryProj (DesignFacade.loadArtboardContent env a) := by
  intro st
  exact congrArg (fun t => t.1) (loadArtboardContent_core env a st)

/-- `DesignFacade.unloadArtboard` never touches the in-flight registry
(design-facade.ts lines 2253-2273 read and write the artboard entity and the
rendering design only). -/
theorem unloadArtboard_registry (env : SEnv) (a : String) :
    Preserves registryProj (DesignFacade.unloadArtboard env a) := by
  unfold DesignFacade.unloadArtboard
  refine Preserves.ite_pres _ (Preserves.throwE_pres _ _) ?_
  refine Preserves.bind_pres (Preserves.getSt_pres _) (fun st1 => ?_)
  refine Preserves.ite_pres _ ?_ (Preserves.pure_pres _ _)
  refine Preserves.bind_pres (Preserves.modSt_pres (fun _ => rfl)) (fun _ => ?_)
  refine Preserves.ite_pres _ ?_ (Preserves.pure_pres _ _)
  unfold RenderingDesign.unloadArtboard
  refine Preserves.bind_pres (Preserves.getSt_pres _) (fun st2 => ?_)
  rcases getA st2.renderingArtboards a with _ | ra
  · exact Preserves.throwE_pres _ _
  · refine Preserves.bind_pres (Preserves.emitEv_pres registryProj (fun _ _ => rfl) _) (fun _ => ?_)
    exact Preserves.ite_pres _ (Preserves.modSt_pres (fun _ => rfl)) (Preserves.throwE_pres _ _)

/-- An entry of the in-flight registry survives any `loadArtboard` call:
the registry is only ever extended at a key that had no entry
(design-facade.ts lines 2183-2199), never removed or overwritten. -/
theorem loadArtboard_registry_mono (env : SEnv) (a : String) (st : SState)
    (a' : String) (o : Except Err Unit)
    (h : getA st.loadingArtboardPromises a' = some o) :
    getA (DesignFacade.loadArtboard env a st).2.loadingArtboardPromises a' = some o := by
  unfold DesignFacade.loadArtboard
  by_cases hf : (findArtboard env a).isNone
  · simpa [hf, throwE] using h
  · simp only [hf, Bool.false_eq_true, if_false, SM_bind_apply, getSt]
    rcases hreg : getA st.loadingArtboardPromises a with _ | o'
    · simp only [hreg]
      by_cases hl : a ∈ st.loadedContent
      · simpa [hl, SM_pure_apply] using h
      · simp only [hl, if_false]
        unfold DesignFacade.recordLoadingPromise
        have hne : a' ≠ a := by
          intro hcontra; rw [hcontra] at h; rw [h] at hreg; cases hreg
        rcases hc : DesignFacade.loadArtboardContent env a st with ⟨r, st'⟩
        have hfr : st'.loadingArtboardPromises = st.loadingArtboardPromises := by
          have := loadArtboardContent_registry env a st
          rw [hc] at this; exact this
        cases r <;> simp [getA_setA_ne _ _ _ _ hne, hfr, h]
    · simpa [hreg, liftE] using h

/-- Operations of a `DesignFacade` usage scenario relevant to the in-flight
registry: `loadArtboard` and `unloadArtboard` calls (each caller awaits the
returned promise; a rejection is caught by the caller and the scenario
continues). -/
inductive FacadeOp where
  | load (artboardId : String)
  | unload (artboardId : String)
deriving DecidableEq

/-- Run a scenario of facade operations, threading the state. -/
def runOps (env : SEnv) : List FacadeOp → SState → SState
  | [], st => st
  | FacadeOp.load a :: rest, st => runOps env rest (DesignFacade.loadArtboard env a st).2
  | FacadeOp.unload a :: rest, st => runOps env rest (DesignFacade.unloadArtboard env a st).2

/-- **C10.** Entries of `_loadingArtboardPromises` are never removed:

1. an entry, once present, survives any sequence of `loadArtboard` /
   `unloadArtboard` calls unchanged;
2. `unloadArtboard` leaves the whole registry untouched;
3. after a failed content load the stored rejected promise makes every later
   `loadArtboard` call for that id reject with the original error while
   changing nothing (no retry, no Content Store call);
4. with a stored resolved promise a later `loadArtboard` resolves while
   changing nothing — in particular, after `unloadArtboard` the artboard
   content is *not* re-fetched (the state, including `loadedContent` and the
   trace, is exactly as before the call);
5. a first load that starts a content read and fails records exactly that
   error in the registry. -/
theorem loadingArtboardPromises_never_removed :
    (∀ (env : SEnv) (ops : List FacadeOp) (st : SState) (a : String) (o : Except Err Unit),
        getA st.loadingArtboardPromises a = some o →
        getA (runOps env ops st).loadingArtboardPromises a = some o)
      ∧ (∀ (env : SEnv) (a : String) (st : SState),
          (DesignFacade.unloadArtboard env a st).2.loadingArtboardPromises
            = st.loadingArtboardPromises)
      ∧ (∀ (env : SEnv) (a : String) (st : SState) (e : Err),
          ¬(findArtboard env a).isNone →
          getA st.loadingArtboardPromises a = some (Except.error e) →
          DesignFacade.loadArtboard env a st = (Except.error e, st))
      ∧ (∀ (env : SEnv) (a : String) (st : SState),
          ¬(findArtboard env a).isNone →
          getA st.loadingArtboardPromises a = some (Except.ok ()) →
          DesignFacade.loadArtboard env a st = (Except.ok (), st))
      ∧ (∀ (env : SEnv) (a : String) (st : SState) (e : Err),
          ¬(findArtboard env a).isNone →
          getA st.loadingArtboardPromises a = none →
          a ∉ st.loadedContent →
          (DesignFacade.loadArtboard env a st).1 = Except.error e →
          getA (DesignFacade.loadArtboard env a st).2.loadingArtboardPromises a
            = some (Except.error e)) := by
  refine ⟨?_, ?_, ?_, ?_, ?_⟩
  · intro env ops
    induction ops with
    | nil => intro st a o h; exact h
    | cons op rest ih =>
        intro st a o h
        cases op with
        | load b => exact ih _ a o (loadArtboard_registry_mono env b st a o h)
        | unload b =>
            refine ih _ a o ?_
            rw [show (DesignFacade.unloadArtboard env b st).2.loadingArtboardPromises
                  = st.loadingArtboardPromises from unloadArtboard_registry env b st]
            exact h
  · intro env a st; exact unloadArtboard_registry env a st
  · intro env a st e hf h
    unfold DesignFacade.loadArtboard
    simp [hf, SM_bind_apply, getSt, h, liftE]
  · intro env a st hf h
    unfold DesignFacade.loadArtboard
    simp [hf, SM_bind_apply, getSt, h, liftE]
  · intro env a st e hf hreg hl hres
    unfold DesignFacade.loadArtboard DesignFacade.recordLoadingPromise at hres ⊢
    simp only [hf, Bool.false_eq_true, if_false, SM_bind_apply, getSt, hreg, hl,
      if_false] at hres ⊢
    rcases hc : DesignFacade.loadArtboardContent env a st with ⟨r, st'⟩
    simp only [hc] at hres ⊢
    cases r with
    | ok _ => simp at hres
    | error e' =>
        simp only at hres
        have he : e' = e := by
          simpa using congrArg (fun x =>
            match x with | Except.error e0 => e0 | _ => e') hres
        subst he
        simp [getA_setA_self]

/-- A concrete environment for the registry scenario: one artboard `"A"`,
a local design, no rendering design. -/
def envRegistry : SEnv :=
  SEnv.mk ⟨[⟨"A", none, none⟩], fun _ => [], false, true, true, true, false,
    true, true, true, true, fun _ => none, fun _ => [], fun _ => []⟩ none

/-- A concrete state whose registry holds a rejected loading promise for
`"A"`. -/
def stRegistry : SState :=
  SState.mk [("A", Except.error Err.cannotLoad)] [] [] [] [] [] [] 0 []

/-- Witness for `loadingArtboardPromises_never_removed`: a stored rejected
promise survives a load/unload scenario and replays its error. -/
theorem loadingArtboardPromises_never_removed_witness :
    (getA stRegistry.loadingArtboardPromises "A" = some (Except.error Err.cannotLoad))
      ∧ getA (runOps envRegistry [FacadeOp.load "A", FacadeOp.unload "A", FacadeOp.load "A"]
            stRegistry).loadingArtboardPromises "A" = some (Except.error Err.cannotLoad)
      ∧ (¬(findArtboard envRegistry "A").isNone
          ∧ DesignFacade.loadArtboard envRegistry "A" stRegistry
              = (Except.error Err.cannotLoad, stRegistry)) := by
  refine ⟨by decide, ?_, by decide, ?_⟩
  · exact loadingArtboardPromises_never_removed.1 envRegistry _ stRegistry "A" _ (by decide)
  · exact loadingArtboardPromises_never_removed.2.2.1 envRegistry "A" stRegistry
      Err.cannotLoad (by decide) (by decide)

end ODS

namespace ODS

/-! ## Lemmas about `firstDedup` and `mergeArrays` -/

theorem mem_firstDedup {α : Type} [DecidableEq α] {l : List α} {x : α} :
    x ∈ firstDedup l ↔ x ∈ l := by
  induction l with
  | nil => simp [firstDedup]
  | cons y l ih =>
      by_cases hxy : x = y
      · simp [firstDedup, hxy]
      · simp [firstDedup, hxy, List.mem_filter, ih]

theorem nodup_firstDedup {α : Type} [DecidableEq α] (l : List α) :
    (firstDedup l).Nodup := by
  induction l with
  | nil => simp [firstDedup]
  | cons y l ih =>
      simp only [firstDedup, List.nodup_cons]
      constructor
      · intro hy
        exact (by simpa using (List.mem_filter.mp hy).2 : ¬(y = y)) rfl
      · exact ih.filter _

theorem filter_firstDedup {α : Type} [DecidableEq α] (p : α → Bool) (l : List α) :
    (firstDedup l).filter p = firstDedup (l.filter p) := by
  induction l with
  | nil => simp [firstDedup]
  | cons y l ih =>
      by_cases hp : p y
      · simp only [firstDedup, List.filter_cons, hp, if_true]
        simp only [firstDedup, List.filter_filter, ← ih, List.filter_cons, hp]
        congr 1
        apply List.filter_congr
        intro z _
        simp [Bool.and_comm]
      · simp only [firstDedup, List.filter_cons, hp]
        simp only [Bool.false_eq_true, if_false, ← ih, List.filter_filter]
        apply List.filter_congr
        intro z _
        by_cases hz : p z
        · have : ¬(z = y) := by intro h; rw [h] at hz; exact absurd hz (by simpa using hp)
          simp [hz, this]
        · simp [hz]

theorem firstDedup_nodup_self {α : Type} [DecidableEq α] {l : List α} (h : l.Nodup) :
    firstDedup l = l := by
  induction l with
  | nil => rfl
  | cons y l ih =>
      simp only [List.nodup_cons] at h
      simp only [firstDedup, ih h.2]
      congr 1
      apply List.filter_eq_self.mpr
      intro z hz
      simp only [decide_eq_true_eq]
      intro hzy
      rw [hzy] at hz
      exact h.1 hz

theorem mem_mergeArrays {α : Type} [DecidableEq α] {a b : List α} {x : α} :
    x ∈ mergeArrays a b ↔ x ∈ a ∨ x ∈ b := by
  simp [mergeArrays, mem_firstDedup]

theorem mergeArrays_nodup {α : Type} [DecidableEq α] (a b : List α) :
    (mergeArrays a b).Nodup := nodup_firstDedup _

theorem mergeArrays_absorb {α : Type} [DecidableEq α] {a b : List α}
    (ha : a.Nodup) (hb : ∀ x ∈ b, x ∈ a) : mergeArrays a b = a := by
  unfold mergeArrays
  induction a generalizing b with
  | nil =>
      have : b = [] := by
        cases b with
        | nil => rfl
        | cons z b => exact absurd (hb z (by simp)) (by simp)
      simp [this, firstDedup]
  | cons y a ih =>
      simp only [List.nodup_cons] at ha
      simp only [List.cons_append, firstDedup]
      congr 1
      rw [filter_firstDedup]
      simp only [List.append_eq]
      rw [List.filter_append]
      have h1 : a.filter (fun z => decide ¬(z = y)) = a := by
        apply List.filter_eq_self.mpr
        intro z hz
        simp only [decide_not, Bool.not_eq_true', decide_eq_false_iff_not]
        intro hzy
        rw [hzy] at hz
        exact ha.1 hz
      rw [h1]
      apply ih ha.2
      intro x hx
      simp only [List.mem_filter] at hx
      rcases List.mem_cons.mp (hb x hx.1) with h | h
      · exact absurd h (by simpa using hx.2)
      · exact h

theorem mem_firstDedup_self_append {α : Type} [DecidableEq α] {l : List α} {x : α} :
    x ∈ firstDedup (l ++ l) ↔ x ∈ l := by
  simp [mem_firstDedup]

end ODS

namespace ODS

/-! ## The aggregation invariant of `keepUniqueBitmapAssetDescriptors` -/

theorem nodup_key_unique {β : Type} {f : β → String} {l : List β}
    (h : (l.map f).Nodup) {a b : β} (ha : a ∈ l) (hb : b ∈ l) (hf : f a = f b) :
    a = b := by
  induction l with
  | nil => cases ha
  | cons y l ih =>
      simp only [List.map_cons, List.nodup_cons] at h
      rcases List.mem_cons.mp ha with ha' | ha' <;> rcases List.mem_cons.mp hb with hb' | hb'
      · rw [ha', hb']
      · exact absurd (by rw [ha'] at hf; rw [hf]; exact List.mem_map_of_mem f hb') h.1
      · exact absurd (by rw [hb'] at hf; rw [← hf]; exact List.mem_map_of_mem f ha') h.1
      · exact ih h.2 ha' hb'

theorem map_self {β : Type} {l : List β} {f : β → β} (h : ∀ a ∈ l, f a = a) :
    l.map f = l := by
  rw [List.map_congr_left h, List.map_id']

/-- The invariant tying the accumulated unique-descriptor map (in value
insertion order) of `keepUniqueBitmapAssetDescriptors` to the descriptors
processed so far: names are unique and come exactly from the processed
descriptors, stored layer-id lists are duplicate-free, and a layer id is
stored under a name exactly when some processed descriptor carried it. -/
structure BAggInv (acc seen : List AggregatedBitmapAssetDescriptor) : Prop where
  namesNodup : (acc.map (fun u => u.name)).Nodup
  idsNodup : ∀ u ∈ acc, u.layerIds.Nodup
  covers : ∀ d ∈ seen, ∃ u ∈ acc, u.name = d.name ∧ ∀ x ∈ d.layerIds, x ∈ u.layerIds
  memIff : ∀ n x, (∃ u ∈ acc, u.name = n ∧ x ∈ u.layerIds)
      ↔ ∃ d ∈ seen, d.name = n ∧ x ∈ d.layerIds
  keyIff : ∀ n, (∃ u ∈ acc, u.name = n) ↔ ∃ d ∈ seen, d.name = n

theorem BAggInv.initialB : BAggInv [] [] := by
  constructor <;> simp

theorem BAggInv.stepB {acc seen : List AggregatedBitmapAssetDescriptor}
    (h : BAggInv acc seen) (d : AggregatedBitmapAssetDescriptor) :
    BAggInv (keepUniqueBitmapStep acc d) (seen ++ [d]) := by
  unfold keepUniqueBitmapStep
  rcases hfind : acc.find? (fun u => u.name = d.name) with _ | u
  all_goals simp only [hfind]
  · have hnone : ∀ u ∈ acc, ¬(u.name = d.name) := by
      intro u hu
      have := List.find?_eq_none.mp hfind u hu
      simpa using this
    constructor
    · simp only [List.map_append, List.map_cons, List.map_nil]
      rw [List.nodup_append]
      refine ⟨h.namesNodup, List.nodup_singleton _, ?_⟩
      intro n hn hmem
      simp only [List.mem_singleton] at hmem
      rcases List.mem_map.mp hn with ⟨u, hu, hun⟩
      exact hnone u hu (by rw [hun, hmem])
    · intro u hu
      rcases List.mem_append.mp hu with hu' | hu'
      · exact h.idsNodup u hu'
      · simp only [List.mem_singleton] at hu'
        rw [hu']
        exact mergeArrays_nodup _ _
    · intro d0 hd0
      rcases List.mem_append.mp hd0 with hd' | hd'
      · rcases h.covers d0 hd' with ⟨u, hu, hn, hsub⟩
        exact ⟨u, List.mem_append_left _ hu, hn, hsub⟩
      · simp only [List.mem_singleton] at hd'
        refine ⟨{ name := d.name, layerIds := mergeArrays [] d.layerIds, prerendered := d.prerendered },
          List.mem_append_right _ (by simp), by simp [hd'], ?_⟩
        intro x hx
        rw [hd'] at hx
        exact mem_mergeArrays.mpr (Or.inr hx)
    · intro n x
      constructor
      · rintro ⟨u, hu, hn, hx⟩
        rcases List.mem_append.mp hu with hu' | hu'
        · rcases (h.memIff n x).mp ⟨u, hu', hn, hx⟩ with ⟨d0, hd0, hd0n, hd0x⟩
          exact ⟨d0, List.mem_append_left _ hd0, hd0n, hd0x⟩
        · simp only [List.mem_singleton] at hu'
          rw [hu'] at hn hx
          simp only at hn hx
          refine ⟨d, List.mem_append_right _ (by simp), hn, ?_⟩
          rcases mem_mergeArrays.mp hx with hx' | hx'
          · cases hx'
          · exact hx'
      · rintro ⟨d0, hd0, hd0n, hd0x⟩
        rcases List.mem_append.mp hd0 with hd' | hd'
        · rcases (h.memIff n x).mpr ⟨d0, hd', hd0n, hd0x⟩ with ⟨u, hu, hn, hx⟩
          exact ⟨u, List.mem_append_left _ hu, hn, hx⟩
        · simp only [List.mem_singleton] at hd'
          rw [hd'] at hd0n hd0x
          refine ⟨{ name := d.name, layerIds := mergeArrays [] d.layerIds, prerendered := d.prerendered },
            List.mem_append_right _ (by simp), by simp [hd0n], ?_⟩
          exact mem_mergeArrays.mpr (Or.inr hd0x)
    · intro n
      constructor
      · rintro ⟨u, hu, hn⟩
        rcases List.mem_append.mp hu with hu' | hu'
        · rcases (h.keyIff n).mp ⟨u, hu', hn⟩ with ⟨d0, hd0, hd0n⟩
          exact ⟨d0, List.mem_append_left _ hd0, hd0n⟩
        · simp only [List.mem_singleton] at hu'
          rw [hu'] at hn
          exact ⟨d, List.mem_append_right _ (by simp), hn⟩
      · rintro ⟨d0, hd0, hd0n⟩
        rcases List.mem_append.mp hd0 with hd' | hd'
        · rcases (h.keyIff n).mpr ⟨d0, hd', hd0n⟩ with ⟨u, hu, hn⟩
          exact ⟨u, List.mem_append_left _ hu, hn⟩
        · simp only [List.mem_singleton] at hd'
          rw [hd'] at hd0n
          exact ⟨{ name := d.name, layerIds := mergeArrays [] d.layerIds, prerendered := d.prerendered },
            List.mem_append_right _ (by simp), by simp [hd0n]⟩
  · have hu_mem : u ∈ acc := List.mem_of_find?_eq_some hfind
    have hu_name : u.name = d.name := by simpa using List.find?_some hfind
    have huniq : ∀ v ∈ acc, v.name = d.name → v = u := by
      intro v hv hvn
      exact nodup_key_unique h.namesNodup hv hu_mem (by rw [hvn, hu_name])
    have hmem_new : ∀ w,
        w ∈ acc.map (fun v =>
          if v.name = d.name then { u with layerIds := mergeArrays u.layerIds d.layerIds }
          else v)
          ↔ (w = { u with layerIds := mergeArrays u.layerIds d.layerIds }
              ∨ (w ∈ acc ∧ ¬(w.name = d.name))) := by
      intro w
      constructor
      · intro hw
        rcases List.mem_map.mp hw with ⟨v, hv, hvw⟩
        by_cases hvn : v.name = d.name
        · rw [if_pos hvn] at hvw
          exact Or.inl hvw.symm
        · rw [if_neg hvn] at hvw
          exact Or.inr ⟨hvw ▸ hv, hvw ▸ hvn⟩
      · intro hw
        rcases hw with hw | ⟨hw, hwn⟩
        · exact List.mem_map.mpr ⟨u, hu_mem, by rw [if_pos hu_name, hw]⟩
        · exact List.mem_map.mpr ⟨w, hw, by rw [if_neg hwn]⟩
    have hnames : (acc.map (fun v =>
        if v.name = d.name then { u with layerIds := mergeArrays u.layerIds d.layerIds }
        else v)).map (fun u => u.name) = acc.map (fun u => u.name) := by
      rw [List.map_map]
      apply List.map_congr_left
      intro v _
      by_cases hvn : v.name = d.name
      · simp only [Function.comp_apply, if_pos hvn]
        rw [hu_name, hvn]
      · simp [Function.comp_apply, if_neg hvn]
    constructor
    · rw [hnames]; exact h.namesNodup
    · intro w hw
      rcases (hmem_new w).mp hw with hw' | ⟨hw', _⟩
      · rw [hw']; exact mergeArrays_nodup _ _
      · exact h.idsNodup w hw'
    · intro d0 hd0
      rcases List.mem_append.mp hd0 with hd' | hd'
      · rcases h.covers d0 hd' with ⟨u0, hu0, hu0n, hsub⟩
        by_cases hcase : u0.name = d.name
        · have : u0 = u := huniq u0 hu0 hcase
          refine ⟨{ u with layerIds := mergeArrays u.layerIds d.layerIds },
            (hmem_new _).mpr (Or.inl rfl), by simpa using this ▸ hu0n, ?_⟩
          intro x hx
          exact mem_mergeArrays.mpr (Or.inl (this ▸ hsub x hx))
        · exact ⟨u0, (hmem_new u0).mpr (Or.inr ⟨hu0, hcase⟩), hu0n, hsub⟩
      · simp only [List.mem_singleton] at hd'
        refine ⟨{ u with layerIds := mergeArrays u.layerIds d.layerIds },
          (hmem_new _).mpr (Or.inl rfl), by simpa using hd' ▸ hu_name, ?_⟩
        intro x hx
        exact mem_mergeArrays.mpr (Or.inr (hd' ▸ hx))
    · intro n x
      constructor
      · rintro ⟨w, hw, hwn, hwx⟩
        rcases (hmem_new w).mp hw with hw' | ⟨hw', hwname⟩
        · rw [hw'] at hwn hwx
          simp only at hwn hwx
          rcases mem_mergeArrays.mp hwx with hx' | hx'
          · rcases (h.memIff n x).mp ⟨u, hu_mem, by rw [← hwn], hx'⟩ with ⟨d0, hd0, hn0, hx0⟩
            exact ⟨d0, List.mem_append_left _ hd0, hn0, hx0⟩
          · exact ⟨d, List.mem_append_right _ (by simp), by rw [← hwn, hu_name], hx'⟩
        · rcases (h.memIff n x).mp ⟨w, hw', hwn, hwx⟩ with ⟨d0, hd0, hn0, hx0⟩
          exact ⟨d0, List.mem_append_left _ hd0, hn0, hx0⟩
      · rintro ⟨d0, hd0, hd0n, hd0x⟩
        rcases List.mem_append.mp hd0 with hd' | hd'
        · rcases (h.memIff n x).mpr ⟨d0, hd', hd0n, hd0x⟩ with ⟨u0, hu0, hu0n, hu0x⟩
          by_cases hcase : u0.name = d.name
          · have : u0 = u := huniq u0 hu0 hcase
            refine ⟨{ u with layerIds := mergeArrays u.layerIds d.layerIds },
              (hmem_new _).mpr (Or.inl rfl), by simpa using this ▸ hu0n, ?_⟩
            exact mem_mergeArrays.mpr (Or.inl (this ▸ hu0x))
          · exact ⟨u0, (hmem_new u0).mpr (Or.inr ⟨hu0, hcase⟩), hu0n, hu0x⟩
        · simp only [List.mem_singleton] at hd'
          rw [hd'] at hd0n hd0x
          refine ⟨{ u with layerIds := mergeArrays u.layerIds d.layerIds },
            (hmem_new _).mpr (Or.inl rfl), by simpa using hu_name.trans hd0n, ?_⟩
          exact mem_mergeArrays.mpr (Or.inr hd0x)
    · intro n
      constructor
      · rintro ⟨w, hw, hwn⟩
        rcases (hmem_new w).mp hw with hw' | ⟨hw', _⟩
        · rw [hw'] at hwn
          simp only at hwn
          rcases (h.keyIff n).mp ⟨u, hu_mem, hwn⟩ with ⟨d0, hd0, hn0⟩
          exact ⟨d0, List.mem_append_left _ hd0, hn0⟩
        · rcases (h.keyIff n).mp ⟨w, hw', hwn⟩ with ⟨d0, hd0, hn0⟩
          exact ⟨d0, List.mem_append_left _ hd0, hn0⟩
      · rintro ⟨d0, hd0, hd0n⟩
        rcases List.mem_append.mp hd0 with hd' | hd'
        · rcases (h.keyIff n).mpr ⟨d0, hd', hd0n⟩ with ⟨u0, hu0, hu0n⟩
          by_cases hcase : u0.name = d.name
          · exact ⟨{ u with layerIds := mergeArrays u.layerIds d.layerIds },
              (hmem_new _).mpr (Or.inl rfl), by simpa using (huniq u0 hu0 hcase) ▸ hu0n⟩
          · exact ⟨u0, (hmem_new u0).mpr (Or.inr ⟨hu0, hcase⟩), hu0n⟩
        · simp only [List.mem_singleton] at hd'
          rw [hd'] at hd0n
          exact ⟨{ u with layerIds := mergeArrays u.layerIds d.layerIds },
            (hmem_new _).mpr (Or.inl rfl), by simpa using hu_name.trans hd0n⟩

theorem BAggInv.foldB {acc seen : List AggregatedBitmapAssetDescriptor}
    (l : List AggregatedBitmapAssetDescriptor) (h : BAggInv acc seen) :
    BAggInv (l.foldl keepUniqueBitmapStep acc) (seen ++ l) := by
  induction l generalizing acc seen with
  | nil => simpa using h
  | cons d l ih =>
      have := ih (h.stepB d)
      simpa using this

theorem keepUniqueBitmap_inv (l : List AggregatedBitmapAssetDescriptor) :
    BAggInv (keepUniqueBitmapAssetDescriptors l) l := by
  have := @BAggInv.foldB [] [] l BAggInv.initialB
  simpa [keepUniqueBitmapAssetDescriptors] using this

end ODS

namespace ODS

theorem keepUniqueBitmapStep_absorb {acc seen : List AggregatedBitmapAssetDescriptor}
    {d : AggregatedBitmapAssetDescriptor} (h : BAggInv acc seen) (hd : d ∈ seen) :
    keepUniqueBitmapStep acc d = acc := by
  rcases h.covers d hd with ⟨u0, hu0, hu0n, hsub⟩
  unfold keepUniqueBitmapStep
  rcases hfind : acc.find? (fun u => u.name = d.name) with _ | u
  all_goals simp only [hfind]
  · exact absurd hu0n (by simpa using List.find?_eq_none.mp hfind u0 hu0)
  · have hu_mem : u ∈ acc := List.mem_of_find?_eq_some hfind
    have hu_name : u.name = d.name := by simpa using List.find?_some hfind
    have hu0u : u0 = u :=
      nodup_key_unique h.namesNodup hu0 hu_mem (hu0n.trans hu_name.symm)
    have hmerge : mergeArrays u.layerIds d.layerIds = u.layerIds :=
      mergeArrays_absorb (h.idsNodup u hu_mem) (fun x hx => hu0u ▸ hsub x hx)
    apply map_self
    intro v hv
    by_cases hvn : v.name = d.name
    · have hv_eq : v = u := nodup_key_unique h.namesNodup hv hu_mem (hvn.trans hu_name.symm)
      rw [if_pos hvn, hmerge, hv_eq]
    · rw [if_neg hvn]

theorem keepUniqueBitmap_second_pass {acc : List AggregatedBitmapAssetDescriptor}
    {l l' : List AggregatedBitmapAssetDescriptor} (h : BAggInv acc l)
    (hsub : ∀ d ∈ l', d ∈ l) : l'.foldl keepUniqueBitmapStep acc = acc := by
  induction l' with
  | nil => rfl
  | cons d l' ih =>
      rw [List.foldl_cons, keepUniqueBitmapStep_absorb h (hsub d (by simp))]
      exact ih (fun d0 hd0 => hsub d0 (List.mem_cons_of_mem _ hd0))

theorem keepUniqueBitmap_idem (l : List AggregatedBitmapAssetDescriptor) :
    keepUniqueBitmapAssetDescriptors (l ++ l) = keepUniqueBitmapAssetDescriptors l := by
  show (l ++ l).foldl keepUniqueBitmapStep [] = keepUniqueBitmapAssetDescriptors l
  rw [List.foldl_append]
  exact keepUniqueBitmap_second_pass (keepUniqueBitmap_inv l) (fun d hd => hd)

/-! ## The aggregation invariant of `keepUniqueFontDescriptors` -/

/-- The font analog of `BAggInv`, additionally covering the merged
`fontTypes` sets. -/
structure FAggInv (acc seen : List AggregatedFontDescriptor) : Prop where
  namesNodup : (acc.map (fun u => u.fontPostScriptName)).Nodup
  idsNodup : ∀ u ∈ acc, u.layerIds.Nodup
  typesNodup : ∀ u ∈ acc, u.fontTypes.Nodup
  covers : ∀ d ∈ seen, ∃ u ∈ acc, u.fontPostScriptName = d.fontPostScriptName
      ∧ (∀ x ∈ d.layerIds, x ∈ u.layerIds) ∧ (∀ t ∈ d.fontTypes, t ∈ u.fontTypes)
  memIff : ∀ n x, (∃ u ∈ acc, u.fontPostScriptName = n ∧ x ∈ u.layerIds)
      ↔ ∃ d ∈ seen, d.fontPostScriptName = n ∧ x ∈ d.layerIds
  typesIff : ∀ n t, (∃ u ∈ acc, u.fontPostScriptName = n ∧ t ∈ u.fontTypes)
      ↔ ∃ d ∈ seen, d.fontPostScriptName = n ∧ t ∈ d.fontTypes
  keyIff : ∀ n, (∃ u ∈ acc, u.fontPostScriptName = n) ↔ ∃ d ∈ seen, d.fontPostScriptName = n

theorem FAggInv.initialF : FAggInv [] [] := by
  constructor <;> simp

end ODS

namespace ODS

theorem FAggInv.stepF {acc seen : List AggregatedFontDescriptor}
    (h : FAggInv acc seen) (d : AggregatedFontDescriptor) :
    FAggInv (keepUniqueFontStep acc d) (seen ++ [d]) := by
  unfold keepUniqueFontStep
  rcases hfind : acc.find? (fun u => u.fontPostScriptName = d.fontPostScriptName) with _ | u
  all_goals simp only [hfind]
  · have hnone : ∀ u ∈ acc, ¬(u.fontPostScriptName = d.fontPostScriptName) := by
      intro u hu
      simpa using List.find?_eq_none.mp hfind u hu
    constructor
    · simp only [List.map_append, List.map_cons, List.map_nil]
      rw [List.nodup_append]
      refine ⟨h.namesNodup, List.nodup_singleton _, ?_⟩
      intro n hn hmem
      simp only [List.mem_singleton] at hmem
      rcases List.mem_map.mp hn with ⟨u, hu, hun⟩
      exact hnone u hu (by rw [hun, hmem])
    · intro u hu
      rcases List.mem_append.mp hu with hu' | hu'
      · exact h.idsNodup u hu'
      · simp only [List.mem_singleton] at hu'
        rw [hu']
        exact mergeArrays_nodup _ _
    · intro u hu
      rcases List.mem_append.mp hu with hu' | hu'
      · exact h.typesNodup u hu'
      · simp only [List.mem_singleton] at hu'
        rw [hu']
        exact mergeArrays_nodup _ _
    · intro d0 hd0
      rcases List.mem_append.mp hd0 with hd' | hd'
      · rcases h.covers d0 hd' with ⟨u, hu, hn, hsub, htsub⟩
        exact ⟨u, List.mem_append_left _ hu, hn, hsub, htsub⟩
      · simp only [List.mem_singleton] at hd'
        refine ⟨{ fontPostScriptName := d.fontPostScriptName, fontPostScriptNameSynthetic := d.fontPostScriptNameSynthetic, fontTypes := mergeArrays d.fontTypes d.fontTypes, fontName := d.fontName, layerIds := mergeArrays [] d.layerIds },
          List.mem_append_right _ (by simp), by simp [hd'], ?_, ?_⟩
        · intro x hx
          rw [hd'] at hx
          exact mem_mergeArrays.mpr (Or.inr hx)
        · intro t ht
          rw [hd'] at ht
          exact mem_mergeArrays.mpr (Or.inr ht)
    · intro n x
      constructor
      · rintro ⟨u, hu, hn, hx⟩
        rcases List.mem_append.mp hu with hu' | hu'
        · rcases (h.memIff n x).mp ⟨u, hu', hn, hx⟩ with ⟨d0, hd0, hd0n, hd0x⟩
          exact ⟨d0, List.mem_append_left _ hd0, hd0n, hd0x⟩
        · simp only [List.mem_singleton] at hu'
          rw [hu'] at hn hx
          simp only at hn hx
          refine ⟨d, List.mem_append_right _ (by simp), hn, ?_⟩
          rcases mem_mergeArrays.mp hx with hx' | hx'
          · cases hx'
          · exact hx'
      · rintro ⟨d0, hd0, hd0n, hd0x⟩
        rcases List.mem_append.mp hd0 with hd' | hd'
        · rcases (h.memIff n x).mpr ⟨d0, hd', hd0n, hd0x⟩ with ⟨u, hu, hn, hx⟩
          exact ⟨u, List.mem_append_left _ hu, hn, hx⟩
        · simp only [List.mem_singleton] at hd'
          rw [hd'] at hd0n hd0x
          refine ⟨{ fontPostScriptName := d.fontPostScriptName, fontPostScriptNameSynthetic := d.fontPostScriptNameSynthetic, fontTypes := mergeArrays d.fontTypes d.fontTypes, fontName := d.fontName, layerIds := mergeArrays [] d.layerIds },
            List.mem_append_right _ (by simp), by simp [hd0n], ?_⟩
          exact mem_mergeArrays.mpr (Or.inr hd0x)
    · intro n t
      constructor
      · rintro ⟨u, hu, hn, ht⟩
        rcases List.mem_append.mp hu with hu' | hu'
        · rcases (h.typesIff n t).mp ⟨u, hu', hn, ht⟩ with ⟨d0, hd0, hd0n, hd0t⟩
          exact ⟨d0, List.mem_append_left _ hd0, hd0n, hd0t⟩
        · simp only [List.mem_singleton] at hu'
          rw [hu'] at hn ht
          simp only at hn ht
          refine ⟨d, List.mem_append_right _ (by simp), hn, ?_⟩
          rcases mem_mergeArrays.mp ht with ht' | ht'
          · exact ht'
          · exact ht'
      · rintro ⟨d0, hd0, hd0n, hd0t⟩
        rcases List.mem_append.mp hd0 with hd' | hd'
        · rcases (h.typesIff n t).mpr ⟨d0, hd', hd0n, hd0t⟩ with ⟨u, hu, hn, ht⟩
          exact ⟨u, List.mem_append_left _ hu, hn, ht⟩
        · simp only [List.mem_singleton] at hd'
          rw [hd'] at hd0n hd0t
          refine ⟨{ fontPostScriptName := d.fontPostScriptName, fontPostScriptNameSynthetic := d.fontPostScriptNameSynthetic, fontTypes := mergeArrays d.fontTypes d.fontTypes, fontName := d.fontName, layerIds := mergeArrays [] d.layerIds },
            List.mem_append_right _ (by simp), by simp [hd0n], ?_⟩
          exact mem_mergeArrays.mpr (Or.inr hd0t)
    · intro n
      constructor
      · rintro ⟨u, hu, hn⟩
        rcases List.mem_append.mp hu with hu' | hu'
        · rcases (h.keyIff n).mp ⟨u, hu', hn⟩ with ⟨d0, hd0, hd0n⟩
          exact ⟨d0, List.mem_append_left _ hd0, hd0n⟩
        · simp only [List.mem_singleton] at hu'
          rw [hu'] at hn
          exact ⟨d, List.mem_append_right _ (by simp), hn⟩
      · rintro ⟨d0, hd0, hd0n⟩
        rcases List.mem_append.mp hd0 with hd' | hd'
        · rcases (h.keyIff n).mpr ⟨d0, hd', hd0n⟩ with ⟨u, hu, hn⟩
          exact ⟨u, List.mem_append_left _ hu, hn⟩
        · simp only [List.mem_singleton] at hd'
          rw [hd'] at hd0n
          exact ⟨{ fontPostScriptName := d.fontPostScriptName, fontPostScriptNameSynthetic := d.fontPostScriptNameSynthetic, fontTypes := mergeArrays d.fontTypes d.fontTypes, fontName := d.fontName, layerIds := mergeArrays [] d.layerIds },
            List.mem_append_right _ (by simp), by simp [hd0n]⟩
  · have hu_mem : u ∈ acc := List.mem_of_find?_eq_some hfind
    have hu_name : u.fontPostScriptName = d.fontPostScriptName := by
      simpa using List.find?_some hfind
    have huniq : ∀ v ∈ acc, v.fontPostScriptName = d.fontPostScriptName → v = u := by
      intro v hv hvn
      exact nodup_key_unique h.namesNodup hv hu_mem (by rw [hvn, hu_name])
    have hmem_new : ∀ w,
        w ∈ acc.map (fun v =>
          if v.fontPostScriptName = d.fontPostScriptName then
            { u with fontTypes := mergeArrays u.fontTypes d.fontTypes, layerIds := mergeArrays u.layerIds d.layerIds }
          else v)
          ↔ (w = { u with fontTypes := mergeArrays u.fontTypes d.fontTypes, layerIds := mergeArrays u.layerIds d.layerIds }
              ∨ (w ∈ acc ∧ ¬(w.fontPostScriptName = d.fontPostScriptName))) := by
      intro w
      constructor
      · intro hw
        rcases List.mem_map.mp hw with ⟨v, hv, hvw⟩
        by_cases hvn : v.fontPostScriptName = d.fontPostScriptName
        · rw [if_pos hvn] at hvw
          exact Or.inl hvw.symm
        · rw [if_neg hvn] at hvw
          exact Or.inr ⟨hvw ▸ hv, hvw ▸ hvn⟩
      · intro hw
        rcases hw with hw | ⟨hw, hwn⟩
        · exact List.mem_map.mpr ⟨u, hu_mem, by rw [if_pos hu_name, hw]⟩
        · exact List.mem_map.mpr ⟨w, hw, by rw [if_neg hwn]⟩
    have hnames : (acc.map (fun v =>
        if v.fontPostScriptName = d.fontPostScriptName then
          { u with fontTypes := mergeArrays u.fontTypes d.fontTypes, layerIds := mergeArrays u.layerIds d.layerIds }
        else v)).map (fun u => u.fontPostScriptName)
          = acc.map (fun u => u.fontPostScriptName) := by
      rw [List.map_map]
      apply List.map_congr_left
      intro v _
      by_cases hvn : v.fontPostScriptName = d.fontPostScriptName
      · simp only [Function.comp_apply, if_pos hvn]
        rw [hu_name, hvn]
      · simp [Function.comp_apply, if_neg hvn]
    constructor
    · rw [hnames]; exact h.namesNodup
    · intro w hw
      rcases (hmem_new w).mp hw with hw' | ⟨hw', _⟩
      · rw [hw']; exact mergeArrays_nodup _ _
      · exact h.idsNodup w hw'
    · intro w hw
      rcases (hmem_new w).mp hw with hw' | ⟨hw', _⟩
      · rw [hw']; exact mergeArrays_nodup _ _
      · exact h.typesNodup w hw'
    · intro d0 hd0
      rcases List.mem_append.mp hd0 with hd' | hd'
      · rcases h.covers d0 hd' with ⟨u0, hu0, hu0n, hsub, htsub⟩
        by_cases hcase : u0.fontPostScriptName = d.fontPostScriptName
        · have hu0u : u0 = u := huniq u0 hu0 hcase
          refine ⟨_, (hmem_new _).mpr (Or.inl rfl), by simpa using hu0u ▸ hu0n, ?_, ?_⟩
          · intro x hx
            exact mem_mergeArrays.mpr (Or.inl (hu0u ▸ hsub x hx))
          · intro t ht
            exact mem_mergeArrays.mpr (Or.inl (hu0u ▸ htsub t ht))
        · exact ⟨u0, (hmem_new u0).mpr (Or.inr ⟨hu0, hcase⟩), hu0n, hsub, htsub⟩
      · simp only [List.mem_singleton] at hd'
        refine ⟨_, (hmem_new _).mpr (Or.inl rfl), by simpa using hd' ▸ hu_name, ?_, ?_⟩
        · intro x hx
          exact mem_mergeArrays.mpr (Or.inr (hd' ▸ hx))
        · intro t ht
          exact mem_mergeArrays.mpr (Or.inr (hd' ▸ ht))
    · intro n x
      constructor
      · rintro ⟨w, hw, hwn, hwx⟩
        rcases (hmem_new w).mp hw with hw' | ⟨hw', hwname⟩
        · rw [hw'] at hwn hwx
          simp only at hwn hwx
          rcases mem_mergeArrays.mp hwx with hx' | hx'
          · rcases (h.memIff n x).mp ⟨u, hu_mem, by rw [← hwn], hx'⟩ with ⟨d0, hd0, hn0, hx0⟩
            exact ⟨d0, List.mem_append_left _ hd0, hn0, hx0⟩
          · exact ⟨d, List.mem_append_right _ (by simp), by rw [← hwn, hu_name], hx'⟩
        · rcases (h.memIff n x).mp ⟨w, hw', hwn, hwx⟩ with ⟨d0, hd0, hn0, hx0⟩
          exact ⟨d0, List.mem_append_left _ hd0, hn0, hx0⟩
      · rintro ⟨d0, hd0, hd0n, hd0x⟩
        rcases List.mem_append.mp hd0 with hd' | hd'
        · rcases (h.memIff n x).mpr ⟨d0, hd', hd0n, hd0x⟩ with ⟨u0, hu0, hu0n, hu0x⟩
          by_cases hcase : u0.fontPostScriptName = d.fontPostScriptName
          · have hu0u : u0 = u := huniq u0 hu0 hcase
            refine ⟨_, (hmem_new _).mpr (Or.inl rfl), by simpa using hu0u ▸ hu0n, ?_⟩
            exact mem_mergeArrays.mpr (Or.inl (hu0u ▸ hu0x))
          · exact ⟨u0, (hmem_new u0).mpr (Or.inr ⟨hu0, hcase⟩), hu0n, hu0x⟩
        · simp only [List.mem_singleton] at hd'
          rw [hd'] at hd0n hd0x
          refine ⟨_, (hmem_new _).mpr (Or.inl rfl), by simpa using hu_name.trans hd0n, ?_⟩
          exact mem_mergeArrays.mpr (Or.inr hd0x)
    · intro n t
      constructor
      · rintro ⟨w, hw, hwn, hwt⟩
        rcases (hmem_new w).mp hw with hw' | ⟨hw', hwname⟩
        · rw [hw'] at hwn hwt
          simp only at hwn hwt
          rcases mem_mergeArrays.mp hwt with ht' | ht'
          · rcases (h.typesIff n t).mp ⟨u, hu_mem, by rw [← hwn], ht'⟩ with ⟨d0, hd0, hn0, ht0⟩
            exact ⟨d0, List.mem_append_left _ hd0, hn0, ht0⟩
          · exact ⟨d, List.mem_append_right _ (by simp), by rw [← hwn, hu_name], ht'⟩
        · rcases (h.typesIff n t).mp ⟨w, hw', hwn, hwt⟩ with ⟨d0, hd0, hn0, ht0⟩
          exact ⟨d0, List.mem_append_left _ hd0, hn0, ht0⟩
      · rintro ⟨d0, hd0, hd0n, hd0t⟩
        rcases List.mem_append.mp hd0 with hd' | hd'
        · rcases (h.typesIff n t).mpr ⟨d0, hd', hd0n, hd0t⟩ with ⟨u0, hu0, hu0n, hu0t⟩
          by_cases hcase : u0.fontPostScriptName = d.fontPostScriptName
          · have hu0u : u0 = u := huniq u0 hu0 hcase
            refine ⟨_, (hmem_new _).mpr (Or.inl rfl), by simpa using hu0u ▸ hu0n, ?_⟩
            exact mem_mergeArrays.mpr (Or.inl (hu0u ▸ hu0t))
          · exact ⟨u0, (hmem_new u0).mpr (Or.inr ⟨hu0, hcase⟩), hu0n, hu0t⟩
        · simp only [List.mem_singleton] at hd'
          rw [hd'] at hd0n hd0t
          refine ⟨_, (hmem_new _).mpr (Or.inl rfl), by simpa using hu_name.trans hd0n, ?_⟩
          exact mem_mergeArrays.mpr (Or.inr hd0t)
    · intro n
      constructor
      · rintro ⟨w, hw, hwn⟩
        rcases (hmem_new w).mp hw with hw' | ⟨hw', _⟩
        · rw [hw'] at hwn
          simp only at hwn
          rcases (h.keyIff n).mp ⟨u, hu_mem, hwn⟩ with ⟨d0, hd0, hn0⟩
          exact ⟨d0, List.mem_append_left _ hd0, hn0⟩
        · rcases (h.keyIff n).mp ⟨w, hw', hwn⟩ with ⟨d0, hd0, hn0⟩
          exact ⟨d0, List.mem_append_left _ hd0, hn0⟩
      · rintro ⟨d0, hd0, hd0n⟩
        rcases List.mem_append.mp hd0 with hd' | hd'
        · rcases (h.keyIff n).mpr ⟨d0, hd', hd0n⟩ with ⟨u0, hu0, hu0n⟩
          by_cases hcase : u0.fontPostScriptName = d.fontPostScriptName
          · exact ⟨_, (hmem_new _).mpr (Or.inl rfl), by simpa using (huniq u0 hu0 hcase) ▸ hu0n⟩
          · exact ⟨u0, (hmem_new u0).mpr (Or.inr ⟨hu0, hcase⟩), hu0n⟩
        · simp only [List.mem_singleton] at hd'
          rw [hd'] at hd0n
          exact ⟨_, (hmem_new _).mpr (Or.inl rfl), by simpa using hu_name.trans hd0n⟩

theorem FAggInv.foldF {acc seen : List AggregatedFontDescriptor}
    (l : List AggregatedFontDescriptor) (h : FAggInv acc seen) :
    FAggInv (l.foldl keepUniqueFontStep acc) (seen ++ l) := by
  induction l generalizing acc seen with
  | nil => simpa using h
  | cons d l ih =>
      have := ih (h.stepF d)
      simpa using this

theorem keepUniqueFont_inv (l : List AggregatedFontDescriptor) :
    FAggInv (keepUniqueFontDescriptors l) l := by
  have := @FAggInv.foldF [] [] l FAggInv.initialF
  simpa [keepUniqueFontDescriptors] using this

theorem keepUniqueFontStep_absorb {acc seen : List AggregatedFontDescriptor}
    {d : AggregatedFontDescriptor} (h : FAggInv acc seen) (hd : d ∈ seen) :
    keepUniqueFontStep acc d = acc := by
  rcases h.covers d hd with ⟨u0, hu0, hu0n, hsub, htsub⟩
  unfold keepUniqueFontStep
  rcases hfind : acc.find? (fun u => u.fontPostScriptName = d.fontPostScriptName) with _ | u
  all_goals simp only [hfind]
  · exact absurd hu0n (by simpa using List.find?_eq_none.mp hfind u0 hu0)
  · have hu_mem : u ∈ acc := List.mem_of_find?_eq_some hfind
    have hu_name : u.fontPostScriptName = d.fontPostScriptName := by
      simpa using List.find?_some hfind
    have hu0u : u0 = u :=
      nodup_key_unique h.namesNodup hu0 hu_mem (hu0n.trans hu_name.symm)
    have hmerge : mergeArrays u.layerIds d.layerIds = u.layerIds :=
      mergeArrays_absorb (h.idsNodup u hu_mem) (fun x hx => hu0u ▸ hsub x hx)
    have htmerge : mergeArrays u.fontTypes d.fontTypes = u.fontTypes :=
      mergeArrays_absorb (h.typesNodup u hu_mem) (fun t ht => hu0u ▸ htsub t ht)
    apply map_self
    intro v hv
    by_cases hvn : v.fontPostScriptName = d.fontPostScriptName
    · have hv_eq : v = u :=
        nodup_key_unique h.namesNodup hv hu_mem (hvn.trans hu_name.symm)
      rw [if_pos hvn, hmerge, htmerge, hv_eq]
    · rw [if_neg hvn]

theorem keepUniqueFont_second_pass {acc : List AggregatedFontDescriptor}
    {l l' : List AggregatedFontDescriptor} (h : FAggInv acc l)
    (hsub : ∀ d ∈ l', d ∈ l) : l'.foldl keepUniqueFontStep acc = acc := by
  induction l' with
  | nil => rfl
  | cons d l' ih =>
      rw [List.foldl_cons, keepUniqueFontStep_absorb h (hsub d (by simp))]
      exact ih (fun d0 hd0 => hsub d0 (List.mem_cons_of_mem _ hd0))

theorem keepUniqueFont_idem (l : List AggregatedFontDescriptor) :
    keepUniqueFontDescriptors (l ++ l) = keepUniqueFontDescriptors l := by
  show (l ++ l).foldl keepUniqueFontStep [] = keepUniqueFontDescriptors l
  rw [List.foldl_append]
  exact keepUniqueFont_second_pass (keepUniqueFont_inv l) (fun d hd => hd)

end ODS

namespace ODS

/-! ## Claim C8: aggregation merge — what holds and what fails -/

/-- **C8, counterexample.** The aggregation is *not* order-independent:
permuting two descriptors with the same name changes the output — the
first-occurrence `prerendered` flag survives and the merged layer-id list
keeps first-seen order ([l1, l2] versus [l2, l1]), so the two aggregation
results are different lists (and even differ on the `prerendered` field of
the single aggregated descriptor). -/
theorem keepUnique_not_order_independent :
    (List.Perm
        [AggregatedBitmapAssetDescriptor.mk "x" ["l1"] true,
         AggregatedBitmapAssetDescriptor.mk "x" ["l2"] false]
        [AggregatedBitmapAssetDescriptor.mk "x" ["l2"] false,
         AggregatedBitmapAssetDescriptor.mk "x" ["l1"] true])
      ∧ keepUniqueBitmapAssetDescriptors
          [AggregatedBitmapAssetDescriptor.mk "x" ["l1"] true,
           AggregatedBitmapAssetDescriptor.mk "x" ["l2"] false]
          ≠ keepUniqueBitmapAssetDescriptors
              [AggregatedBitmapAssetDescriptor.mk "x" ["l2"] false,
               AggregatedBitmapAssetDescriptor.mk "x" ["l1"] true] :=
  ⟨List.Perm.swap _ _ _, by decide⟩

/-- **C8, amended.** `keepUniqueBitmapAssetDescriptors` and
`keepUniqueFontDescriptors` merge descriptors sharing the same name (resp.
postscript name) by unioning their layer-id sets and, for fonts, their
font-type sets:

* each key occurs exactly once in the output;
* a layer id (resp. font type) is recorded under a key exactly when some
  input descriptor with that key carries it — so at the level of keys and
  per-key layer-id/font-type sets the aggregation is order-independent
  (final two conjuncts);
* the merge is idempotent: aggregating the input duplicated is the same as
  aggregating it once.

The output list order and the first-occurrence-determined fields
(`prerendered`, `fontName`, the synthetic flag) do depend on input order
(see the counterexample), which is the only part of the original claim that
fails. -/
theorem keepUnique_merge_properties :
    (∀ l : List AggregatedBitmapAssetDescriptor,
        keepUniqueBitmapAssetDescriptors (l ++ l) = keepUniqueBitmapAssetDescriptors l)
  ∧ (∀ l : List AggregatedFontDescriptor,
        keepUniqueFontDescriptors (l ++ l) = keepUniqueFontDescriptors l)
  ∧ (∀ (l : List AggregatedBitmapAssetDescriptor) (n x : String),
        (∃ u ∈ keepUniqueBitmapAssetDescriptors l, u.name = n ∧ x ∈ u.layerIds)
          ↔ ∃ d ∈ l, d.name = n ∧ x ∈ d.layerIds)
  ∧ (∀ (l : List AggregatedBitmapAssetDescriptor) (n : String),
        (∃ u ∈ keepUniqueBitmapAssetDescriptors l, u.name = n) ↔ ∃ d ∈ l, d.name = n)
  ∧ (∀ l : List AggregatedBitmapAssetDescriptor,
        ((keepUniqueBitmapAssetDescriptors l).map (fun u => u.name)).Nodup)
  ∧ (∀ (l : List AggregatedFontDescriptor) (n x : String),
        (∃ u ∈ keepUniqueFontDescriptors l, u.fontPostScriptName = n ∧ x ∈ u.layerIds)
          ↔ ∃ d ∈ l, d.fontPostScriptName = n ∧ x ∈ d.layerIds)
  ∧ (∀ (l : List AggregatedFontDescriptor) (n t : String),
        (∃ u ∈ keepUniqueFontDescriptors l, u.fontPostScriptName = n ∧ t ∈ u.fontTypes)
          ↔ ∃ d ∈ l, d.fontPostScriptName = n ∧ t ∈ d.fontTypes)
  ∧ (∀ (l : List AggregatedFontDescriptor) (n : String),
        (∃ u ∈ keepUniqueFontDescriptors l, u.fontPostScriptName = n)
          ↔ ∃ d ∈ l, d.fontPostScriptName = n)
  ∧ (∀ l : List AggregatedFontDescriptor,
        ((keepUniqueFontDescriptors l).map (fun u => u.fontPostScriptName)).Nodup)
  ∧ (∀ (l l' : List AggregatedBitmapAssetDescriptor), l.Perm l' → ∀ (n x : String),
        ((∃ u ∈ keepUniqueBitmapAssetDescriptors l, u.name = n ∧ x ∈ u.layerIds)
          ↔ ∃ u ∈ keepUniqueBitmapAssetDescriptors l', u.name = n ∧ x ∈ u.layerIds))
  ∧ (∀ (l l' : List AggregatedFontDescriptor), l.Perm l' → ∀ (n t : String),
        ((∃ u ∈ keepUniqueFontDescriptors l, u.fontPostScriptName = n ∧ t ∈ u.fontTypes)
          ↔ ∃ u ∈ keepUniqueFontDescriptors l', u.fontPostScriptName = n ∧ t ∈ u.fontTypes)) := by
  refine ⟨keepUniqueBitmap_idem, keepUniqueFont_idem, ?_, ?_, ?_, ?_, ?_, ?_, ?_, ?_, ?_⟩
  · intro l n x; exact (keepUniqueBitmap_inv l).memIff n x
  · intro l n; exact (keepUniqueBitmap_inv l).keyIff n
  · intro l; exact (keepUniqueBitmap_inv l).namesNodup
  · intro l n x; exact (keepUniqueFont_inv l).memIff n x
  · intro l n t; exact (keepUniqueFont_inv l).typesIff n t
  · intro l n; exact (keepUniqueFont_inv l).keyIff n
  · intro l; exact (keepUniqueFont_inv l).namesNodup
  · intro l l' hp n x
    rw [(keepUniqueBitmap_inv l).memIff n x, (keepUniqueBitmap_inv l').memIff n x]
    constructor
    · rintro ⟨d, hd, hprops⟩; exact ⟨d, hp.mem_iff.mp hd, hprops⟩
    · rintro ⟨d, hd, hprops⟩; exact ⟨d, hp.mem_iff.mpr hd, hprops⟩
  · intro l l' hp n t
    rw [(keepUniqueFont_inv l).typesIff n t, (keepUniqueFont_inv l').typesIff n t]
    constructor
    · rintro ⟨d, hd, hprops⟩; exact ⟨d, hp.mem_iff.mp hd, hprops⟩
    · rintro ⟨d, hd, hprops⟩; exact ⟨d, hp.mem_iff.mpr hd, hprops⟩

/-- Witness for `keepUnique_merge_properties`: the permutation-invariant
layer-id-set reading on the concrete permuted pair of descriptors. -/
theorem keepUnique_merge_properties_witness :
    List.Perm
        [AggregatedBitmapAssetDescriptor.mk "x" ["l1"] true,
         AggregatedBitmapAssetDescriptor.mk "x" ["l2"] false]
        [AggregatedBitmapAssetDescriptor.mk "x" ["l2"] false,
         AggregatedBitmapAssetDescriptor.mk "x" ["l1"] true]
      ∧ ((∃ u ∈ keepUniqueBitmapAssetDescriptors
            [AggregatedBitmapAssetDescriptor.mk "x" ["l1"] true,
             AggregatedBitmapAssetDescriptor.mk "x" ["l2"] false],
            u.name = "x" ∧ "l1" ∈ u.layerIds)
          ↔ ∃ u ∈ keepUniqueBitmapAssetDescriptors
              [AggregatedBitmapAssetDescriptor.mk "x" ["l2"] false,
               AggregatedBitmapAssetDescriptor.mk "x" ["l1"] true],
              u.name = "x" ∧ "l1" ∈ u.layerIds) :=
  ⟨List.Perm.swap _ _ _,
    keepUnique_merge_properties.2.2.2.2.2.2.2.2.2.1 _ _ (List.Perm.swap _ _ _) "x" "l1"⟩

end ODS

namespace ODS

/-!
## The content/asset layer as seen by the orchestrator

For the ordering, failure and termination proofs about
`_loadRenderingDesignArtboard` the only facts needed about the content and
asset sub-operations are: they never touch `RenderingDesign._artboards`, they
only append events, none of the appended events is a `finalize-artboard`
command or a readiness transition, and they never produce the out-of-fuel
marker.  `SafeStep` packages the first three.
-/

/-- An event of the content/asset layer: neither a `finalize-artboard`
command nor a readiness transition. -/
def SafeEv (e : Ev) : Prop := ∀ i, e ≠ Ev.cmdFinalize i ∧ e ≠ Ev.readySet i

/-- The computation leaves the rendering-artboard map alone and only appends
safe events to the trace. -/
def SafeStep {α : Type} (m : SM α) : Prop := ∀ st,
  ((m st).2.renderingArtboards = st.renderingArtboards)
    ∧ ∃ u, (m st).2.trace = st.trace ++ u ∧ ∀ e ∈ u, SafeEv e

theorem SafeStep.bind_safe {α β : Type} {m : SM α} {k : α → SM β}
    (hm : SafeStep m) (hk : ∀ a, SafeStep (k a)) : SafeStep (m >>= k) := by
  intro st
  rw [SM_bind_apply]
  rcases h : m st with ⟨r, st₁⟩
  have hm' := hm st
  rw [h] at hm'
  rcases hm' with ⟨hra, u₁, htr, hsafe⟩
  cases r with
  | error e => exact ⟨hra, u₁, htr, hsafe⟩
  | ok a =>
      rcases hk a st₁ with ⟨hra₂, u₂, htr₂, hsafe₂⟩
      refine ⟨by rw [hra₂, hra], u₁ ++ u₂, ?_, ?_⟩
      · rw [htr₂, htr, List.append_assoc]
      · intro e he
        rcases List.mem_append.mp he with he' | he'
        · exact hsafe e he'
        · exact hsafe₂ e he'

theorem SafeStep.of_frame_safe {α : Type} {m : SM α}
    (h : ∀ st, (m st).2.renderingArtboards = st.renderingArtboards
      ∧ (m st).2.trace = st.trace) : SafeStep m := by
  intro st
  refine ⟨(h st).1, [], ?_, by simp⟩
  rw [(h st).2, List.append_nil]

theorem SafeStep.pure_safe {α : Type} (a : α) : SafeStep (pure a : SM α) :=
  SafeStep.of_frame_safe (fun _ => ⟨rfl, rfl⟩)

theorem SafeStep.throwE_safe {α : Type} (e : Err) : SafeStep (throwE e : SM α) :=
  SafeStep.of_frame_safe (fun _ => ⟨rfl, rfl⟩)

theorem SafeStep.getSt_safe : SafeStep getSt :=
  SafeStep.of_frame_safe (fun _ => ⟨rfl, rfl⟩)

theorem SafeStep.liftE_safe (o : Except Err Unit) : SafeStep (liftE o) :=
  SafeStep.of_frame_safe (fun _ => ⟨rfl, rfl⟩)

theorem SafeStep.ite_safe {α : Type} (c : Prop) [Decidable c] {m m' : SM α}
    (hm : SafeStep m) (hm' : SafeStep m') : SafeStep (if c then m else m') := by
  by_cases h : c <;> simp [h, hm, hm']

theorem SafeStep.emitEv_safe {e : Ev} (he : SafeEv e) : SafeStep (emitEv e) := by
  intro st
  refine ⟨rfl, [e], rfl, ?_⟩
  intro e' he'
  simp only [List.mem_singleton] at he'
  rw [he']
  exact he

theorem SafeStep.modSt_safe {g : SState → SState}
    (hra : ∀ st, (g st).renderingArtboards = st.renderingArtboards)
    (htr : ∀ st, (g st).trace = st.trace) : SafeStep (modSt g) :=
  SafeStep.of_frame_safe (fun st => ⟨hra st, htr st⟩)

theorem SafeStep.observe_safe (env : SEnv) : SafeStep (observe env) := by
  refine SafeStep.of_frame_safe (fun st => ?_)
  unfold ODS.observe
  rcases env.cancelAt with _ | k
  · exact ⟨rfl, rfl⟩
  · simp only
    by_cases h : k ≤ st.obsCount
    · rw [if_pos h]; exact ⟨rfl, rfl⟩
    · rw [if_neg h]; exact ⟨rfl, rfl⟩

theorem SafeStep.tokenCall_safe (env : SEnv) {e : Ev} (he : SafeEv e) :
    SafeStep (tokenCall env e) :=
  SafeStep.bind_safe (SafeStep.observe_safe env) (fun _ => SafeStep.emitEv_safe he)

theorem safeEv_queryHasContent (i : String) : SafeEv (Ev.queryHasContent i) := by
  intro j; exact ⟨by simp, by simp⟩

theorem safeEv_contentRead (i : String) : SafeEv (Ev.contentRead i) := by
  intro j; exact ⟨by simp, by simp⟩

theorem safeEv_apiFetchContent (i : String) : SafeEv (Ev.apiFetchContent i) := by
  intro j; exact ⟨by simp, by simp⟩

theorem safeEv_saveContent (i : String) : SafeEv (Ev.saveContent i) := by
  intro j; exact ⟨by simp, by simp⟩

theorem safeEv_queryFilename (i : String) : SafeEv (Ev.queryFilename i) := by
  intro j; exact ⟨by simp, by simp⟩

theorem safeEv_queryResolveAsset (i : String) : SafeEv (Ev.queryResolveAsset i) := by
  intro j; exact ⟨by simp, by simp⟩

theorem safeEv_apiFetchAsset (i : String) : SafeEv (Ev.apiFetchAsset i) := by
  intro j; exact ⟨by simp, by simp⟩

theorem safeEv_saveAsset (i : String) : SafeEv (Ev.saveAsset i) := by
  intro j; exact ⟨by simp, by simp⟩

theorem safeEv_queryFontPath (i : String) : SafeEv (Ev.queryFontPath i) := by
  intro j; exact ⟨by simp, by simp⟩

theorem safeEv_cmdLoadFont (i : String) : SafeEv (Ev.cmdLoadFont i) := by
  intro j; exact ⟨by simp, by simp⟩

theorem safeStep_loadArtboardContent (env : SEnv) (a : String) :
    SafeStep (DesignFacade.loadArtboardContent env a) := by
  unfold DesignFacade.loadArtboardContent
  refine SafeStep.ite_safe _ ?_ ?_
  · refine SafeStep.bind_safe (SafeStep.emitEv_safe (safeEv_queryHasContent a)) (fun _ => ?_)
    refine SafeStep.bind_safe SafeStep.getSt_safe (fun st1 => ?_)
    refine SafeStep.ite_safe _ (SafeStep.tokenCall_safe env (safeEv_contentRead a)) ?_
    refine SafeStep.ite_safe _ ?_ (SafeStep.throwE_safe _)
    refine SafeStep.bind_safe (SafeStep.tokenCall_safe env (safeEv_apiFetchContent a)) (fun _ => ?_)
    refine SafeStep.bind_safe (SafeStep.tokenCall_safe env (safeEv_saveContent a)) (fun _ => ?_)
    refine SafeStep.bind_safe (SafeStep.modSt_safe (fun _ => rfl) (fun _ => rfl)) (fun _ => ?_)
    exact SafeStep.tokenCall_safe env (safeEv_contentRead a)
  · exact SafeStep.ite_safe _ (SafeStep.tokenCall_safe env (safeEv_contentRead a)) (SafeStep.throwE_safe _)

theorem safeStep_recordLoadingPromise (a : String) {m : SM Unit} (hm : SafeStep m) :
    SafeStep (DesignFacade.recordLoadingPromise a m) := by
  intro st
  unfold DesignFacade.recordLoadingPromise
  rcases h : m st with ⟨r, st'⟩
  have hm' := hm st
  rw [h] at hm'
  rcases hm' with ⟨hra, u, htr, hsafe⟩
  cases r <;> exact ⟨hra, u, htr, hsafe⟩

theorem safeStep_loadArtboard (env : SEnv) (a : String) :
    SafeStep (DesignFacade.loadArtboard env a) := by
  unfold DesignFacade.loadArtboard
  refine SafeStep.ite_safe _ (SafeStep.throwE_safe _) ?_
  refine SafeStep.bind_safe SafeStep.getSt_safe (fun st1 => ?_)
  rcases getA st1.loadingArtboardPromises a with _ | o
  · refine SafeStep.ite_safe _ (SafeStep.pure_safe _) ?_
    exact safeStep_recordLoadingPromise a (safeStep_loadArtboardContent env a)
  · exact SafeStep.liftE_safe o

theorem safeStep_artboardLoad (env : SEnv) (a : String) :
    SafeStep (DesignFacade.artboardLoad env a) := by
  unfold DesignFacade.artboardLoad
  refine SafeStep.bind_safe SafeStep.getSt_safe (fun st1 => ?_)
  exact SafeStep.ite_safe _ (SafeStep.pure_safe _) (safeStep_loadArtboard env a)

theorem safeStep_downloadBitmapAsset (env : SEnv) (n : String) :
    SafeStep (DesignFacade.downloadBitmapAsset env n) := by
  unfold DesignFacade.downloadBitmapAsset
  refine SafeStep.ite_safe _ (SafeStep.throwE_safe _) ?_
  refine SafeStep.ite_safe _ (SafeStep.throwE_safe _) ?_
  refine SafeStep.bind_safe (SafeStep.tokenCall_safe env (safeEv_queryResolveAsset n)) (fun _ => ?_)
  refine SafeStep.bind_safe SafeStep.getSt_safe (fun st1 => ?_)
  refine SafeStep.ite_safe _ (SafeStep.pure_safe _) ?_
  refine SafeStep.bind_safe (SafeStep.tokenCall_safe env (safeEv_apiFetchAsset n)) (fun _ => ?_)
  refine SafeStep.bind_safe (SafeStep.tokenCall_safe env (safeEv_saveAsset n)) (fun _ => ?_)
  exact SafeStep.modSt_safe (fun _ => rfl) (fun _ => rfl)

theorem safeStep_downloadBitmapAssets (env : SEnv) (l : List String) :
    SafeStep (DesignFacade.downloadBitmapAssets env l) := by
  induction l with
  | nil => exact SafeStep.pure_safe _
  | cons n rest ih =>
      unfold DesignFacade.downloadBitmapAssets
      exact SafeStep.bind_safe (safeStep_downloadBitmapAsset env n) (fun _ => ih)

theorem safeStep_loadFont (n : String) : SafeStep (RenderingDesign.loadFont n) := by
  unfold RenderingDesign.loadFont
  refine SafeStep.bind_safe SafeStep.getSt_safe (fun st1 => ?_)
  refine SafeStep.ite_safe _ (SafeStep.pure_safe _) ?_
  refine SafeStep.bind_safe (SafeStep.modSt_safe (fun _ => rfl) (fun _ => rfl)) (fun _ => ?_)
  exact SafeStep.emitEv_safe (safeEv_cmdLoadFont n)

theorem safeStep_loadFontsToRenderingSeq (env : SEnv) (l : List String) :
    SafeStep (DesignFacade.loadFontsToRenderingSeq env l) := by
  induction l with
  | nil => exact SafeStep.pure_safe _
  | cons n rest ih =>
      unfold DesignFacade.loadFontsToRenderingSeq
      refine SafeStep.bind_safe (SafeStep.tokenCall_safe env (safeEv_queryFontPath n)) (fun _ => ?_)
      refine SafeStep.bind_safe ?_ (fun _ => ih)
      rcases env.base.fontPathOf n with _ | p
      · exact SafeStep.pure_safe _
      · exact SafeStep.bind_safe (safeStep_loadFont n) (fun _ => SafeStep.observe_safe env)

theorem safeStep_loadFontsToRendering (env : SEnv) (l : List String) :
    SafeStep (DesignFacade.loadFontsToRendering env l) := by
  unfold DesignFacade.loadFontsToRendering
  refine SafeStep.ite_safe _ (SafeStep.pure_safe _) ?_
  exact SafeStep.ite_safe _ (SafeStep.throwE_safe _) (safeStep_loadFontsToRenderingSeq env l)

theorem safeStep_loadAssetsStep (env : SEnv) (x : String) :
    SafeStep (DesignFacade.loadAssetsStep env x) := by
  unfold DesignFacade.loadAssetsStep
  refine SafeStep.ite_safe _ ?_ (SafeStep.pure_safe _)
  refine SafeStep.bind_safe (SafeStep.observe_safe env) (fun _ => ?_)
  refine SafeStep.bind_safe (SafeStep.observe_safe env) (fun _ => ?_)
  refine SafeStep.bind_safe (safeStep_downloadBitmapAssets env _) (fun _ => ?_)
  exact safeStep_loadFontsToRendering env _

end ODS

namespace ODS

/-! ## Claim C2: dependency artboards become ready before their dependents
are finalized -/

/-- Every registered rendering artboard stores exactly the pending component
ids the rendering process reported for it (`get-artboard-dependencies`
succeeded before the entry became visible to callers), and a `ready` entry
has its readiness transition in the trace. -/
def PendingGood (env : SEnv) (st : SState) : Prop :=
  ∀ x ra, getA st.renderingArtboards x = some ra →
    ra.pendingSymbolIds = env.base.deps x
      ∧ (ra.ready = true → Ev.readySet x ∈ st.trace)

/-- Every `finalize-artboard` command for `A` in the trace is preceded by the
readiness transition of `bid`. -/
def FinReady (A bid : String) (tr : List Ev) : Prop :=
  ∀ pre post, tr = pre ++ Ev.cmdFinalize A :: post → Ev.readySet bid ∈ pre

/-- Rendering-artboard entries survive (with unchanged pending list and
monotone readiness) from `st` to `st'`. -/
def Persist (st st' : SState) : Prop :=
  ∀ y ra, getA st.renderingArtboards y = some ra →
    ∃ ra', getA st'.renderingArtboards y = some ra'
      ∧ ra'.pendingSymbolIds = ra.pendingSymbolIds
      ∧ (ra.ready = true → ra'.ready = true)

theorem Persist.refl_persist (st : SState) : Persist st st :=
  fun _ ra h => ⟨ra, h, rfl, fun hr => hr⟩

theorem Persist.trans_persist {st₁ st₂ st₃ : SState} (h₁ : Persist st₁ st₂)
    (h₂ : Persist st₂ st₃) : Persist st₁ st₃ := by
  intro y ra h
  rcases h₁ y ra h with ⟨ra', h', hp', hr'⟩
  rcases h₂ y ra' h' with ⟨ra'', h'', hp'', hr''⟩
  exact ⟨ra'', h'', hp''.trans hp', fun hr => hr'' (hr' hr)⟩

theorem Persist.of_eq {st st' : SState}
    (h : st'.renderingArtboards = st.renderingArtboards) : Persist st st' := by
  intro y ra hy
  exact ⟨ra, by rw [h]; exact hy, rfl, fun hr => hr⟩

theorem finReady_append_safe {A bid : String} {tr u : List Ev}
    (h : FinReady A bid tr) (hu : Ev.cmdFinalize A ∉ u) : FinReady A bid (tr ++ u) := by
  intro pre post hsplit
  rcases List.append_eq_append_iff.mp hsplit.symm with ⟨a', htr, ha'⟩ | ⟨cs, hpre, hcs⟩
  · cases a' with
    | nil =>
        simp only [List.nil_append] at ha'
        exact absurd (ha' ▸ List.mem_cons_self _ _) hu
    | cons g tl =>
        simp only [List.cons_append, List.cons.injEq] at ha'
        exact h pre tl (by rw [htr, ha'.1])
  · exact absurd (by rw [hcs]; exact List.mem_append_right _ (List.mem_cons_self _ _)) hu

theorem finReady_append_mem {A bid : String} {tr u : List Ev}
    (h : FinReady A bid tr) (hr : Ev.readySet bid ∈ tr) : FinReady A bid (tr ++ u) := by
  intro pre post hsplit
  rcases List.append_eq_append_iff.mp hsplit.symm with ⟨a', htr, ha'⟩ | ⟨cs, hpre, hcs⟩
  · cases a' with
    | nil =>
        simp only [List.append_nil] at htr
        rw [← htr]
        exact hr
    | cons g tl =>
        simp only [List.cons_append, List.cons.injEq] at ha'
        exact h pre tl (by rw [htr, ha'.1])
  · rw [hpre]
    exact List.mem_append_left _ hr

/-- A `SafeStep` computation preserves the three ordering invariants. -/
theorem SafeStep.keeps {α : Type} {m : SM α} (hm : SafeStep m) (env : SEnv)
    (A bid : String) (st : SState) (hPG : PendingGood env st)
    (hT : FinReady A bid st.trace) :
    PendingGood env (m st).2 ∧ FinReady A bid (m st).2.trace
      ∧ (∃ u, (m st).2.trace = st.trace ++ u) ∧ Persist st (m st).2 := by
  rcases hm st with ⟨hra, u, htr, hsafe⟩
  refine ⟨?_, ?_, ⟨u, htr⟩, Persist.of_eq hra⟩
  · intro x ra hx
    rw [hra] at hx
    rcases hPG x ra hx with ⟨hp, hr⟩
    exact ⟨hp, fun hready => by rw [htr]; exact List.mem_append_left _ (hr hready)⟩
  · rw [htr]
    refine finReady_append_safe hT ?_
    intro hmem
    exact (hsafe _ hmem A).1 rfl

end ODS

namespace ODS

/-- Specification of `RenderingDesign.loadArtboard` under the pending-list
invariant: with a succeeding `load-artboard` / `get-artboard-dependencies`
round-trip it resolves with exactly the dependency list the rendering
process reports (an already-registered artboard returns its stored list,
which the invariant pins to the same value), an entry for the artboard
exists afterwards, and the invariants are preserved. -/
theorem renderingLoadArtboard_spec (env : SEnv) (x : String) (st : SState)
    (hLA : env.base.loadArtboardOk = true) (hGD : env.base.getDepsOk = true)
    (hPG : PendingGood env st) :
    (RenderingDesign.loadArtboard env x st).1 = Except.ok (env.base.deps x)
      ∧ (∃ u, (RenderingDesign.loadArtboard env x st).2.trace = st.trace ++ u
          ∧ ∀ e ∈ u, SafeEv e)
      ∧ PendingGood env (RenderingDesign.loadArtboard env x st).2
      ∧ Persist st (RenderingDesign.loadArtboard env x st).2
      ∧ (∃ ra', getA (RenderingDesign.loadArtboard env x st).2.renderingArtboards x
          = some ra') := by
  rcases hx : getA st.renderingArtboards x with _ | prev
  · have hrun : RenderingDesign.loadArtboard env x st
        = (Except.ok (env.base.deps x),
           { st with
             renderingArtboards :=
               (setA (setA st.renderingArtboards x { ready := false, pendingSymbolIds := [] })
                 x { ready := false, pendingSymbolIds := env.base.deps x }),
             trace := st.trace ++ [Ev.cmdLoadArtboard x] ++ [Ev.cmdGetDeps x] }) := by
      unfold RenderingDesign.loadArtboard
      simp [SM_bind_apply, SM_pure_apply, getSt, emitEv, modSt, hx, hLA, hGD]
    rw [hrun]
    refine ⟨rfl, ⟨[Ev.cmdLoadArtboard x] ++ [Ev.cmdGetDeps x], by simp, ?_⟩, ?_, ?_, ?_⟩
    · intro e he
      rcases List.mem_append.mp he with he' | he'
      all_goals simp only [List.mem_singleton] at he'
      all_goals intro i
      all_goals rw [he']
      all_goals exact ⟨by simp, by simp⟩
    · intro y ra hy
      by_cases hyx : y = x
      · rw [hyx, getA_setA_self] at hy
        cases hy
        refine ⟨by rw [hyx], ?_⟩
        intro h
        cases h
      · rw [getA_setA_ne _ _ _ _ hyx, getA_setA_ne _ _ _ _ hyx] at hy
        rcases hPG y ra hy with ⟨hp, hr⟩
        refine ⟨hp, fun hready => ?_⟩
        simp only []
        exact List.mem_append_left _ (List.mem_append_left _ (hr hready))
    · intro y ra hy
      have hyx : y ≠ x := by
        intro h; rw [h, hx] at hy; cases hy
      refine ⟨ra, ?_, rfl, fun hr => hr⟩
      simp only []
      rw [getA_setA_ne _ _ _ _ hyx, getA_setA_ne _ _ _ _ hyx]
      exact hy
    · exact ⟨_, getA_setA_self _ _ _⟩
  · have hrun : RenderingDesign.loadArtboard env x st
        = (Except.ok prev.pendingSymbolIds, st) := by
      unfold RenderingDesign.loadArtboard
      simp [SM_bind_apply, SM_pure_apply, getSt, hx]
    rw [hrun]
    rcases hPG x prev hx with ⟨hp, _⟩
    exact ⟨by rw [hp], ⟨[], by simp, by simp⟩, hPG, Persist.refl_persist st, prev, hx⟩

/-- Specification of `markArtboardAsReady` under the ordering invariants:
when the artboard being finalized is the dependent `A`, the readiness
transition of `bid` must already be in the trace (supplied by the dependency
recursion), so the appended `finalize-artboard` command keeps `FinReady`;
on success the artboard is ready afterwards. -/
theorem markArtboardAsReady_spec (env : SEnv) (A bid x : String) (st : SState)
    (hPG : PendingGood env st) (hT : FinReady A bid st.trace)
    (hready : x = A → Ev.readySet bid ∈ st.trace) :
    PendingGood env (RenderingDesign.markArtboardAsReady env x st).2
      ∧ FinReady A bid (RenderingDesign.markArtboardAsReady env x st).2.trace
      ∧ (∃ u, (RenderingDesign.markArtboardAsReady env x st).2.trace = st.trace ++ u)
      ∧ Persist st (RenderingDesign.markArtboardAsReady env x st).2
      ∧ ((RenderingDesign.markArtboardAsReady env x st).1 = Except.ok ()
          → raReady (RenderingDesign.markArtboardAsReady env x st).2 x = true) := by
  rcases hx : getA st.renderingArtboards x with _ | ra
  · have hrun : RenderingDesign.markArtboardAsReady env x st
        = (Except.error Err.noSuchArtboard, st) := by
      unfold RenderingDesign.markArtboardAsReady
      simp [SM_bind_apply, getSt, throwE, hx]
    rw [hrun]
    exact ⟨hPG, hT, ⟨[], by simp⟩, Persist.refl_persist st, by intro h; cases h⟩
  · have hT₁ : FinReady A bid (st.trace ++ [Ev.cmdFinalize x]) := by
      by_cases hxA : x = A
      · exact finReady_append_mem hT (hready hxA)
      · refine finReady_append_safe hT ?_
        intro hmem
        simp only [List.mem_singleton, Ev.cmdFinalize.injEq] at hmem
        exact hxA hmem.symm
    rcases hPG x ra hx with ⟨hpend, _⟩
    by_cases hfin : env.base.finalizeOk = true
    · have hrun : RenderingDesign.markArtboardAsReady env x st
          = (Except.ok (),
             { st with
               renderingArtboards :=
                 (setA st.renderingArtboards x { ra with ready := true }),
               trace := st.trace ++ [Ev.cmdFinalize x] ++ [Ev.readySet x] }) := by
        unfold RenderingDesign.markArtboardAsReady
        simp [SM_bind_apply, SM_pure_apply, getSt, emitEv, modSt, hx, hfin]
      rw [hrun]
      refine ⟨?_, ?_, ⟨[Ev.cmdFinalize x] ++ [Ev.readySet x], by simp⟩, ?_, ?_⟩
      · intro y ra' hy
        by_cases hyx : y = x
        · rw [hyx, getA_setA_self] at hy
          cases hy
          refine ⟨by rw [hyx]; exact hpend, fun _ => ?_⟩
          rw [hyx]
          simp only []
          exact List.mem_append_right _ (by simp)
        · rw [getA_setA_ne _ _ _ _ hyx] at hy
          rcases hPG y ra' hy with ⟨hp, hr⟩
          refine ⟨hp, fun hready => ?_⟩
          simp only []
          exact List.mem_append_left _ (List.mem_append_left _ (hr hready))
      · simp only []
        refine finReady_append_safe hT₁ ?_
        simp
      · intro y ra' hy
        by_cases hyx : y = x
        · refine ⟨{ ra with ready := true }, ?_, ?_, fun _ => rfl⟩
          · simp only []
            rw [hyx, getA_setA_self]
          · rw [hyx, hx] at hy
            cases hy
            rfl
        · refine ⟨ra', ?_, rfl, fun hr => hr⟩
          simp only []
          rw [getA_setA_ne _ _ _ _ hyx]
          exact hy
      · intro _
        unfold raReady
        simp only []
        rw [getA_setA_self]
    · have hrun : RenderingDesign.markArtboardAsReady env x st
          = (Except.error Err.finalizeFailed,
             { st with trace := st.trace ++ [Ev.cmdFinalize x] }) := by
        unfold RenderingDesign.markArtboardAsReady
        simp [SM_bind_apply, getSt, emitEv, throwE, hx, hfin]
      rw [hrun]
      refine ⟨?_, hT₁, ⟨[Ev.cmdFinalize x], by simp⟩, Persist.of_eq rfl, by intro h; cases h⟩
      intro y ra' hy
      rcases hPG y ra' hy with ⟨hp, hr⟩
      exact ⟨hp, fun hready => List.mem_append_left _ (hr hready)⟩

end ODS

namespace ODS

theorem Persist.keepsReady {st st' : SState} (h : Persist st st') {y : String}
    (hr : raReady st y = true) : raReady st' y = true := by
  unfold raReady at hr ⊢
  rcases hgy : getA st.renderingArtboards y with _ | ra
  · rw [hgy] at hr; cases hr
  · rw [hgy] at hr
    rcases h y ra hgy with ⟨ra', hy', _, hmono⟩
    rw [hy']
    exact hmono hr

theorem readySet_mem_of_ready (env : SEnv) (st : SState) (y : String)
    (hPG : PendingGood env st) (hr : raReady st y = true) :
    Ev.readySet y ∈ st.trace := by
  unfold raReady at hr
  rcases hgy : getA st.renderingArtboards y with _ | ra
  · rw [hgy] at hr; cases hr
  · rw [hgy] at hr
    exact (hPG y ra hgy).2 hr

/-- The `sequence(desc.pendingSymbolIds, …)` fold preserves the ordering
invariants, and when it resolves, every pending component's defining
artboard is ready. -/
theorem loadDependencies_master (env : SEnv) (A bid : String)
    (recur : String → SM Unit)
    (hrec : ∀ (y : String) (st : SState), PendingGood env st → FinReady A bid st.trace →
      PendingGood env (recur y st).2 ∧ FinReady A bid (recur y st).2.trace
        ∧ (∃ u, (recur y st).2.trace = st.trace ++ u) ∧ Persist st (recur y st).2
        ∧ ((recur y st).1 = Except.ok () → raReady (recur y st).2 y = true)) :
    ∀ (l : List String) (st : SState), PendingGood env st → FinReady A bid st.trace →
      PendingGood env (DesignFacade.loadDependencies env recur l st).2
        ∧ FinReady A bid (DesignFacade.loadDependencies env recur l st).2.trace
        ∧ (∃ u, (DesignFacade.loadDependencies env recur l st).2.trace = st.trace ++ u)
        ∧ Persist st (DesignFacade.loadDependencies env recur l st).2
        ∧ ((DesignFacade.loadDependencies env recur l st).1 = Except.ok ()
            → ∀ c' ∈ l, ∀ b', findByComponent env c' = some b'
              → raReady (DesignFacade.loadDependencies env recur l st).2 b'.id = true) := by
  intro l
  induction l with
  | nil =>
      intro st hPG hT
      refine ⟨hPG, hT, ⟨[], by simp [DesignFacade.loadDependencies, SM_pure_apply]⟩,
        Persist.refl_persist st, ?_⟩
      intro _ c' hc'
      cases hc'
  | cons c rest ih =>
      intro st hPG hT
      unfold DesignFacade.loadDependencies
      rcases hfind : findByComponent env c with _ | b
      · simp only [SM_bind_apply, throwE]
        exact ⟨hPG, hT, ⟨[], by simp⟩, Persist.refl_persist st, by intro h; cases h⟩
      · simp only [SM_bind_apply]
        rcases hstep : recur b.id st with ⟨r₁, st₁⟩
        have hr₁ := hrec b.id st hPG hT
        rw [hstep] at hr₁
        rcases hr₁ with ⟨hPG₁, hT₁, ⟨u₁, hu₁⟩, hP₁, hR₁⟩
        cases r₁ with
        | error e =>
            exact ⟨hPG₁, hT₁, ⟨u₁, hu₁⟩, hP₁, by intro h; cases h⟩
        | ok _ =>
            rcases ih st₁ hPG₁ hT₁ with ⟨hPG₂, hT₂, ⟨u₂, hu₂⟩, hP₂, hD₂⟩
            refine ⟨hPG₂, hT₂, ⟨u₁ ++ u₂, by rw [hu₂, hu₁, List.append_assoc]⟩,
              hP₁.trans_persist hP₂, ?_⟩
            intro hok c' hc' b' hb'
            rcases List.mem_cons.mp hc' with hc'' | hc''
            · have hbb : b' = b := by
                rw [hc''] at hb'
                rw [hb'] at hfind
                cases hfind
                rfl
              rw [hbb]
              exact hP₂.keepsReady (hR₁ rfl)
            · exact hD₂ hok c' hc'' b' hb'

end ODS

namespace ODS

theorem trExt_trans {t1 t2 t3 : List Ev} (h1 : ∃ u, t2 = t1 ++ u)
    (h2 : ∃ u, t3 = t2 ++ u) : ∃ u, t3 = t1 ++ u := by
  rcases h1 with ⟨u1, h1⟩
  rcases h2 with ⟨u2, h2⟩
  exact ⟨u1 ++ u2, by rw [h2, h1, List.append_assoc]⟩

/-- The master invariant lemma for `_loadRenderingDesignArtboard`: whenever
the proxy registration round-trips succeed, every execution (from any state
satisfying the pending-list invariant whose trace satisfies the ordering
condition) preserves both invariants, only appends to the trace, keeps all
rendering-artboard entries (with monotone readiness), and — when it
resolves — leaves the requested artboard ready.  `A` is the dependent
artboard of claim C2, `c` one of its reported pending component ids and `B`
the artboard defining `c`. -/
theorem loadRDA_master (env : SEnv) (A bid c : String) (B : ArtboardMeta)
    (hLA : env.base.loadArtboardOk = true) (hGD : env.base.getDepsOk = true)
    (hc : c ∈ env.base.deps A) (hB : findByComponent env c = some B) (hBid : B.id = bid) :
    ∀ (fuel : Nat) (x : String) (st : SState),
      PendingGood env st → FinReady A bid st.trace →
      PendingGood env (DesignFacade.loadRenderingDesignArtboard env fuel x st).2
        ∧ FinReady A bid (DesignFacade.loadRenderingDesignArtboard env fuel x st).2.trace
        ∧ (∃ u, (DesignFacade.loadRenderingDesignArtboard env fuel x st).2.trace
            = st.trace ++ u)
        ∧ Persist st (DesignFacade.loadRenderingDesignArtboard env fuel x st).2
        ∧ ((DesignFacade.loadRenderingDesignArtboard env fuel x st).1 = Except.ok ()
            → raReady (DesignFacade.loadRenderingDesignArtboard env fuel x st).2 x = true) := by
  intro fuel
  induction fuel with
  | zero =>
      intro x st hPG hT
      exact ⟨hPG, hT, ⟨[], by simp [DesignFacade.loadRenderingDesignArtboard, throwE]⟩,
        Persist.refl_persist st, by intro h; cases h⟩
  | succ fuel ih =>
      intro x st hPG hT
      have hfe : DesignFacade.loadRenderingDesignArtboard env (fuel + 1) x st
          = DesignFacade.loadRenderingDesignArtboardStep env
              (DesignFacade.loadRenderingDesignArtboard env fuel) x st := rfl
      rw [hfe]
      unfold DesignFacade.loadRenderingDesignArtboardStep
      by_cases hrd : env.base.hasRenderingDesign = true
      case neg =>
        rw [if_pos (by simpa using hrd)]
        exact ⟨hPG, hT, ⟨[], by simp [throwE]⟩, Persist.refl_persist st, by intro h; cases h⟩
      rw [if_neg (not_not_intro hrd)]
      simp only [SM_bind_apply, getSt]
      by_cases hready0 : raReady st x = true
      · rw [if_pos hready0]
        exact ⟨hPG, hT, ⟨[], by simp [SM_pure_apply]⟩, Persist.refl_persist st, fun _ => hready0⟩
      rw [if_neg hready0]
      by_cases hld : env.base.hasLocalDesign = true
      case neg =>
        rw [if_pos (by simpa using hld)]
        exact ⟨hPG, hT, ⟨[], by simp [throwE]⟩, Persist.refl_persist st, by intro h; cases h⟩
      rw [if_neg (not_not_intro hld)]
      by_cases hfa : (findArtboard env x).isNone = true
      · rw [if_pos hfa]
        exact ⟨hPG, hT, ⟨[], by simp [throwE]⟩, Persist.refl_persist st, by intro h; cases h⟩
      rw [if_neg hfa]
      simp only [SM_bind_apply]
      rcases h₁ : DesignFacade.artboardLoad env x st with ⟨r₁, st₁⟩
      have hk₁ := (safeStep_artboardLoad env x).keeps env A bid st hPG hT
      rw [h₁] at hk₁
      rcases hk₁ with ⟨hPG₁, hT₁, hE₁, hP₁⟩
      cases r₁ with
      | error e => exact ⟨hPG₁, hT₁, hE₁, hP₁, by intro h; cases h⟩
      | ok _ =>
      simp only []
      rcases h₂ : tokenCall env (Ev.queryFilename x) st₁ with ⟨r₂, st₂⟩
      have hk₂ := (SafeStep.tokenCall_safe env (safeEv_queryFilename x)).keeps env A bid st₁ hPG₁ hT₁
      rw [h₂] at hk₂
      rcases hk₂ with ⟨hPG₂, hT₂, hE₂, hP₂⟩
      have hE₀₂ := trExt_trans hE₁ hE₂
      have hP₀₂ := hP₁.trans_persist hP₂
      cases r₂ with
      | error e => exact ⟨hPG₂, hT₂, hE₀₂, hP₀₂, by intro h; cases h⟩
      | ok _ =>
      simp only [SM_bind_apply, getSt]
      by_cases hcc : x ∈ st₂.cachedContent
      case neg =>
        rw [if_pos (by simpa using hcc)]
        exact ⟨hPG₂, hT₂, hE₀₂, hP₀₂, by intro h; cases h⟩
      rw [if_neg (not_not_intro hcc)]
      simp only [SM_bind_apply]
      rcases h₃ : RenderingDesign.loadArtboard env x st₂ with ⟨r₃, st₃⟩
      have hk₃ := renderingLoadArtboard_spec env x st₂ hLA hGD hPG₂
      rw [h₃] at hk₃
      rcases hk₃ with ⟨hres₃, ⟨u₃, hu₃, hsafe₃⟩, hPG₃, hP₃, ⟨raX, hraX⟩⟩
      simp only at hres₃
      subst hres₃
      simp only []
      have hT₃ : FinReady A bid st₃.trace := by
        rw [hu₃]
        exact finReady_append_safe hT₂ (fun hmem => (hsafe₃ _ hmem A).1 rfl)
      have hE₀₃ := trExt_trans hE₀₂ ⟨u₃, hu₃⟩
      have hP₀₃ := hP₀₂.trans_persist hP₃
      rcases h₄ : observe env st₃ with ⟨r₄, st₄⟩
      have hk₄ := (SafeStep.observe_safe env).keeps env A bid st₃ hPG₃ hT₃
      rw [h₄] at hk₄
      rcases hk₄ with ⟨hPG₄, hT₄, hE₄, hP₄⟩
      have hE₀₄ := trExt_trans hE₀₃ hE₄
      have hP₀₄ := hP₀₃.trans_persist hP₄
      cases r₄ with
      | error e => exact ⟨hPG₄, hT₄, hE₀₄, hP₀₄, by intro h; cases h⟩
      | ok _ =>
      simp only []
      rcases h₅ : DesignFacade.loadDependencies env
          (DesignFacade.loadRenderingDesignArtboard env fuel)
          (env.base.deps x) st₄ with ⟨r₅, st₅⟩
      have hk₅ := loadDependencies_master env A bid
        (DesignFacade.loadRenderingDesignArtboard env fuel) ih (env.base.deps x) st₄ hPG₄ hT₄
      rw [h₅] at hk₅
      rcases hk₅ with ⟨hPG₅, hT₅, hE₅, hP₅, hD₅⟩
      have hE₀₅ := trExt_trans hE₀₄ hE₅
      have hP₀₅ := hP₀₄.trans_persist hP₅
      cases r₅ with
      | error e => exact ⟨hPG₅, hT₅, hE₀₅, hP₀₅, by intro h; cases h⟩
      | ok _ =>
      simp only []
      have hsafeAssets : SafeStep (DesignFacade.loadAssetsStep env x) :=
        safeStep_loadAssetsStep env x
      rcases h₆ : DesignFacade.loadAssetsStep env x st₅ with ⟨r₆, st₆⟩
      have hk₆ := hsafeAssets.keeps env A bid st₅ hPG₅ hT₅
      rw [h₆] at hk₆
      rcases hk₆ with ⟨hPG₆, hT₆, hE₆, hP₆⟩
      have hE₀₆ := trExt_trans hE₀₅ hE₆
      have hP₀₆ := hP₀₅.trans_persist hP₆
      cases r₆ with
      | error e => exact ⟨hPG₆, hT₆, hE₀₆, hP₀₆, by intro h; cases h⟩
      | ok _ =>
      simp only []
      have hready : x = A → Ev.readySet bid ∈ st₆.trace := by
        intro hxA
        have hreadyB : raReady st₅ B.id = true := by
          apply hD₅ rfl c _ B hB
          rw [hxA]
          exact hc
        have hmem₅ : Ev.readySet bid ∈ st₅.trace := by
          rw [← hBid]
          exact readySet_mem_of_ready env st₅ B.id hPG₅ hreadyB
        rcases hE₆ with ⟨u₆, hu₆⟩
        rw [hu₆]
        exact List.mem_append_left _ hmem₅
      rcases h₇ : RenderingDesign.markArtboardAsReady env x st₆ with ⟨r₇, st₇⟩
      have hk₇ := markArtboardAsReady_spec env A bid x st₆ hPG₆ hT₆ hready
      rw [h₇] at hk₇
      rcases hk₇ with ⟨hPG₇, hT₇, hE₇, hP₇, hR₇⟩
      have hE₀₇ := trExt_trans hE₀₆ hE₇
      have hP₀₇ := hP₀₆.trans_persist hP₇
      cases r₇ with
      | error e => exact ⟨hPG₇, hT₇, hE₀₇, hP₀₇, by intro h; cases h⟩
      | ok _ =>
      simp only []
      rcases h₈ : observe env st₇ with ⟨r₈, st₈⟩
      have hk₈ := (SafeStep.observe_safe env).keeps env A bid st₇ hPG₇ hT₇
      rw [h₈] at hk₈
      rcases hk₈ with ⟨hPG₈, hT₈, hE₈, hP₈⟩
      have hE₀₈ := trExt_trans hE₀₇ hE₈
      have hP₀₈ := hP₀₇.trans_persist hP₈
      cases r₈ with
      | error e => exact ⟨hPG₈, hT₈, hE₀₈, hP₀₈, by intro h; cases h⟩
      | ok _ =>
      simp only [SM_bind_apply, getSt]
      by_cases hr8 : raReady st₈ x = true
      · rw [if_pos hr8]
        exact ⟨hPG₈, hT₈, hE₀₈, hP₀₈, fun _ => hr8⟩
      · rw [if_neg hr8]
        exact ⟨hPG₈, hT₈, hE₀₈, hP₀₈, by intro h; cases h⟩

/-- **C2.** When artboard `A` declares a dependency on component `c` and `c`
is defined by artboard `B` (whose id is `bid`), then on any
`_loadRenderingDesignArtboard` run started from a fresh facade state (empty
rendering-artboard map, empty trace) against collaborators whose
`load-artboard` and `get-artboard-dependencies` commands succeed, every
`finalize-artboard` command for `A` in the resulting trace is strictly
preceded by the readiness transition of `B`: the dependency artboard reaches
`ready` before the dependent artboard is finalized. -/
theorem dependency_ready_before_finalize (env : SEnv) (A bid c : String)
    (B : ArtboardMeta) (fuel : Nat) (st : SState)
    (hLA : env.base.loadArtboardOk = true) (hGD : env.base.getDepsOk = true)
    (hc : c ∈ env.base.deps A) (hB : findByComponent env c = some B)
    (hBid : B.id = bid)
    (hra : st.renderingArtboards = []) (htr : st.trace = []) :
    ∀ pre post,
      (DesignFacade.loadRenderingDesignArtboard env fuel A st).2.trace
        = pre ++ Ev.cmdFinalize A :: post →
      Ev.readySet bid ∈ pre := by
  have hPG : PendingGood env st := by
    intro x ra hx
    rw [hra] at hx
    simp [getA] at hx
  have hT : FinReady A bid st.trace := by
    intro pre post h
    rw [htr] at h
    exact absurd h (by simp)
  exact (loadRDA_master env A bid c B hLA hGD hc hB hBid fuel A st hPG hT).2.1

/-- Witness for C2: the concrete two-artboard design with fuel 3, starting
from the fresh state.  The run finalizes `B`, marks it ready, and only then
finalizes `A`; the split of the trace at `finalize-artboard A` has
`ready(B)` in its prefix. -/
theorem dependency_ready_before_finalize_witness :
    "cb" ∈ twoArtboardBase.deps "A"
      ∧ findByComponent ⟨twoArtboardBase, none⟩ "cb" = some ⟨"B", some "cb", none⟩
      ∧ Ev.readySet "B"
          ∈ [Ev.queryHasContent "A", Ev.contentRead "A", Ev.queryFilename "A",
             Ev.cmdLoadArtboard "A", Ev.cmdGetDeps "A", Ev.queryHasContent "B",
             Ev.contentRead "B", Ev.queryFilename "B", Ev.cmdLoadArtboard "B",
             Ev.cmdGetDeps "B", Ev.cmdFinalize "B", Ev.readySet "B"] :=
  ⟨by decide, by decide,
   dependency_ready_before_finalize ⟨twoArtboardBase, none⟩ "A" "B" "cb"
     ⟨"B", some "cb", none⟩ 3 freshState rfl rfl (by decide) (by decide) rfl rfl rfl
     [Ev.queryHasContent "A", Ev.contentRead "A", Ev.queryFilename "A",
      Ev.cmdLoadArtboard "A", Ev.cmdGetDeps "A", Ev.queryHasContent "B",
      Ev.contentRead "B", Ev.queryFilename "B", Ev.cmdLoadArtboard "B",
      Ev.cmdGetDeps "B", Ev.cmdFinalize "B", Ev.readySet "B"]
     [Ev.readySet "A"]
     (by simp [DesignFacade.loadRenderingDesignArtboard,
       DesignFacade.loadRenderingDesignArtboardStep, DesignFacade.loadAssetsStep,
       DesignFacade.loadDependencies, DesignFacade.artboardLoad,
       DesignFacade.loadArtboard, DesignFacade.loadArtboardContent,
       DesignFacade.recordLoadingPromise, RenderingDesign.loadArtboard,
       RenderingDesign.markArtboardAsReady, tokenCall, observe, emitEv, throwE,
       getSt, modSt, liftE, findArtboard, findByComponent, raReady, getA, setA,
       insertS, twoArtboardBase, freshState, SM_bind_apply, SM_pure_apply,
       Bind.bind, Pure.pure])⟩

end ODS

namespace ODS

/-! ## Claim C5: a dependency component with no defining artboard is fatal -/

/-- The dependent artboard `A` — whenever it is registered with the rendering
process — carries exactly the dependency list the proxy reported for it and
has not been finalized. -/
def DepOpen (env : SEnv) (A : String) (st : SState) : Prop :=
  ∀ ra, getA st.renderingArtboards A = some ra →
    ra.pendingSymbolIds = env.base.deps A ∧ ra.ready = false

theorem DepOpen.of_frame_dep {env : SEnv} {A : String} {st st' : SState}
    (h : st'.renderingArtboards = st.renderingArtboards) (hd : DepOpen env A st) :
    DepOpen env A st' := by
  intro ra hra
  rw [h] at hra
  exact hd ra hra

theorem DepOpen.not_ready_dep {env : SEnv} {A : String} {st : SState}
    (hd : DepOpen env A st) : raReady st A = false := by
  unfold raReady
  rcases h : getA st.renderingArtboards A with _ | ra
  · rfl
  · exact (hd ra h).2

/-- `RenderingDesign.loadArtboard` keeps `A`'s entry un-finalized with the
reported dependency list, and — when it registers or returns `A` itself —
resolves with exactly `A`'s reported dependency list. -/
theorem renderingLoadArtboard_depOpen (env : SEnv) (A x : String) (st : SState)
    (hLA : env.base.loadArtboardOk = true) (hGD : env.base.getDepsOk = true)
    (hd : DepOpen env A st) :
    DepOpen env A (RenderingDesign.loadArtboard env x st).2
      ∧ ∀ pend, (RenderingDesign.loadArtboard env x st).1 = Except.ok pend →
          x = A → pend = env.base.deps A := by
  rcases hx : getA st.renderingArtboards x with _ | prev
  · have hrun : RenderingDesign.loadArtboard env x st
        = (Except.ok (env.base.deps x),
           { st with
             renderingArtboards :=
               (setA (setA st.renderingArtboards x { ready := false, pendingSymbolIds := [] })
                 x { ready := false, pendingSymbolIds := env.base.deps x }),
             trace := st.trace ++ [Ev.cmdLoadArtboard x] ++ [Ev.cmdGetDeps x] }) := by
      unfold RenderingDesign.loadArtboard
      simp [SM_bind_apply, SM_pure_apply, getSt, emitEv, modSt, hx, hLA, hGD]
    rw [hrun]
    constructor
    · intro ra hra
      simp only [] at hra
      by_cases hAx : A = x
      · rw [hAx, getA_setA_self] at hra
        cases hra
        exact ⟨by rw [hAx], rfl⟩
      · rw [getA_setA_ne _ _ _ _ hAx, getA_setA_ne _ _ _ _ hAx] at hra
        exact hd ra hra
    · intro pend hpend hxA
      simp only [] at hpend
      injection hpend with h
      rw [← h, hxA]
  · have hrun : RenderingDesign.loadArtboard env x st
        = (Except.ok prev.pendingSymbolIds, st) := by
      unfold RenderingDesign.loadArtboard
      simp [SM_bind_apply, SM_pure_apply, getSt, hx]
    rw [hrun]
    refine ⟨hd, ?_⟩
    intro pend hpend hxA
    simp only [] at hpend
    injection hpend with h
    rw [← h]
    rw [hxA] at hx
    exact (hd prev hx).1

/-- The dependency fold preserves `DepOpen` whenever the recursive call does. -/
theorem loadDependencies_depOpen (env : SEnv) (A : String) (recur : String → SM Unit)
    (hrec : ∀ y st, DepOpen env A st → DepOpen env A (recur y st).2) :
    ∀ (l : List String) (st : SState), DepOpen env A st →
      DepOpen env A (DesignFacade.loadDependencies env recur l st).2 := by
  intro l
  induction l with
  | nil =>
      intro st hd
      have hrun : DesignFacade.loadDependencies env recur [] st = (Except.ok (), st) := rfl
      rw [hrun]
      exact hd
  | cons d rest ih =>
      intro st hd
      unfold DesignFacade.loadDependencies
      rcases hfind : findByComponent env d with _ | b
      · simp only [SM_bind_apply, throwE]
        exact hd
      · simp only [SM_bind_apply]
        rcases hstep : recur b.id st with ⟨r₁, st₁⟩
        have hd₁ := hrec b.id st hd
        rw [hstep] at hd₁
        cases r₁ with
        | error e => exact hd₁
        | ok _ => exact ih st₁ hd₁

/-- The dependency fold never resolves when the list contains a component id
the component index cannot resolve: the fold either fails earlier or reaches
that component and throws. -/
theorem loadDependencies_missing (env : SEnv) (c : String) (recur : String → SM Unit)
    (hB : findByComponent env c = none) :
    ∀ (l : List String) (st : SState), c ∈ l →
      (DesignFacade.loadDependencies env recur l st).1 ≠ Except.ok () := by
  intro l
  induction l with
  | nil =>
      intro st hc
      cases hc
  | cons d rest ih =>
      intro st hc
      unfold DesignFacade.loadDependencies
      rcases hfind : findByComponent env d with _ | b
      · simp only [SM_bind_apply, throwE]
        intro h
        cases h
      · have hcrest : c ∈ rest := by
          rcases List.mem_cons.mp hc with hceq | h
          · rw [← hceq] at hfind
            rw [hB] at hfind
            cases hfind
          · exact h
        simp only [SM_bind_apply]
        rcases hstep : recur b.id st with ⟨r₁, st₁⟩
        cases r₁ with
        | error e =>
            intro h
            cases h
        | ok _ => exact ih st₁ hcrest

/-- `markArtboardAsReady` for an artboard other than `A` leaves `A`'s entry
alone. -/
theorem markArtboardAsReady_depOpen (env : SEnv) (A x : String) (st : SState)
    (hne : x ≠ A) (hd : DepOpen env A st) :
    DepOpen env A (RenderingDesign.markArtboardAsReady env x st).2 := by
  rcases hx : getA st.renderingArtboards x with _ | ra
  · have hrun : RenderingDesign.markArtboardAsReady env x st
        = (Except.error Err.noSuchArtboard, st) := by
      unfold RenderingDesign.markArtboardAsReady
      simp [SM_bind_apply, getSt, throwE, hx]
    rw [hrun]
    exact hd
  · by_cases hfin : env.base.finalizeOk = true
    · have hrun : RenderingDesign.markArtboardAsReady env x st
          = (Except.ok (),
             { st with
               renderingArtboards :=
                 (setA st.renderingArtboards x { ra with ready := true }),
               trace := st.trace ++ [Ev.cmdFinalize x] ++ [Ev.readySet x] }) := by
        unfold RenderingDesign.markArtboardAsReady
        simp [SM_bind_apply, SM_pure_apply, getSt, emitEv, modSt, hx, hfin]
      rw [hrun]
      intro ra' hra'
      simp only [] at hra'
      rw [getA_setA_ne _ _ _ _ (Ne.symm hne)] at hra'
      exact hd ra' hra'
    · have hrun : RenderingDesign.markArtboardAsReady env x st
          = (Except.error Err.finalizeFailed,
             { st with trace := st.trace ++ [Ev.cmdFinalize x] }) := by
        unfold RenderingDesign.markArtboardAsReady
        simp [SM_bind_apply, getSt, emitEv, throwE, hx, hfin]
      rw [hrun]
      exact hd

/-- Master lemma for C5: while `A`'s reported dependency list contains a
component id with no defining artboard, every fuel-bounded run of
`_loadRenderingDesignArtboard` keeps `A` un-finalized, and the run for `A`
itself never resolves. -/
theorem loadRDA_missing (env : SEnv) (A c : String)
    (hLA : env.base.loadArtboardOk = true) (hGD : env.base.getDepsOk = true)
    (hc : c ∈ env.base.deps A) (hB : findByComponent env c = none) :
    ∀ (fuel : Nat) (x : String) (st : SState), DepOpen env A st →
      DepOpen env A (DesignFacade.loadRenderingDesignArtboard env fuel x st).2
        ∧ (x = A →
            (DesignFacade.loadRenderingDesignArtboard env fuel x st).1 ≠ Except.ok ()) := by
  intro fuel
  induction fuel with
  | zero =>
      intro x st hd
      exact ⟨hd, by intro _ h; cases h⟩
  | succ fuel ih =>
      intro x st hd
      have hfe : DesignFacade.loadRenderingDesignArtboard env (fuel + 1) x st
          = DesignFacade.loadRenderingDesignArtboardStep env
              (DesignFacade.loadRenderingDesignArtboard env fuel) x st := rfl
      rw [hfe]
      unfold DesignFacade.loadRenderingDesignArtboardStep
      by_cases hrd : env.base.hasRenderingDesign = true
      case neg =>
        rw [if_pos (by simpa using hrd)]
        exact ⟨hd, by intro _ h; cases h⟩
      rw [if_neg (not_not_intro hrd)]
      simp only [SM_bind_apply, getSt]
      by_cases hready0 : raReady st x = true
      · rw [if_pos hready0]
        refine ⟨hd, ?_⟩
        intro hxA _
        rw [hxA] at hready0
        rw [hd.not_ready_dep] at hready0
        cases hready0
      rw [if_neg hready0]
      by_cases hld : env.base.hasLocalDesign = true
      case neg =>
        rw [if_pos (by simpa using hld)]
        exact ⟨hd, by intro _ h; cases h⟩
      rw [if_neg (not_not_intro hld)]
      by_cases hfa : (findArtboard env x).isNone = true
      · rw [if_pos hfa]
        exact ⟨hd, by intro _ h; cases h⟩
      rw [if_neg hfa]
      simp only [SM_bind_apply]
      rcases h₁ : DesignFacade.artboardLoad env x st with ⟨r₁, st₁⟩
      have hd₁ : DepOpen env A st₁ := by
        refine DepOpen.of_frame_dep ?_ hd
        have := (safeStep_artboardLoad env x st).1
        rw [h₁] at this
        exact this
      cases r₁ with
      | error e => exact ⟨hd₁, by intro _ h; cases h⟩
      | ok _ =>
      simp only []
      rcases h₂ : tokenCall env (Ev.queryFilename x) st₁ with ⟨r₂, st₂⟩
      have hd₂ : DepOpen env A st₂ := by
        refine DepOpen.of_frame_dep ?_ hd₁
        have := (SafeStep.tokenCall_safe env (safeEv_queryFilename x) st₁).1
        rw [h₂] at this
        exact this
      cases r₂ with
      | error e => exact ⟨hd₂, by intro _ h; cases h⟩
      | ok _ =>
      simp only [SM_bind_apply, getSt]
      by_cases hcc : x ∈ st₂.cachedContent
      case neg =>
        rw [if_pos (by simpa using hcc)]
        exact ⟨hd₂, by intro _ h; cases h⟩
      rw [if_neg (not_not_intro hcc)]
      simp only [SM_bind_apply]
      rcases h₃ : RenderingDesign.loadArtboard env x st₂ with ⟨r₃, st₃⟩
      have hk₃ := renderingLoadArtboard_depOpen env A x st₂ hLA hGD hd₂
      rw [h₃] at hk₃
      rcases hk₃ with ⟨hd₃, hpend₃⟩
      cases r₃ with
      | error e => exact ⟨hd₃, by intro _ h; cases h⟩
      | ok pend =>
      simp only []
      rcases h₄ : observe env st₃ with ⟨r₄, st₄⟩
      have hd₄ : DepOpen env A st₄ := by
        refine DepOpen.of_frame_dep ?_ hd₃
        have := (SafeStep.observe_safe env st₃).1
        rw [h₄] at this
        exact this
      cases r₄ with
      | error e => exact ⟨hd₄, by intro _ h; cases h⟩
      | ok _ =>
      simp only []
      rcases h₅ : DesignFacade.loadDependencies env
          (DesignFacade.loadRenderingDesignArtboard env fuel) pend st₄ with ⟨r₅, st₅⟩
      have hd₅ : DepOpen env A st₅ := by
        have := loadDependencies_depOpen env A
          (DesignFacade.loadRenderingDesignArtboard env fuel)
          (fun y st' hd' => (ih y st' hd').1) pend st₄ hd₄
        rw [h₅] at this
        exact this
      cases r₅ with
      | error e => exact ⟨hd₅, by intro _ h; cases h⟩
      | ok _ =>
      by_cases hxA : x = A
      · exfalso
        have hcp : c ∈ pend := by
          rw [hpend₃ pend rfl hxA]
          exact hc
        have := loadDependencies_missing env c
          (DesignFacade.loadRenderingDesignArtboard env fuel) hB pend st₄ hcp
        rw [h₅] at this
        exact this rfl
      simp only []
      rcases h₆ : DesignFacade.loadAssetsStep env x st₅ with ⟨r₆, st₆⟩
      have hd₆ : DepOpen env A st₆ := by
        refine DepOpen.of_frame_dep ?_ hd₅
        have := (safeStep_loadAssetsStep env x st₅).1
        rw [h₆] at this
        exact this
      cases r₆ with
      | error e => exact ⟨hd₆, by intro h; exact absurd h hxA⟩
      | ok _ =>
      simp only []
      rcases h₇ : RenderingDesign.markArtboardAsReady env x st₆ with ⟨r₇, st₇⟩
      have hd₇ : DepOpen env A st₇ := by
        have := markArtboardAsReady_depOpen env A x st₆ hxA hd₆
        rw [h₇] at this
        exact this
      cases r₇ with
      | error e => exact ⟨hd₇, by intro h; exact absurd h hxA⟩
      | ok _ =>
      simp only []
      rcases h₈ : observe env st₇ with ⟨r₈, st₈⟩
      have hd₈ : DepOpen env A st₈ := by
        refine DepOpen.of_frame_dep ?_ hd₇
        have := (SafeStep.observe_safe env st₇).1
        rw [h₈] at this
        exact this
      cases r₈ with
      | error e => exact ⟨hd₈, by intro h; exact absurd h hxA⟩
      | ok _ =>
      simp only [SM_bind_apply, getSt]
      by_cases hr8 : raReady st₈ x = true
      · rw [if_pos hr8]
        exact ⟨hd₈, by intro h; exact absurd h hxA⟩
      · rw [if_neg hr8]
        exact ⟨hd₈, by intro h; exact absurd h hxA⟩

/-- **C5.** When the dependency list the rendering process reports for
artboard `A` contains a component id that no artboard of the design defines,
the whole `_loadRenderingDesignArtboard` run for `A` (from a state in which
nothing is registered with the rendering process) fails with an error and
leaves `A` non-ready. -/
theorem missing_dependency_fails (env : SEnv) (A c : String) (fuel : Nat)
    (st : SState)
    (hLA : env.base.loadArtboardOk = true) (hGD : env.base.getDepsOk = true)
    (hc : c ∈ env.base.deps A) (hB : findByComponent env c = none)
    (hra : st.renderingArtboards = []) :
    (DesignFacade.loadRenderingDesignArtboard env fuel A st).1 ≠ Except.ok ()
      ∧ raReady (DesignFacade.loadRenderingDesignArtboard env fuel A st).2 A = false := by
  have hd : DepOpen env A st := by
    intro ra hra'
    rw [hra] at hra'
    simp [getA] at hra'
  rcases loadRDA_missing env A c hLA hGD hc hB fuel A st hd with ⟨hd', hfail⟩
  exact ⟨hfail rfl, hd'.not_ready_dep⟩

/-- Witness for C5: the two-artboard design with `A`'s dependency pointing at
the undefined component id `nope`; the fuel-10 run from the fresh state
fails and leaves `A` non-ready. -/
theorem missing_dependency_fails_witness :
    "nope" ∈ missingDepBase.deps "A"
      ∧ findByComponent ⟨missingDepBase, none⟩ "nope" = none
      ∧ (DesignFacade.loadRenderingDesignArtboard ⟨missingDepBase, none⟩ 10 "A"
            freshState).1 ≠ Except.ok ()
      ∧ raReady (DesignFacade.loadRenderingDesignArtboard ⟨missingDepBase, none⟩ 10 "A"
            freshState).2 "A" = false :=
  ⟨by decide, by decide,
   missing_dependency_fails ⟨missingDepBase, none⟩ "A" "nope" 10 freshState
     rfl rfl (by decide) (by decide) rfl⟩

end ODS

namespace ODS

/-! ## Claim C9 (part 1): the recursion terminates on rank-decreasing designs -/

/-- The state constraints under which the dependency recursion is
fuel-insensitive: every registered rendering artboard holds either no pending
components yet or exactly the reported dependency list, and no stored loading
promise has settled with the fuel-exhaustion marker (the marker models the
recursion spinning, which a plain content load can never produce). -/
def TermInv (env : SEnv) (st : SState) : Prop :=
  (∀ x ra, getA st.renderingArtboards x = some ra →
      ra.pendingSymbolIds = [] ∨ ra.pendingSymbolIds = env.base.deps x)
    ∧ (∀ z o, getA st.loadingArtboardPromises z = some o →
        o ≠ Except.error Err.fuelExhausted)

/-- `m` never reports fuel exhaustion. -/
def NoFE {α : Type} (m : SM α) : Prop :=
  ∀ st, (m st).1 ≠ Except.error Err.fuelExhausted

theorem NoFE.bind_nofe {α β : Type} {m : SM α} {k : α → SM β}
    (hm : NoFE m) (hk : ∀ a, NoFE (k a)) : NoFE (m >>= k) := by
  intro st
  rw [SM_bind_apply]
  rcases h : m st with ⟨r, st'⟩
  have hm' := hm st
  rw [h] at hm'
  cases r with
  | error e =>
      simp only []
      intro hh
      injection hh with hh'
      exact hm' (by rw [hh'])
  | ok a =>
      simp only []
      exact hk a st'

theorem NoFE.pure_nofe {α : Type} (a : α) : NoFE (pure a : SM α) := by
  intro st h
  cases h

theorem NoFE.throwE_nofe {α : Type} {e : Err} (he : e ≠ Err.fuelExhausted) :
    NoFE (throwE e : SM α) := by
  intro st h
  exact he (by injection h)

theorem NoFE.getSt_nofe : NoFE getSt := by
  intro st h
  cases h

theorem NoFE.emitEv_nofe (e : Ev) : NoFE (emitEv e) := by
  intro st h
  cases h

theorem NoFE.modSt_nofe (g : SState → SState) : NoFE (modSt g) := by
  intro st h
  cases h

theorem NoFE.ite_nofe {α : Type} (c : Prop) [Decidable c] {m m' : SM α}
    (hm : NoFE m) (hm' : NoFE m') : NoFE (if c then m else m') := by
  by_cases h : c <;> simp [h, hm, hm']

theorem NoFE.observe_nofe (env : SEnv) : NoFE (observe env) := by
  intro st
  unfold ODS.observe
  rcases env.cancelAt with _ | k
  · intro h
    cases h
  · simp only []
    by_cases h : k ≤ st.obsCount
    · rw [if_pos h]
      intro h'
      injection h' with hh
      cases hh
    · rw [if_neg h]
      intro h'
      cases h'

theorem NoFE.tokenCall_nofe (env : SEnv) (e : Ev) : NoFE (tokenCall env e) :=
  NoFE.bind_nofe (NoFE.observe_nofe env) (fun _ => NoFE.emitEv_nofe _)

theorem noFE_loadArtboardContent (env : SEnv) (a : String) :
    NoFE (DesignFacade.loadArtboardContent env a) := by
  unfold DesignFacade.loadArtboardContent
  refine NoFE.ite_nofe _ ?_ ?_
  · refine NoFE.bind_nofe (NoFE.emitEv_nofe _) (fun _ => ?_)
    refine NoFE.bind_nofe NoFE.getSt_nofe (fun st1 => ?_)
    refine NoFE.ite_nofe _ (NoFE.tokenCall_nofe env _) ?_
    refine NoFE.ite_nofe _ ?_ (NoFE.throwE_nofe (by intro h; cases h))
    refine NoFE.bind_nofe (NoFE.tokenCall_nofe env _) (fun _ => ?_)
    refine NoFE.bind_nofe (NoFE.tokenCall_nofe env _) (fun _ => ?_)
    refine NoFE.bind_nofe (NoFE.modSt_nofe _) (fun _ => ?_)
    exact NoFE.tokenCall_nofe env _
  · exact NoFE.ite_nofe _ (NoFE.tokenCall_nofe env _) (NoFE.throwE_nofe (by intro h; cases h))

theorem noFE_renderingLoadArtboard (env : SEnv) (x : String) :
    NoFE (RenderingDesign.loadArtboard env x) := by
  unfold RenderingDesign.loadArtboard
  refine NoFE.bind_nofe NoFE.getSt_nofe (fun st1 => ?_)
  rcases getA st1.renderingArtboards x with _ | prev
  · refine NoFE.bind_nofe (NoFE.modSt_nofe _) (fun _ => ?_)
    refine NoFE.bind_nofe (NoFE.emitEv_nofe _) (fun _ => ?_)
    refine NoFE.ite_nofe _ ?_ (NoFE.throwE_nofe (by intro h; cases h))
    refine NoFE.bind_nofe (NoFE.emitEv_nofe _) (fun _ => ?_)
    refine NoFE.ite_nofe _ ?_ (NoFE.throwE_nofe (by intro h; cases h))
    exact NoFE.bind_nofe (NoFE.modSt_nofe _) (fun _ => NoFE.pure_nofe _)
  · exact NoFE.pure_nofe _

theorem noFE_markArtboardAsReady (env : SEnv) (x : String) :
    NoFE (RenderingDesign.markArtboardAsReady env x) := by
  unfold RenderingDesign.markArtboardAsReady
  refine NoFE.bind_nofe NoFE.getSt_nofe (fun st1 => ?_)
  rcases getA st1.renderingArtboards x with _ | ra
  · exact NoFE.throwE_nofe (by intro h; cases h)
  · refine NoFE.bind_nofe (NoFE.emitEv_nofe _) (fun _ => ?_)
    refine NoFE.ite_nofe _ ?_ (NoFE.throwE_nofe (by intro h; cases h))
    exact NoFE.bind_nofe (NoFE.modSt_nofe _) (fun _ => NoFE.emitEv_nofe _)

theorem noFE_loadFont (n : String) : NoFE (RenderingDesign.loadFont n) := by
  unfold RenderingDesign.loadFont
  refine NoFE.bind_nofe NoFE.getSt_nofe (fun st1 => ?_)
  refine NoFE.ite_nofe _ (NoFE.pure_nofe _) ?_
  exact NoFE.bind_nofe (NoFE.modSt_nofe _) (fun _ => NoFE.emitEv_nofe _)

theorem noFE_downloadBitmapAsset (env : SEnv) (n : String) :
    NoFE (DesignFacade.downloadBitmapAsset env n) := by
  unfold DesignFacade.downloadBitmapAsset
  refine NoFE.ite_nofe _ (NoFE.throwE_nofe (by intro h; cases h)) ?_
  refine NoFE.ite_nofe _ (NoFE.throwE_nofe (by intro h; cases h)) ?_
  refine NoFE.bind_nofe (NoFE.tokenCall_nofe env _) (fun _ => ?_)
  refine NoFE.bind_nofe NoFE.getSt_nofe (fun st1 => ?_)
  refine NoFE.ite_nofe _ (NoFE.pure_nofe _) ?_
  refine NoFE.bind_nofe (NoFE.tokenCall_nofe env _) (fun _ => ?_)
  refine NoFE.bind_nofe (NoFE.tokenCall_nofe env _) (fun _ => ?_)
  exact NoFE.modSt_nofe _

theorem noFE_downloadBitmapAssets (env : SEnv) (l : List String) :
    NoFE (DesignFacade.downloadBitmapAssets env l) := by
  induction l with
  | nil => exact NoFE.pure_nofe _
  | cons n rest ih =>
      unfold DesignFacade.downloadBitmapAssets
      exact NoFE.bind_nofe (noFE_downloadBitmapAsset env n) (fun _ => ih)

theorem noFE_loadFontsToRenderingSeq (env : SEnv) (l : List String) :
    NoFE (DesignFacade.loadFontsToRenderingSeq env l) := by
  induction l with
  | nil => exact NoFE.pure_nofe _
  | cons n rest ih =>
      unfold DesignFacade.loadFontsToRenderingSeq
      refine NoFE.bind_nofe (NoFE.tokenCall_nofe env _) (fun _ => ?_)
      refine NoFE.bind_nofe ?_ (fun _ => ih)
      rcases env.base.fontPathOf n with _ | p
      · exact NoFE.pure_nofe _
      · exact NoFE.bind_nofe (noFE_loadFont n) (fun _ => NoFE.observe_nofe env)

theorem noFE_loadFontsToRendering (env : SEnv) (l : List String) :
    NoFE (DesignFacade.loadFontsToRendering env l) := by
  unfold DesignFacade.loadFontsToRendering
  refine NoFE.ite_nofe _ (NoFE.pure_nofe _) ?_
  exact NoFE.ite_nofe _ (NoFE.throwE_nofe (by intro h; cases h)) (noFE_loadFontsToRenderingSeq env l)

theorem noFE_loadAssetsStep (env : SEnv) (x : String) :
    NoFE (DesignFacade.loadAssetsStep env x) := by
  unfold DesignFacade.loadAssetsStep
  refine NoFE.ite_nofe _ ?_ (NoFE.pure_nofe _)
  refine NoFE.bind_nofe (NoFE.observe_nofe env) (fun _ => ?_)
  refine NoFE.bind_nofe (NoFE.observe_nofe env) (fun _ => ?_)
  refine NoFE.bind_nofe (noFE_downloadBitmapAssets env _) (fun _ => ?_)
  exact noFE_loadFontsToRendering env _

end ODS

namespace ODS

/-- The in-flight registry together with the rendering-artboard map (the two
state components the termination invariant observes). -/
def raRegProj (st : SState) :
    List (String × Except Err Unit) × List (String × RAState) :=
  (st.loadingArtboardPromises, st.renderingArtboards)

theorem raRegProj_trace : ∀ (st : SState) (tr : List Ev),
    raRegProj { st with trace := tr } = raRegProj st := by
  intro st tr
  rfl

theorem raRegProj_obs : ∀ (st : SState) (n : Nat),
    raRegProj { st with obsCount := n } = raRegProj st := by
  intro st n
  rfl

theorem raReg_observe (env : SEnv) : Preserves raRegProj (observe env) :=
  Preserves.observe_pres _ raRegProj_obs env

theorem raReg_tokenCall (env : SEnv) (e : Ev) : Preserves raRegProj (tokenCall env e) := by
  unfold ODS.tokenCall
  exact Preserves.bind_pres (raReg_observe env) (fun _ => Preserves.emitEv_pres _ raRegProj_trace e)

theorem raReg_loadFont (n : String) : Preserves raRegProj (RenderingDesign.loadFont n) := by
  unfold RenderingDesign.loadFont
  refine Preserves.bind_pres (Preserves.getSt_pres _) (fun st1 => ?_)
  refine Preserves.ite_pres _ (Preserves.pure_pres _ _) ?_
  refine Preserves.bind_pres (Preserves.modSt_pres (fun _ => rfl)) (fun _ => ?_)
  exact Preserves.emitEv_pres _ raRegProj_trace _

theorem raReg_downloadBitmapAsset (env : SEnv) (n : String) :
    Preserves raRegProj (DesignFacade.downloadBitmapAsset env n) := by
  unfold DesignFacade.downloadBitmapAsset
  refine Preserves.ite_pres _ (Preserves.throwE_pres _ _) ?_
  refine Preserves.ite_pres _ (Preserves.throwE_pres _ _) ?_
  refine Preserves.bind_pres (raReg_tokenCall env _) (fun _ => ?_)
  refine Preserves.bind_pres (Preserves.getSt_pres _) (fun st1 => ?_)
  refine Preserves.ite_pres _ (Preserves.pure_pres _ _) ?_
  refine Preserves.bind_pres (raReg_tokenCall env _) (fun _ => ?_)
  refine Preserves.bind_pres (raReg_tokenCall env _) (fun _ => ?_)
  exact Preserves.modSt_pres (fun _ => rfl)

theorem raReg_downloadBitmapAssets (env : SEnv) (l : List String) :
    Preserves raRegProj (DesignFacade.downloadBitmapAssets env l) := by
  induction l with
  | nil => exact Preserves.pure_pres _ _
  | cons n rest ih =>
      unfold DesignFacade.downloadBitmapAssets
      exact Preserves.bind_pres (raReg_downloadBitmapAsset env n) (fun _ => ih)

theorem raReg_loadFontsToRenderingSeq (env : SEnv) (l : List String) :
    Preserves raRegProj (DesignFacade.loadFontsToRenderingSeq env l) := by
  induction l with
  | nil => exact Preserves.pure_pres _ _
  | cons n rest ih =>
      unfold DesignFacade.loadFontsToRenderingSeq
      refine Preserves.bind_pres (raReg_tokenCall env _) (fun _ => ?_)
      refine Preserves.bind_pres ?_ (fun _ => ih)
      rcases env.base.fontPathOf n with _ | p
      · exact Preserves.pure_pres _ _
      · exact Preserves.bind_pres (raReg_loadFont n) (fun _ => raReg_observe env)

theorem raReg_loadFontsToRendering (env : SEnv) (l : List String) :
    Preserves raRegProj (DesignFacade.loadFontsToRendering env l) := by
  unfold DesignFacade.loadFontsToRendering
  refine Preserves.ite_pres _ (Preserves.pure_pres _ _) ?_
  exact Preserves.ite_pres _ (Preserves.throwE_pres _ _) (raReg_loadFontsToRenderingSeq env l)

theorem raReg_loadAssetsStep (env : SEnv) (x : String) :
    Preserves raRegProj (DesignFacade.loadAssetsStep env x) := by
  unfold DesignFacade.loadAssetsStep
  refine Preserves.ite_pres _ ?_ (Preserves.pure_pres _ _)
  refine Preserves.bind_pres (raReg_observe env) (fun _ => ?_)
  refine Preserves.bind_pres (raReg_observe env) (fun _ => ?_)
  refine Preserves.bind_pres (raReg_downloadBitmapAssets env _) (fun _ => ?_)
  exact raReg_loadFontsToRendering env _

theorem TermInv.of_raReg {env : SEnv} {st st' : SState}
    (h : raRegProj st' = raRegProj st) (hI : TermInv env st) : TermInv env st' := by
  have h1 : st'.loadingArtboardPromises = st.loadingArtboardPromises :=
    congrArg (fun t => t.1) h
  have h2 : st'.renderingArtboards = st.renderingArtboards :=
    congrArg (fun t => t.2) h
  constructor
  · intro y ra hy
    rw [h2] at hy
    exact hI.1 y ra hy
  · intro z o hz
    rw [h1] at hz
    exact hI.2 z o hz

end ODS

namespace ODS

/-- `ArtboardFacade.load` keeps the termination invariant and never reports
fuel exhaustion (a stored promise replays a content-load outcome, which the
invariant pins away from the marker). -/
theorem artboardLoad_term (env : SEnv) (x : String) (st : SState)
    (hI : TermInv env st) :
    TermInv env (DesignFacade.artboardLoad env x st).2
      ∧ (DesignFacade.artboardLoad env x st).1 ≠ Except.error Err.fuelExhausted := by
  unfold DesignFacade.artboardLoad
  simp only [SM_bind_apply, getSt]
  by_cases hlc : x ∈ st.loadedContent
  · rw [if_pos hlc]
    exact ⟨hI, by intro h; cases h⟩
  rw [if_neg hlc]
  unfold DesignFacade.loadArtboard
  by_cases hfa : (findArtboard env x).isNone = true
  · rw [if_pos hfa]
    exact ⟨hI, by intro h; injection h with hh; cases hh⟩
  rw [if_neg hfa]
  simp only [SM_bind_apply, getSt]
  rcases hreg : getA st.loadingArtboardPromises x with _ | o
  · simp only []
    rw [if_neg hlc]
    unfold DesignFacade.recordLoadingPromise
    rcases hlac : DesignFacade.loadArtboardContent env x st with ⟨ri, sti⟩
    have hFE := noFE_loadArtboardContent env x st
    rw [hlac] at hFE
    have hra := (safeStep_loadArtboardContent env x st).1
    rw [hlac] at hra
    have hreg2 := loadArtboardContent_registry env x st
    rw [hlac] at hreg2
    cases ri with
    | ok _ =>
        simp only []
        refine ⟨⟨?_, ?_⟩, by intro h; cases h⟩
        · intro y ra hy
          simp only [] at hy
          rw [hra] at hy
          exact hI.1 y ra hy
        · intro z o hz
          simp only [] at hz
          by_cases hzx : z = x
          · rw [hzx, getA_setA_self] at hz
            cases hz
            intro h
            cases h
          · rw [getA_setA_ne _ _ _ _ hzx] at hz
            rw [show sti.loadingArtboardPromises = st.loadingArtboardPromises from hreg2] at hz
            exact hI.2 z o hz
    | error e =>
        simp only []
        refine ⟨⟨?_, ?_⟩, hFE⟩
        · intro y ra hy
          simp only [] at hy
          rw [hra] at hy
          exact hI.1 y ra hy
        · intro z o hz
          simp only [] at hz
          by_cases hzx : z = x
          · rw [hzx, getA_setA_self] at hz
            cases hz
            intro h
            exact hFE (by rw [← h])
          · rw [getA_setA_ne _ _ _ _ hzx] at hz
            rw [show sti.loadingArtboardPromises = st.loadingArtboardPromises from hreg2] at hz
            exact hI.2 z o hz
  · simp only []
    exact ⟨hI, hI.2 x o hreg⟩

/-- `RenderingDesign.loadArtboard` keeps the termination invariant and,
whatever the proxy flags, can only resolve with the empty list or exactly
the reported dependency list. -/
theorem renderingLoadArtboard_term (env : SEnv) (x : String) (st : SState)
    (hI : TermInv env st) :
    TermInv env (RenderingDesign.loadArtboard env x st).2
      ∧ (∀ pend, (RenderingDesign.loadArtboard env x st).1 = Except.ok pend →
          pend = [] ∨ pend = env.base.deps x) := by
  rcases hx : getA st.renderingArtboards x with _ | prev
  · by_cases hLA : env.base.loadArtboardOk = true
    · by_cases hGD : env.base.getDepsOk = true
      · have hrun : RenderingDesign.loadArtboard env x st
            = (Except.ok (env.base.deps x),
               { st with
                 renderingArtboards :=
                   (setA (setA st.renderingArtboards x
                      { ready := false, pendingSymbolIds := [] })
                     x { ready := false, pendingSymbolIds := env.base.deps x }),
                 trace := st.trace ++ [Ev.cmdLoadArtboard x] ++ [Ev.cmdGetDeps x] }) := by
          unfold RenderingDesign.loadArtboard
          simp [SM_bind_apply, SM_pure_apply, getSt, emitEv, modSt, hx, hLA, hGD]
        rw [hrun]
        constructor
        · constructor
          · intro y ra hy
            simp only [] at hy
            by_cases hyx : y = x
            · rw [hyx, getA_setA_self] at hy
              cases hy
              right
              rw [hyx]
            · rw [getA_setA_ne _ _ _ _ hyx, getA_setA_ne _ _ _ _ hyx] at hy
              exact hI.1 y ra hy
          · intro z o hz
            simp only [] at hz
            exact hI.2 z o hz
        · intro pend hpend
          simp only [] at hpend
          injection hpend with h
          right
          rw [← h]
      · have hrun : RenderingDesign.loadArtboard env x st
            = (Except.error Err.getDepsFailed,
               { st with
                 renderingArtboards :=
                   (setA st.renderingArtboards x
                      { ready := false, pendingSymbolIds := [] }),
                 trace := st.trace ++ [Ev.cmdLoadArtboard x] ++ [Ev.cmdGetDeps x] }) := by
          unfold RenderingDesign.loadArtboard
          simp [SM_bind_apply, SM_pure_apply, getSt, emitEv, modSt, throwE, hx, hLA, hGD]
        rw [hrun]
        constructor
        · constructor
          · intro y ra hy
            simp only [] at hy
            by_cases hyx : y = x
            · rw [hyx, getA_setA_self] at hy
              cases hy
              left
              rfl
            · rw [getA_setA_ne _ _ _ _ hyx] at hy
              exact hI.1 y ra hy
          · intro z o hz
            simp only [] at hz
            exact hI.2 z o hz
        · intro pend hpend
          cases hpend
    · have hrun : RenderingDesign.loadArtboard env x st
          = (Except.error Err.loadArtboardFailed,
             { st with
               renderingArtboards :=
                 (setA st.renderingArtboards x
                    { ready := false, pendingSymbolIds := [] }),
               trace := st.trace ++ [Ev.cmdLoadArtboard x] }) := by
        unfold RenderingDesign.loadArtboard
        simp [SM_bind_apply, SM_pure_apply, getSt, emitEv, modSt, throwE, hx, hLA]
      rw [hrun]
      constructor
      · constructor
        · intro y ra hy
          simp only [] at hy
          by_cases hyx : y = x
          · rw [hyx, getA_setA_self] at hy
            cases hy
            left
            rfl
          · rw [getA_setA_ne _ _ _ _ hyx] at hy
            exact hI.1 y ra hy
        · intro z o hz
          simp only [] at hz
          exact hI.2 z o hz
      · intro pend hpend
        cases hpend
  · have hrun : RenderingDesign.loadArtboard env x st
        = (Except.ok prev.pendingSymbolIds, st) := by
      unfold RenderingDesign.loadArtboard
      simp [SM_bind_apply, SM_pure_apply, getSt, hx]
    rw [hrun]
    refine ⟨hI, ?_⟩
    intro pend hpend
    injection hpend with h
    rw [← h]
    exact hI.1 x prev hx

/-- `markArtboardAsReady` keeps the termination invariant: it only flips the
`ready` flag and never rewrites a pending list or the registry. -/
theorem markArtboardAsReady_term (env : SEnv) (x : String) (st : SState)
    (hI : TermInv env st) :
    TermInv env (RenderingDesign.markArtboardAsReady env x st).2 := by
  rcases hx : getA st.renderingArtboards x with _ | ra
  · have hrun : RenderingDesign.markArtboardAsReady env x st
        = (Except.error Err.noSuchArtboard, st) := by
      unfold RenderingDesign.markArtboardAsReady
      simp [SM_bind_apply, getSt, throwE, hx]
    rw [hrun]
    exact hI
  · by_cases hfin : env.base.finalizeOk = true
    · have hrun : RenderingDesign.markArtboardAsReady env x st
          = (Except.ok (),
             { st with
               renderingArtboards :=
                 (setA st.renderingArtboards x { ra with ready := true }),
               trace := st.trace ++ [Ev.cmdFinalize x] ++ [Ev.readySet x] }) := by
        unfold RenderingDesign.markArtboardAsReady
        simp [SM_bind_apply, SM_pure_apply, getSt, emitEv, modSt, hx, hfin]
      rw [hrun]
      constructor
      · intro y ra' hy
        simp only [] at hy
        by_cases hyx : y = x
        · rw [hyx, getA_setA_self] at hy
          cases hy
          rw [hyx]
          exact hI.1 x ra hx
        · rw [getA_setA_ne _ _ _ _ hyx] at hy
          exact hI.1 y ra' hy
      · intro z o hz
        simp only [] at hz
        exact hI.2 z o hz
    · have hrun : RenderingDesign.markArtboardAsReady env x st
          = (Except.error Err.finalizeFailed,
             { st with trace := st.trace ++ [Ev.cmdFinalize x] }) := by
        unfold RenderingDesign.markArtboardAsReady
        simp [SM_bind_apply, getSt, emitEv, throwE, hx, hfin]
      rw [hrun]
      exact hI

/-- The dependency fold keeps the termination invariant and is free of the
fuel-exhaustion marker as long as every recursive call it can make is. -/
theorem loadDependencies_term (env : SEnv) (recur : String → SM Unit) :
    ∀ (l : List String),
      (∀ c' ∈ l, ∀ b, findByComponent env c' = some b →
        ∀ st', TermInv env st' →
          TermInv env (recur b.id st').2
            ∧ (recur b.id st').1 ≠ Except.error Err.fuelExhausted) →
      ∀ st, TermInv env st →
        TermInv env (DesignFacade.loadDependencies env recur l st).2
          ∧ (DesignFacade.loadDependencies env recur l st).1
              ≠ Except.error Err.fuelExhausted := by
  intro l
  induction l with
  | nil =>
      intro _ st hI
      have hrun : DesignFacade.loadDependencies env recur [] st = (Except.ok (), st) := rfl
      rw [hrun]
      exact ⟨hI, by intro h; cases h⟩
  | cons d rest ih =>
      intro hall st hI
      unfold DesignFacade.loadDependencies
      rcases hfind : findByComponent env d with _ | b
      · simp only [SM_bind_apply, throwE]
        exact ⟨hI, by intro h; injection h with hh; cases hh⟩
      · simp only [SM_bind_apply]
        rcases hstep : recur b.id st with ⟨r₁, st₁⟩
        have h1 := hall d (List.mem_cons_self d rest) b hfind st hI
        rw [hstep] at h1
        cases r₁ with
        | error e =>
            simp only []
            exact ⟨h1.1, h1.2⟩
        | ok _ =>
            simp only []
            exact ih (fun c' hc' => hall c' (List.mem_cons_of_mem d hc')) st₁ h1.1

/-- Master lemma for C9 (part 1): with a rank function that strictly
decreases along the component dependency relation, any run given more fuel
than the rank of its artboard never reports fuel exhaustion — every
recursion bottoms out. -/
theorem loadRDA_terminates (env : SEnv) (rank : String → Nat)
    (hrank : ∀ x c' b, c' ∈ env.base.deps x → findByComponent env c' = some b →
      rank b.id < rank x) :
    ∀ (fuel : Nat) (x : String) (st : SState), rank x < fuel → TermInv env st →
      TermInv env (DesignFacade.loadRenderingDesignArtboard env fuel x st).2
        ∧ (DesignFacade.loadRenderingDesignArtboard env fuel x st).1
            ≠ Except.error Err.fuelExhausted := by
  intro fuel
  induction fuel with
  | zero =>
      intro x st hrk hI
      exact absurd hrk (Nat.not_lt_zero _)
  | succ fuel ih =>
      intro x st hrk hI
      have hfe : DesignFacade.loadRenderingDesignArtboard env (fuel + 1) x st
          = DesignFacade.loadRenderingDesignArtboardStep env
              (DesignFacade.loadRenderingDesignArtboard env fuel) x st := rfl
      rw [hfe]
      unfold DesignFacade.loadRenderingDesignArtboardStep
      by_cases hrd : env.base.hasRenderingDesign = true
      case neg =>
        rw [if_pos (by simpa using hrd)]
        exact ⟨hI, by intro h; injection h with hh; cases hh⟩
      rw [if_neg (not_not_intro hrd)]
      simp only [SM_bind_apply, getSt]
      by_cases hready0 : raReady st x = true
      · rw [if_pos hready0]
        exact ⟨hI, by intro h; cases h⟩
      rw [if_neg hready0]
      by_cases hld : env.base.hasLocalDesign = true
      case neg =>
        rw [if_pos (by simpa using hld)]
        exact ⟨hI, by intro h; injection h with hh; cases hh⟩
      rw [if_neg (not_not_intro hld)]
      by_cases hfa : (findArtboard env x).isNone = true
      · rw [if_pos hfa]
        exact ⟨hI, by intro h; injection h with hh; cases hh⟩
      rw [if_neg hfa]
      simp only [SM_bind_apply]
      rcases h₁ : DesignFacade.artboardLoad env x st with ⟨r₁, st₁⟩
      have hk₁ := artboardLoad_term env x st hI
      rw [h₁] at hk₁
      rcases hk₁ with ⟨hI₁, hF₁⟩
      cases r₁ with
      | error e =>
          simp only []
          exact ⟨hI₁, hF₁⟩
      | ok _ =>
      simp only []
      rcases h₂ : tokenCall env (Ev.queryFilename x) st₁ with ⟨r₂, st₂⟩
      have hI₂ : TermInv env st₂ := by
        refine TermInv.of_raReg ?_ hI₁
        have := raReg_tokenCall env (Ev.queryFilename x) st₁
        rw [h₂] at this
        exact this
      have hF₂ := NoFE.tokenCall_nofe env (Ev.queryFilename x) st₁
      rw [h₂] at hF₂
      cases r₂ with
      | error e =>
          simp only []
          exact ⟨hI₂, hF₂⟩
      | ok _ =>
      simp only [SM_bind_apply, getSt]
      by_cases hcc : x ∈ st₂.cachedContent
      case neg =>
        rw [if_pos (by simpa using hcc)]
        exact ⟨hI₂, by intro h; injection h with hh; cases hh⟩
      rw [if_neg (not_not_intro hcc)]
      simp only [SM_bind_apply]
      rcases h₃ : RenderingDesign.loadArtboard env x st₂ with ⟨r₃, st₃⟩
      have hk₃ := renderingLoadArtboard_term env x st₂ hI₂
      rw [h₃] at hk₃
      rcases hk₃ with ⟨hI₃, hpend₃⟩
      have hF₃ := noFE_renderingLoadArtboard env x st₂
      rw [h₃] at hF₃
      cases r₃ with
      | error e =>
          simp only []
          refine ⟨hI₃, ?_⟩
          intro hh
          injection hh with hh'
          exact hF₃ (by rw [hh'])
      | ok pend =>
      simp only []
      rcases h₄ : observe env st₃ with ⟨r₄, st₄⟩
      have hI₄ : TermInv env st₄ := by
        refine TermInv.of_raReg ?_ hI₃
        have := raReg_observe env st₃
        rw [h₄] at this
        exact this
      have hF₄ := NoFE.observe_nofe env st₃
      rw [h₄] at hF₄
      cases r₄ with
      | error e =>
          simp only []
          exact ⟨hI₄, hF₄⟩
      | ok _ =>
      simp only []
      rcases h₅ : DesignFacade.loadDependencies env
          (DesignFacade.loadRenderingDesignArtboard env fuel) pend st₄ with ⟨r₅, st₅⟩
      have hall : ∀ c' ∈ pend, ∀ b, findByComponent env c' = some b →
          ∀ st', TermInv env st' →
            TermInv env (DesignFacade.loadRenderingDesignArtboard env fuel b.id st').2
              ∧ (DesignFacade.loadRenderingDesignArtboard env fuel b.id st').1
                  ≠ Except.error Err.fuelExhausted := by
        intro c' hc' b hb st' hI'
        rcases hpend₃ pend rfl with hnil | hdeps
        · rw [hnil] at hc'
          cases hc'
        · rw [hdeps] at hc'
          have hrb : rank b.id < fuel :=
            Nat.lt_of_lt_of_le (hrank x c' b hc' hb) (Nat.lt_succ_iff.mp hrk)
          exact ih b.id st' hrb hI'
      have hk₅ := loadDependencies_term env
        (DesignFacade.loadRenderingDesignArtboard env fuel) pend hall st₄ hI₄
      rw [h₅] at hk₅
      rcases hk₅ with ⟨hI₅, hF₅⟩
      cases r₅ with
      | error e =>
          simp only []
          exact ⟨hI₅, hF₅⟩
      | ok _ =>
      simp only []
      rcases h₆ : DesignFacade.loadAssetsStep env x st₅ with ⟨r₆, st₆⟩
      have hI₆ : TermInv env st₆ := by
        refine TermInv.of_raReg ?_ hI₅
        have := raReg_loadAssetsStep env x st₅
        rw [h₆] at this
        exact this
      have hF₆ := noFE_loadAssetsStep env x st₅
      rw [h₆] at hF₆
      cases r₆ with
      | error e =>
          simp only []
          exact ⟨hI₆, hF₆⟩
      | ok _ =>
      simp only []
      rcases h₇ : RenderingDesign.markArtboardAsReady env x st₆ with ⟨r₇, st₇⟩
      have hI₇ : TermInv env st₇ := by
        have := markArtboardAsReady_term env x st₆ hI₆
        rw [h₇] at this
        exact this
      have hF₇ := noFE_markArtboardAsReady env x st₆
      rw [h₇] at hF₇
      cases r₇ with
      | error e =>
          simp only []
          exact ⟨hI₇, hF₇⟩
      | ok _ =>
      simp only []
      rcases h₈ : observe env st₇ with ⟨r₈, st₈⟩
      have hI₈ : TermInv env st₈ := by
        refine TermInv.of_raReg ?_ hI₇
        have := raReg_observe env st₇
        rw [h₈] at this
        exact this
      have hF₈ := NoFE.observe_nofe env st₇
      rw [h₈] at hF₈
      cases r₈ with
      | error e =>
          simp only []
          exact ⟨hI₈, hF₈⟩
      | ok _ =>
      simp only [SM_bind_apply, getSt]
      by_cases hr8 : raReady st₈ x = true
      · rw [if_pos hr8]
        exact ⟨hI₈, by intro h; cases h⟩
      · rw [if_neg hr8]
        exact ⟨hI₈, by intro h; injection h with hh; cases hh⟩

end ODS

namespace ODS

/-! ## Claim C9 (part 2): a component cycle spins forever -/

/-- The reachable-state invariant of the cyclic two-artboard design: each of
`A` and `B`, when registered, still has its full pending list and is not
ready; the octopus content of both sits in the local cache; and every stored
loading promise has resolved. -/
def CycleInv (st : SState) : Prop :=
  (∀ ra, getA st.renderingArtboards "A" = some ra →
      ra = { ready := false, pendingSymbolIds := ["cb"] })
    ∧ (∀ ra, getA st.renderingArtboards "B" = some ra →
        ra = { ready := false, pendingSymbolIds := ["ca"] })
    ∧ "A" ∈ st.cachedContent ∧ "B" ∈ st.cachedContent
    ∧ (∀ z o, getA st.loadingArtboardPromises z = some o → o = Except.ok ())

theorem CycleInv.of_frame_cyc {st st' : SState}
    (hra : st'.renderingArtboards = st.renderingArtboards)
    (hcc : st'.cachedContent = st.cachedContent)
    (hreg : st'.loadingArtboardPromises = st.loadingArtboardPromises)
    (hI : CycleInv st) : CycleInv st' := by
  refine ⟨?_, ?_, ?_, ?_, ?_⟩
  · intro ra h
    rw [hra] at h
    exact hI.1 ra h
  · intro ra h
    rw [hra] at h
    exact hI.2.1 ra h
  · rw [hcc]
    exact hI.2.2.1
  · rw [hcc]
    exact hI.2.2.2.1
  · intro z o h
    rw [hreg] at h
    exact hI.2.2.2.2 z o h

theorem CycleInv.cachedMem {x : String} {st : SState}
    (hx : x = "A" ∨ x = "B") (hI : CycleInv st) : x ∈ st.cachedContent := by
  rcases hx with h | h
  · rw [h]
    exact hI.2.2.1
  · rw [h]
    exact hI.2.2.2.1

theorem CycleInv.not_ready_cyc {x : String} {st : SState}
    (hx : x = "A" ∨ x = "B") (hI : CycleInv st) : raReady st x = false := by
  unfold raReady
  rcases hgx : getA st.renderingArtboards x with _ | ra
  · rfl
  · rcases hx with h | h
    · rw [h] at hgx
      rw [hI.1 ra hgx]
    · rw [h] at hgx
      rw [hI.2.1 ra hgx]

/-- With the never-cancelled token, an observation point always passes. -/
theorem observe_cycle (st : SState) :
    observe envCycle st = (Except.ok (), { st with obsCount := st.obsCount + 1 }) := rfl

/-- With the never-cancelled token, a token-carrying collaborator call always
performs the call. -/
theorem tokenCall_cycle (e : Ev) (st : SState) :
    tokenCall envCycle e st
      = (Except.ok (),
         { st with obsCount := st.obsCount + 1, trace := st.trace ++ [e] }) := rfl

/-- In the cyclic design the content-load entry point always resolves and
keeps the invariant. -/
theorem artboardLoad_cycle (x : String) (st : SState)
    (hx : x = "A" ∨ x = "B") (hI : CycleInv st) :
    (DesignFacade.artboardLoad envCycle x st).1 = Except.ok ()
      ∧ CycleInv (DesignFacade.artboardLoad envCycle x st).2 := by
  unfold DesignFacade.artboardLoad
  simp only [SM_bind_apply, getSt]
  by_cases hlc : x ∈ st.loadedContent
  · rw [if_pos hlc]
    exact ⟨rfl, hI⟩
  rw [if_neg hlc]
  unfold DesignFacade.loadArtboard
  have hfa : ¬((findArtboard envCycle x).isNone = true) := by
    rcases hx with h | h <;> subst h <;> decide
  rw [if_neg hfa]
  simp only [SM_bind_apply, getSt]
  rcases hreg : getA st.loadingArtboardPromises x with _ | o
  · simp only []
    rw [if_neg hlc]
    unfold DesignFacade.recordLoadingPromise
    have hlacrun : DesignFacade.loadArtboardContent envCycle x st
        = (Except.ok (),
           { st with
             obsCount := st.obsCount + 1,
             trace := st.trace ++ [Ev.queryHasContent x, Ev.contentRead x] }) := by
      have hcc := hI.cachedMem hx
      unfold DesignFacade.loadArtboardContent
      simp [SM_bind_apply, getSt, emitEv, tokenCall, ODS.observe, envCycle, cyclicBase,
        twoArtboardBase, hcc]
    rw [hlacrun]
    refine ⟨rfl, ?_, ?_, ?_, ?_, ?_⟩
    · intro ra h
      simp only [] at h
      exact hI.1 ra h
    · intro ra h
      simp only [] at h
      exact hI.2.1 ra h
    · exact hI.2.2.1
    · exact hI.2.2.2.1
    · intro z o hz
      simp only [] at hz
      by_cases hzx : z = x
      · rw [hzx, getA_setA_self] at hz
        cases hz
        rfl
      · rw [getA_setA_ne _ _ _ _ hzx] at hz
        exact hI.2.2.2.2 z o hz
  · simp only []
    have ho := hI.2.2.2.2 x o hreg
    exact ⟨ho, hI⟩

/-- In the cyclic design the rendering-process registration of `A` or `B`
always resolves with the full dependency list and keeps the invariant. -/
theorem renderingLoadArtboard_cycle (x : String) (st : SState)
    (hx : x = "A" ∨ x = "B") (hI : CycleInv st) :
    (RenderingDesign.loadArtboard envCycle x st).1 = Except.ok (envCycle.base.deps x)
      ∧ CycleInv (RenderingDesign.loadArtboard envCycle x st).2 := by
  have hLA : envCycle.base.loadArtboardOk = true := rfl
  have hGD : envCycle.base.getDepsOk = true := rfl
  rcases hxe : getA st.renderingArtboards x with _ | prev
  · have hrun : RenderingDesign.loadArtboard envCycle x st
        = (Except.ok (envCycle.base.deps x),
           { st with
             renderingArtboards :=
               (setA (setA st.renderingArtboards x
                  { ready := false, pendingSymbolIds := [] })
                 x { ready := false, pendingSymbolIds := envCycle.base.deps x }),
             trace := st.trace ++ [Ev.cmdLoadArtboard x] ++ [Ev.cmdGetDeps x] }) := by
      unfold RenderingDesign.loadArtboard
      simp [SM_bind_apply, SM_pure_apply, getSt, emitEv, modSt, hxe, hLA, hGD]
    rw [hrun]
    refine ⟨rfl, ?_, ?_, hI.2.2.1, hI.2.2.2.1, ?_⟩
    · intro ra h
      simp only [] at h
      rcases hx with hxx | hxx <;> subst hxx
      · rw [getA_setA_self] at h
        cases h
        decide
      · rw [getA_setA_ne _ _ _ _ (by decide), getA_setA_ne _ _ _ _ (by decide)] at h
        exact hI.1 ra h
    · intro ra h
      simp only [] at h
      rcases hx with hxx | hxx <;> subst hxx
      · rw [getA_setA_ne _ _ _ _ (by decide), getA_setA_ne _ _ _ _ (by decide)] at h
        exact hI.2.1 ra h
      · rw [getA_setA_self] at h
        cases h
        decide
    · intro z o hz
      simp only [] at hz
      exact hI.2.2.2.2 z o hz
  · have hrun : RenderingDesign.loadArtboard envCycle x st
        = (Except.ok prev.pendingSymbolIds, st) := by
      unfold RenderingDesign.loadArtboard
      simp [SM_bind_apply, SM_pure_apply, getSt, hxe]
    rw [hrun]
    refine ⟨?_, hI⟩
    show Except.ok prev.pendingSymbolIds = Except.ok (envCycle.base.deps x)
    rcases hx with hxx | hxx <;> subst hxx
    · rw [hI.1 prev hxe]
      decide
    · rw [hI.2.1 prev hxe]
      decide

/-- Master lemma for C9 (part 2): in the cyclic two-artboard design, the
load of `A` or `B` exhausts every fuel bound — the recursion never returns. -/
theorem loadRDA_cycle :
    ∀ (fuel : Nat) (x : String) (st : SState), (x = "A" ∨ x = "B") → CycleInv st →
      (DesignFacade.loadRenderingDesignArtboard envCycle fuel x st).1
          = Except.error Err.fuelExhausted
        ∧ CycleInv (DesignFacade.loadRenderingDesignArtboard envCycle fuel x st).2 := by
  intro fuel
  induction fuel with
  | zero =>
      intro x st hx hI
      exact ⟨rfl, hI⟩
  | succ fuel ih =>
      intro x st hx hI
      obtain ⟨cx, bx, hdx, hfx, hbx⟩ : ∃ cx bx, envCycle.base.deps x = [cx]
          ∧ findByComponent envCycle cx = some bx ∧ (bx.id = "A" ∨ bx.id = "B") := by
        rcases hx with h | h <;> subst h
        · exact ⟨"cb", ⟨"B", some "cb", none⟩, by decide, by decide, Or.inr rfl⟩
        · exact ⟨"ca", ⟨"A", some "ca", none⟩, by decide, by decide, Or.inl rfl⟩
      have hfe : DesignFacade.loadRenderingDesignArtboard envCycle (fuel + 1) x st
          = DesignFacade.loadRenderingDesignArtboardStep envCycle
              (DesignFacade.loadRenderingDesignArtboard envCycle fuel) x st := rfl
      rw [hfe]
      unfold DesignFacade.loadRenderingDesignArtboardStep
      rw [if_neg (by decide : ¬¬(envCycle.base.hasRenderingDesign = true))]
      simp only [SM_bind_apply, getSt]
      rw [if_neg (by rw [hI.not_ready_cyc hx]; decide)]
      rw [if_neg (by decide : ¬¬(envCycle.base.hasLocalDesign = true))]
      have hfa : ¬((findArtboard envCycle x).isNone = true) := by
        rcases hx with h | h <;> subst h <;> decide
      rw [if_neg hfa]
      simp only [SM_bind_apply]
      rcases h₁ : DesignFacade.artboardLoad envCycle x st with ⟨r₁, st₁⟩
      have hk₁ := artboardLoad_cycle x st hx hI
      rw [h₁] at hk₁
      rcases hk₁ with ⟨hr₁, hI₁⟩
      cases r₁ with
      | error e => cases hr₁
      | ok _ =>
      simp only []
      rw [tokenCall_cycle]
      simp only [SM_bind_apply, getSt]
      rw [if_neg (not_not_intro (hI₁.cachedMem hx))]
      simp only [SM_bind_apply]
      have hI₂ : CycleInv
          { st₁ with
            obsCount := st₁.obsCount + 1,
            trace := st₁.trace ++ [Ev.queryFilename x] } :=
        CycleInv.of_frame_cyc rfl rfl rfl hI₁
      rcases h₃ : RenderingDesign.loadArtboard envCycle x
          { st₁ with
            obsCount := st₁.obsCount + 1,
            trace := st₁.trace ++ [Ev.queryFilename x] } with ⟨r₃, st₃⟩
      have hk₃ := renderingLoadArtboard_cycle x _ hx hI₂
      rw [h₃] at hk₃
      rcases hk₃ with ⟨hr₃, hI₃⟩
      cases r₃ with
      | error e => cases hr₃
      | ok pend =>
      simp only []
      injection hr₃ with hpend
      subst hpend
      rw [observe_cycle]
      simp only []
      have hI₄ : CycleInv { st₃ with obsCount := st₃.obsCount + 1 } :=
        CycleInv.of_frame_cyc rfl rfl rfl hI₃
      rw [hdx]
      unfold DesignFacade.loadDependencies
      simp only [hfx]
      simp only [SM_bind_apply]
      rcases h₅ : DesignFacade.loadRenderingDesignArtboard envCycle fuel bx.id
          { st₃ with obsCount := st₃.obsCount + 1 } with ⟨r₅, st₅⟩
      have hk₅ := ih bx.id { st₃ with obsCount := st₃.obsCount + 1 } hbx hI₄
      rw [h₅] at hk₅
      rcases hk₅ with ⟨hr₅, hI₅⟩
      subst hr₅
      exact ⟨rfl, hI₅⟩

theorem cycleInv_fresh : CycleInv freshState := by
  refine ⟨?_, ?_, ?_, ?_, ?_⟩
  · intro ra h
    simp [getA, freshState] at h
  · intro ra h
    simp [getA, freshState] at h
  · decide
  · decide
  · intro z o h
    simp [getA, freshState] at h

/-- **C9.** The dependency recursion of `_loadRenderingDesignArtboard`
terminates on every design whose component dependency graph admits a
strictly decreasing rank (in particular on every acyclic design): with more
fuel than the artboard's rank the run never reports fuel exhaustion.  And
the recursion has no cycle detection: in the concrete design where `A`
depends on the component defined by `B` and `B` on the component defined by
`A`, the load of `A` exhausts every fuel bound — the recursion never
returns. -/
theorem dependency_recursion_termination :
    (∀ (env : SEnv) (rank : String → Nat),
        (∀ x c' b, c' ∈ env.base.deps x → findByComponent env c' = some b →
          rank b.id < rank x) →
        ∀ (fuel : Nat) (x : String) (st : SState), rank x < fuel → TermInv env st →
          (DesignFacade.loadRenderingDesignArtboard env fuel x st).1
            ≠ Except.error Err.fuelExhausted)
      ∧ ∀ (fuel : Nat),
          (DesignFacade.loadRenderingDesignArtboard envCycle fuel "A" freshState).1
            = Except.error Err.fuelExhausted :=
  ⟨fun env rank hrank fuel x st hrk hI =>
      (loadRDA_terminates env rank hrank fuel x st hrk hI).2,
   fun fuel => (loadRDA_cycle fuel "A" freshState (Or.inl rfl) cycleInv_fresh).1⟩

/-- Witness for C9: the acyclic two-artboard design (rank `A` = 1, rank
`B` = 0) terminates with fuel 2, while the cyclic design exhausts fuel 5. -/
theorem dependency_recursion_termination_witness :
    (DesignFacade.loadRenderingDesignArtboard ⟨twoArtboardBase, none⟩ 2 "A"
        freshState).1 ≠ Except.error Err.fuelExhausted
      ∧ (DesignFacade.loadRenderingDesignArtboard envCycle 5 "A" freshState).1
        = Except.error Err.fuelExhausted :=
  ⟨dependency_recursion_termination.1 ⟨twoArtboardBase, none⟩
      (fun id => if id = "A" then 1 else 0)
      (by
        intro x c' b hc' hb
        by_cases hxA : x = "A"
        · subst hxA
          simp [twoArtboardBase] at hc'
          subst hc'
          have hfb : findByComponent ⟨twoArtboardBase, none⟩ "cb"
              = some ⟨"B", some "cb", none⟩ := by decide
          rw [hfb] at hb
          injection hb with hbv
          rw [← hbv]
          decide
        · simp [twoArtboardBase, hxA] at hc')
      2 "A" freshState (by decide)
      ⟨fun y ra hy => by simp [getA, freshState] at hy,
       fun z o hz => by simp [getA, freshState] at hz⟩,
   dependency_recursion_termination.2 5⟩

end ODS

namespace ODS

/-! ## Claim C6: cancellation — what the token does and does not interrupt -/

/-- With the token already cancelled, every observation point rejects. -/
theorem observe_cancelled (env : SEnv) (hk : env.cancelAt = some 0) (st : SState) :
    observe env st
      = (Except.error Err.cancelled, { st with obsCount := st.obsCount + 1 }) := by
  unfold ODS.observe
  rw [hk]
  simp only []
  rw [if_pos (Nat.zero_le _)]

/-- With the token already cancelled, every token-carrying collaborator call
rejects before issuing its command. -/
theorem tokenCall_cancelled (env : SEnv) (hk : env.cancelAt = some 0) (e : Ev)
    (st : SState) :
    tokenCall env e st
      = (Except.error Err.cancelled, { st with obsCount := st.obsCount + 1 }) := by
  unfold ODS.tokenCall
  rw [SM_bind_apply, observe_cancelled env hk st]

/-- Amended C6: when the artboard is **not** already ready in the proxy and
the token is already cancelled at entry, the load rejects with the
cancellation error, the rendering-artboard map is untouched, and the only
collaborator call that may still be issued is the token-less
`hasArtboardContent` cache query — nothing the run had already committed is
rolled back (the trace only grows).  (The already-ready fast path, by
contrast, returns successfully without consulting the token — see the
counterexample.) -/
theorem cancelled_token_aborts (env : SEnv) (x : String) (st : SState)
    (hk : env.cancelAt = some 0)
    (hready : raReady st x = false)
    (hrd : env.base.hasRenderingDesign = true)
    (hld : env.base.hasLocalDesign = true)
    (hfa : (findArtboard env x).isNone = false)
    (hreg : getA st.loadingArtboardPromises x = none
      ∨ getA st.loadingArtboardPromises x = some (Except.ok ()))
    (hcc : x ∈ st.cachedContent) :
    ∀ (fuel : Nat),
      (DesignFacade.loadRenderingDesignArtboard env (fuel + 1) x st).1
          = Except.error Err.cancelled
        ∧ (DesignFacade.loadRenderingDesignArtboard env (fuel + 1) x st).2.renderingArtboards
          = st.renderingArtboards
        ∧ ∃ u, (DesignFacade.loadRenderingDesignArtboard env (fuel + 1) x st).2.trace
              = st.trace ++ u
            ∧ ∀ e ∈ u, e = Ev.queryHasContent x := by
  intro fuel
  have hfe : DesignFacade.loadRenderingDesignArtboard env (fuel + 1) x st
      = DesignFacade.loadRenderingDesignArtboardStep env
          (DesignFacade.loadRenderingDesignArtboard env fuel) x st := rfl
  rw [hfe]
  unfold DesignFacade.loadRenderingDesignArtboardStep
  rw [if_neg (not_not_intro hrd)]
  simp only [SM_bind_apply, getSt]
  rw [if_neg (by simp [hready])]
  rw [if_neg (not_not_intro hld)]
  rw [if_neg (by simp [hfa])]
  simp only [SM_bind_apply]
  by_cases hlc : x ∈ st.loadedContent
  · have hab : DesignFacade.artboardLoad env x st = (Except.ok (), st) := by
      unfold DesignFacade.artboardLoad
      simp [SM_bind_apply, SM_pure_apply, getSt, hlc]
    rw [hab]
    simp only []
    rw [tokenCall_cancelled env hk]
    exact ⟨rfl, rfl, [], by simp, by intro e he; cases he⟩
  · rcases hreg with hregn | hrego
    · have hlac : DesignFacade.loadArtboardContent env x st
          = (Except.error Err.cancelled,
             { st with
               obsCount := st.obsCount + 1,
               trace := st.trace ++ [Ev.queryHasContent x] }) := by
        unfold DesignFacade.loadArtboardContent
        simp [SM_bind_apply, getSt, emitEv, hld, hcc, ODS.tokenCall,
          observe_cancelled env hk]
      have hab : DesignFacade.artboardLoad env x st
          = (Except.error Err.cancelled,
             { st with
               loadingArtboardPromises :=
                 (setA st.loadingArtboardPromises x (Except.error Err.cancelled)),
               obsCount := st.obsCount + 1,
               trace := st.trace ++ [Ev.queryHasContent x] }) := by
        unfold DesignFacade.artboardLoad DesignFacade.loadArtboard
          DesignFacade.recordLoadingPromise
        simp [SM_bind_apply, getSt, hlc, hfa, hregn, hlac]
      rw [hab]
      refine ⟨rfl, rfl, [Ev.queryHasContent x], by simp, ?_⟩
      intro e he
      simp only [List.mem_singleton] at he
      exact he
    · have hab : DesignFacade.artboardLoad env x st = (Except.ok (), st) := by
        unfold DesignFacade.artboardLoad DesignFacade.loadArtboard
        simp [SM_bind_apply, getSt, liftE, hlc, hfa, hrego]
      rw [hab]
      simp only []
      rw [tokenCall_cancelled env hk]
      exact ⟨rfl, rfl, [], by simp, by intro e he; cases he⟩

/-- Counterexample to C6 as stated: the token is already cancelled at entry
(`some 0`), yet the load of an artboard that is already ready in the proxy
performs its step and resolves successfully — the `isArtboardReady` fast
path of design-facade.ts line 2672 runs before the first `throwIfCancelled`
of line 2686, so "at every step, if the token is already cancelled, the call
rejects" is false. -/
theorem cancelled_token_counterexample :
    (DesignFacade.loadRenderingDesignArtboard ⟨twoArtboardBase, some 0⟩ 1 "A"
        { freshState with
          renderingArtboards := [("A", { ready := true, pendingSymbolIds := [] })] }).1
      = Except.ok () := by
  decide

/-- Witness for the amended C6: the two-artboard design with the token
cancelled at entry and a fresh (not-ready) state rejects with the
cancellation error. -/
theorem cancelled_token_aborts_witness :
    raReady freshState "A" = false
      ∧ "A" ∈ freshState.cachedContent
      ∧ (DesignFacade.loadRenderingDesignArtboard ⟨twoArtboardBase, some 0⟩ 1 "A"
            freshState).1 = Except.error Err.cancelled :=
  ⟨by decide, by decide,
   (cancelled_token_aborts ⟨twoArtboardBase, some 0⟩ "A" freshState rfl (by decide)
      rfl rfl (by decide) (Or.inl rfl) (by decide) 0).1⟩

end ODS

namespace ODS

namespace Conc

/-! ## Claim C1: what concurrent invocations for one artboard share -/

/-- Occurrence count of a collaborator call in the trace. -/
def cnt (e : CEv) : List CEv → Nat
  | [] => 0
  | a :: tr => (if a = e then 1 else 0) + cnt e tr

theorem cnt_append (e : CEv) (t₁ t₂ : List CEv) :
    cnt e (t₁ ++ t₂) = cnt e t₁ + cnt e t₂ := by
  induction t₁ with
  | nil => simp [cnt]
  | cons a tr ih =>
      simp only [List.cons_append, cnt, List.append_eq]
      rw [ih]
      omega

theorem cnt_snoc (e a : CEv) (tr : List CEv) :
    cnt e (tr ++ [a]) = cnt e tr + (if a = e then 1 else 0) := by
  rw [cnt_append]
  simp [cnt]

/-- Total weight of the task list. -/
def sumW (w : PC → Nat) : List PC → Nat
  | [] => 0
  | pc :: ts => w pc + sumW w ts

theorem sumW_set (w : PC → Nat) :
    ∀ (ts : List PC) (i : Nat) {pc : PC} (pc' : PC), ts.get? i = some pc →
      sumW w (ts.set i pc') + w pc = sumW w ts + w pc' := by
  intro ts
  induction ts with
  | nil =>
      intro i pc pc' h
      cases h
  | cons hd tl ih =>
      intro i pc pc' h
      cases i with
      | zero =>
          injection h with h
          subst h
          simp only [List.set, sumW]
          omega
      | succ j =>
          simp only [List.get?] at h
          simp only [List.set, sumW]
          have := ih j pc' h
          omega

theorem mem_set_self {ts : List PC} {i : Nat} {pc : PC} (pc' : PC)
    (h : ts.get? i = some pc) : pc' ∈ ts.set i pc' := by
  induction ts generalizing i with
  | nil => cases h
  | cons hd tl ih =>
      cases i with
      | zero => exact List.mem_cons_self _ _
      | succ j =>
          simp only [List.get?] at h
          exact List.mem_cons_of_mem _ (ih h)

theorem mem_set_of_ne {ts : List PC} {i : Nat} {a pc : PC} (pc' : PC)
    (ha : a ∈ ts) (hne : a ≠ pc) (h : ts.get? i = some pc) : a ∈ ts.set i pc' := by
  induction ts generalizing i with
  | nil => cases ha
  | cons hd tl ih =>
      cases i with
      | zero =>
          injection h with hh
          rcases List.mem_cons.mp ha with h' | h'
          · exact absurd (h'.trans hh) hne
          · exact List.mem_cons_of_mem _ h'
      | succ j =>
          simp only [List.get?] at h
          rcases List.mem_cons.mp ha with h' | h'
          · rw [h']
            exact List.mem_cons_self _ _
          · exact List.mem_cons_of_mem _ (ih h' h)

theorem mem_of_mem_set {ts : List PC} {i : Nat} {a pc' : PC}
    (h : a ∈ ts.set i pc') : a ∈ ts ∨ a = pc' := by
  induction ts generalizing i with
  | nil => cases h
  | cons hd tl ih =>
      cases i with
      | zero =>
          rcases List.mem_cons.mp h with h' | h'
          · exact Or.inr h'
          · exact Or.inl (List.mem_cons_of_mem _ h')
      | succ j =>
          rcases List.mem_cons.mp h with h' | h'
          · exact Or.inl (by rw [h']; exact List.mem_cons_self _ _)
          · rcases ih h' with h'' | h''
            · exact Or.inl (List.mem_cons_of_mem _ h'')
            · exact Or.inr h''

theorem sumW_le_sumW {w₁ w₂ : PC → Nat} (h : ∀ pc, w₁ pc ≤ w₂ pc) :
    ∀ ts : List PC, sumW w₁ ts ≤ sumW w₂ ts := by
  intro ts
  induction ts with
  | nil => exact Nat.le_refl _
  | cons hd tl ih =>
      simp only [sumW]
      exact Nat.add_le_add (h hd) ih

theorem sumW_le_length {w : PC → Nat} (h : ∀ pc, w pc ≤ 1) :
    ∀ ts : List PC, sumW w ts ≤ ts.length := by
  intro ts
  induction ts with
  | nil => exact Nat.le_refl _
  | cons hd tl ih =>
      simp only [sumW, List.length_cons]
      have := h hd
      omega

theorem sumW_eq_zero {w : PC → Nat} :
    ∀ {ts : List PC}, (∀ pc ∈ ts, w pc = 0) → sumW w ts = 0 := by
  intro ts
  induction ts with
  | nil => intro _; rfl
  | cons hd tl ih =>
      intro h
      simp only [sumW]
      rw [h hd (List.mem_cons_self _ _), ih (fun pc hpc => h pc (List.mem_cons_of_mem _ hpc))]

theorem sumW_pos {w : PC → Nat} {a : PC} :
    ∀ {ts : List PC}, a ∈ ts → 1 ≤ w a → 1 ≤ sumW w ts := by
  intro ts
  induction ts with
  | nil => intro h; cases h
  | cons hd tl ih =>
      intro hm hw
      simp only [sumW]
      rcases List.mem_cons.mp hm with h | h
      · rw [← h]
        omega
      · have := ih h hw
        omega

/-- Weight 1 on the task parked at the content read. -/
def readW : PC → Nat
  | PC.pAwaitRead => 1
  | _ => 0

/-- Weight 1 on the tasks inside the content-load promise body. -/
def bodyW : PC → Nat
  | PC.pAwaitHasContent => 1
  | PC.pAwaitFetch => 1
  | PC.pAwaitSave => 1
  | PC.pAwaitRead => 1
  | _ => 0

/-- Weight 1 on the tasks that have issued their own `finalize-artboard`. -/
def finW : PC → Nat
  | PC.pAwaitFinalize => 1
  | PC.pDone true => 1
  | _ => 0

/-- Program counters past the shared content load. -/
def postB : PC → Bool
  | PC.pAfterLoad => true
  | PC.pAwaitFilename => true
  | PC.pAwaitProxyLoad => true
  | PC.pAwaitDeps => true
  | PC.pPreFinalize => true
  | PC.pAwaitFinalize => true
  | PC.pDone _ => true
  | _ => false

/-- Program counters that require the proxy-side artboard entry to exist. -/
def raNeedB : PC → Bool
  | PC.pAwaitProxyLoad => true
  | PC.pAwaitDeps => true
  | PC.pPreFinalize => true
  | _ => false

/-- The machine invariant, maintained by every schedule under well-behaved
collaborators. -/
def INV (cfg : Config) : Prop :=
  cfg.shared.registry ≠ Reg.done false
    ∧ cnt CEv.contentRead cfg.shared.trace
        = sumW readW cfg.tasks
            + (if cfg.shared.registry = Reg.done true then 1 else 0)
    ∧ sumW bodyW cfg.tasks = (if cfg.shared.registry = Reg.inflight then 1 else 0)
    ∧ cnt CEv.cmdFinalize cfg.shared.trace = sumW finW cfg.tasks
    ∧ (∀ pc ∈ cfg.tasks, pc ≠ PC.pDoneErr)
    ∧ (∀ pc ∈ cfg.tasks, postB pc = true → cfg.shared.registry = Reg.done true)
    ∧ (cfg.shared.isLoaded = true → cfg.shared.registry = Reg.done true)
    ∧ (cfg.shared.raReady = true → PC.pDone true ∈ cfg.tasks)
    ∧ (∀ pc ∈ cfg.tasks, raNeedB pc = true → cfg.shared.raExists = true)
    ∧ (PC.pDone false ∈ cfg.tasks → cfg.shared.raReady = true)

theorem INV_init (n : Nat) : INV (initConfig n) := by
  have hrep : ∀ pc ∈ List.replicate n PC.pStart, pc = PC.pStart := by
    intro pc h
    exact (List.mem_replicate.mp h).2
  refine ⟨?_, ?_, ?_, ?_, ?_, ?_, ?_, ?_, ?_, ?_⟩
  · intro h
    cases h
  · rw [sumW_eq_zero (fun pc h => by rw [hrep pc h]; rfl)]
    rfl
  · rw [sumW_eq_zero (fun pc h => by rw [hrep pc h]; rfl)]
    rfl
  · rw [sumW_eq_zero (fun pc h => by rw [hrep pc h]; rfl)]
    rfl
  · intro pc h
    rw [hrep pc h]
    intro h'
    cases h'
  · intro pc h hp
    rw [hrep pc h] at hp
    cases hp
  · intro h
    cases h
  · intro h
    cases h
  · intro pc h hp
    rw [hrep pc h] at hp
    cases hp
  · intro h
    have := hrep _ h
    cases this

end Conc

end ODS

namespace ODS

namespace Conc

/-- `INV` unfolded at a fully explicit configuration. -/
theorem INV_mk (reg : Reg) (il rae rar : Bool) (tr : List CEv) (ts : List PC) :
    INV ⟨⟨reg, il, rae, rar, tr⟩, ts⟩ ↔
      (reg ≠ Reg.done false
        ∧ cnt CEv.contentRead tr
            = sumW readW ts + (if reg = Reg.done true then 1 else 0)
        ∧ sumW bodyW ts = (if reg = Reg.inflight then 1 else 0)
        ∧ cnt CEv.cmdFinalize tr = sumW finW ts
        ∧ (∀ pc ∈ ts, pc ≠ PC.pDoneErr)
        ∧ (∀ pc ∈ ts, postB pc = true → reg = Reg.done true)
        ∧ (il = true → reg = Reg.done true)
        ∧ (rar = true → PC.pDone true ∈ ts)
        ∧ (∀ pc ∈ ts, raNeedB pc = true → rae = true)
        ∧ (PC.pDone false ∈ ts → rar = true)) :=
  Iff.rfl

/-- `INV` unfolded at a configuration with an opaque shared state. -/
theorem INV_mk2 (sh : CState) (ts : List PC) :
    INV ⟨sh, ts⟩ ↔
      (sh.registry ≠ Reg.done false
        ∧ cnt CEv.contentRead sh.trace
            = sumW readW ts + (if sh.registry = Reg.done true then 1 else 0)
        ∧ sumW bodyW ts = (if sh.registry = Reg.inflight then 1 else 0)
        ∧ cnt CEv.cmdFinalize sh.trace = sumW finW ts
        ∧ (∀ pc ∈ ts, pc ≠ PC.pDoneErr)
        ∧ (∀ pc ∈ ts, postB pc = true → sh.registry = Reg.done true)
        ∧ (sh.isLoaded = true → sh.registry = Reg.done true)
        ∧ (sh.raReady = true → PC.pDone true ∈ ts)
        ∧ (∀ pc ∈ ts, raNeedB pc = true → sh.raExists = true)
        ∧ (PC.pDone false ∈ ts → sh.raReady = true)) :=
  Iff.rfl

theorem stepC_INV (env : CEnv) (hg : GoodEnv env) (cfg : Config) (i : Nat)
    (h : INV cfg) : INV (stepC env cfg i) := by
  obtain ⟨h1, h2, h3, h4, h5, h6, h7, h8, h9, h10⟩ := h
  obtain ⟨hca, hfn, hla, hgd, hfo⟩ := hg
  unfold stepC
  rcases hti : cfg.tasks.get? i with _ | pc
  · exact ⟨h1, h2, h3, h4, h5, h6, h7, h8, h9, h10⟩
  have hmem := List.get?_mem hti
  simp only []
  cases pc with
  | pStart =>
      simp only [stepTask]
      by_cases hrr : cfg.shared.raReady = true
      · rw [if_pos hrr]
        simp only []
        have hsr := sumW_set readW cfg.tasks i (PC.pDone false) hti
        have hsb := sumW_set bodyW cfg.tasks i (PC.pDone false) hti
        have hsf := sumW_set finW cfg.tasks i (PC.pDone false) hti
        simp only [readW, bodyW, finW] at hsr hsb hsf
        rw [INV_mk2]
        refine ⟨h1, by omega, by omega, by omega, ?_, ?_, h7, ?_, ?_, fun _ => hrr⟩
        · intro a ha
          rcases mem_of_mem_set ha with h' | h'
          · exact h5 a h'
          · rw [h']
            intro hh
            cases hh
        · intro a ha hp
          rcases mem_of_mem_set ha with h' | h'
          · exact h6 a h' hp
          · exact h6 _ (h8 hrr) rfl
        · intro h'
          exact mem_set_of_ne _ (h8 h') (by intro hh; cases hh) hti
        · intro a ha hp
          rcases mem_of_mem_set ha with h' | h'
          · exact h9 a h' hp
          · rw [h'] at hp
            cases hp
      rw [if_neg hrr]
      by_cases hil : cfg.shared.isLoaded = true
      · rw [if_pos hil]
        simp only []
        have hsr := sumW_set readW cfg.tasks i PC.pAfterLoad hti
        have hsb := sumW_set bodyW cfg.tasks i PC.pAfterLoad hti
        have hsf := sumW_set finW cfg.tasks i PC.pAfterLoad hti
        simp only [readW, bodyW, finW] at hsr hsb hsf
        rw [INV_mk2]
        refine ⟨h1, by omega, by omega, by omega, ?_, ?_, h7, ?_, ?_, ?_⟩
        · intro a ha
          rcases mem_of_mem_set ha with h' | h'
          · exact h5 a h'
          · rw [h']
            intro hh
            cases hh
        · intro a ha hp
          rcases mem_of_mem_set ha with h' | h'
          · exact h6 a h' hp
          · exact h7 hil
        · intro h'
          exact mem_set_of_ne _ (h8 h') (by intro hh; cases hh) hti
        · intro a ha hp
          rcases mem_of_mem_set ha with h' | h'
          · exact h9 a h' hp
          · rw [h'] at hp
            cases hp
        · intro hmem'
          rcases mem_of_mem_set hmem' with h' | h'
          · exact h10 h'
          · cases h'
      rw [if_neg hil]
      rcases hr : cfg.shared.registry with _ | _ | b
      · simp only []
        rw [hr] at h2 h3
        simp at h2 h3
        have hsr := sumW_set readW cfg.tasks i PC.pAwaitHasContent hti
        have hsb := sumW_set bodyW cfg.tasks i PC.pAwaitHasContent hti
        have hsf := sumW_set finW cfg.tasks i PC.pAwaitHasContent hti
        simp only [readW, bodyW, finW] at hsr hsb hsf
        rw [INV_mk]
        refine ⟨(by intro hh; cases hh), ?_, ?_, ?_, ?_, ?_, ?_, ?_, ?_, ?_⟩
        · rw [cnt_snoc]
          simp
          omega
        · simp
          omega
        · rw [cnt_snoc]
          simp
          omega
        · intro a ha
          rcases mem_of_mem_set ha with h' | h'
          · exact h5 a h'
          · rw [h']
            intro hh
            cases hh
        · intro a ha hp
          rcases mem_of_mem_set ha with h' | h'
          · have := h6 a h' hp
            rw [hr] at this
            cases this
          · rw [h'] at hp
            cases hp
        · intro h'
          exact absurd h' hil
        · intro h'
          have := h6 _ (h8 h') rfl
          rw [hr] at this
          cases this
        · intro a ha hp
          rcases mem_of_mem_set ha with h' | h'
          · exact h9 a h' hp
          · rw [h'] at hp
            cases hp
        · intro hmem'
          rcases mem_of_mem_set hmem' with h' | h'
          · exact h10 h'
          · cases h'
      · simp only []
        have hsr := sumW_set readW cfg.tasks i PC.pAwaitPromise hti
        have hsb := sumW_set bodyW cfg.tasks i PC.pAwaitPromise hti
        have hsf := sumW_set finW cfg.tasks i PC.pAwaitPromise hti
        simp only [readW, bodyW, finW] at hsr hsb hsf
        rw [INV_mk2]
        refine ⟨h1, by omega, by omega, by omega, ?_, ?_, h7, ?_, ?_, ?_⟩
        · intro a ha
          rcases mem_of_mem_set ha with h' | h'
          · exact h5 a h'
          · rw [h']
            intro hh
            cases hh
        · intro a ha hp
          rcases mem_of_mem_set ha with h' | h'
          · exact h6 a h' hp
          · rw [h'] at hp
            cases hp
        · intro h'
          exact mem_set_of_ne _ (h8 h') (by intro hh; cases hh) hti
        · intro a ha hp
          rcases mem_of_mem_set ha with h' | h'
          · exact h9 a h' hp
          · rw [h'] at hp
            cases hp
        · intro hmem'
          rcases mem_of_mem_set hmem' with h' | h'
          · exact h10 h'
          · cases h'
      · simp only []
        have hsr := sumW_set readW cfg.tasks i PC.pAwaitPromise hti
        have hsb := sumW_set bodyW cfg.tasks i PC.pAwaitPromise hti
        have hsf := sumW_set finW cfg.tasks i PC.pAwaitPromise hti
        simp only [readW, bodyW, finW] at hsr hsb hsf
        rw [INV_mk2]
        refine ⟨h1, by omega, by omega, by omega, ?_, ?_, h7, ?_, ?_, ?_⟩
        · intro a ha
          rcases mem_of_mem_set ha with h' | h'
          · exact h5 a h'
          · rw [h']
            intro hh
            cases hh
        · intro a ha hp
          rcases mem_of_mem_set ha with h' | h'
          · exact h6 a h' hp
          · rw [h'] at hp
            cases hp
        · intro h'
          exact mem_set_of_ne _ (h8 h') (by intro hh; cases hh) hti
        · intro a ha hp
          rcases mem_of_mem_set ha with h' | h'
          · exact h9 a h' hp
          · rw [h'] at hp
            cases hp
        · intro hmem'
          rcases mem_of_mem_set hmem' with h' | h'
          · exact h10 h'
          · cases h'
  | pAwaitHasContent =>
      simp only [stepTask]
      by_cases hcc : env.contentCached = true
      · rw [if_pos hcc]
        simp only []
        have hsr := sumW_set readW cfg.tasks i PC.pAwaitRead hti
        have hsb := sumW_set bodyW cfg.tasks i PC.pAwaitRead hti
        have hsf := sumW_set finW cfg.tasks i PC.pAwaitRead hti
        simp only [readW, bodyW, finW] at hsr hsb hsf
        rw [INV_mk]
        refine ⟨h1, ?_, by omega, ?_, ?_, ?_, h7, ?_, ?_, ?_⟩
        · rw [cnt_snoc]
          simp
          omega
        · rw [cnt_snoc]
          simp
          omega
        · intro a ha
          rcases mem_of_mem_set ha with h' | h'
          · exact h5 a h'
          · rw [h']
            intro hh
            cases hh
        · intro a ha hp
          rcases mem_of_mem_set ha with h' | h'
          · exact h6 a h' hp
          · rw [h'] at hp
            cases hp
        · intro h'
          exact mem_set_of_ne _ (h8 h') (by intro hh; cases hh) hti
        · intro a ha hp
          rcases mem_of_mem_set ha with h' | h'
          · exact h9 a h' hp
          · rw [h'] at hp
            cases hp
        · intro hmem'
          rcases mem_of_mem_set hmem' with h' | h'
          · exact h10 h'
          · cases h'
      · rw [if_neg hcc]
        have hapi : env.hasApi = true := by
          rcases hca with h' | h'
          · exact absurd h' hcc
          · exact h'
        rw [if_pos hapi]
        simp only []
        have hsr := sumW_set readW cfg.tasks i PC.pAwaitFetch hti
        have hsb := sumW_set bodyW cfg.tasks i PC.pAwaitFetch hti
        have hsf := sumW_set finW cfg.tasks i PC.pAwaitFetch hti
        simp only [readW, bodyW, finW] at hsr hsb hsf
        rw [INV_mk]
        refine ⟨h1, ?_, by omega, ?_, ?_, ?_, h7, ?_, ?_, ?_⟩
        · rw [cnt_snoc]
          simp
          omega
        · rw [cnt_snoc]
          simp
          omega
        · intro a ha
          rcases mem_of_mem_set ha with h' | h'
          · exact h5 a h'
          · rw [h']
            intro hh
            cases hh
        · intro a ha hp
          rcases mem_of_mem_set ha with h' | h'
          · exact h6 a h' hp
          · rw [h'] at hp
            cases hp
        · intro h'
          exact mem_set_of_ne _ (h8 h') (by intro hh; cases hh) hti
        · intro a ha hp
          rcases mem_of_mem_set ha with h' | h'
          · exact h9 a h' hp
          · rw [h'] at hp
            cases hp
        · intro hmem'
          rcases mem_of_mem_set hmem' with h' | h'
          · exact h10 h'
          · cases h'
  | pAwaitFetch =>
      simp only [stepTask]
      have hsr := sumW_set readW cfg.tasks i PC.pAwaitSave hti
      have hsb := sumW_set bodyW cfg.tasks i PC.pAwaitSave hti
      have hsf := sumW_set finW cfg.tasks i PC.pAwaitSave hti
      simp only [readW, bodyW, finW] at hsr hsb hsf
      rw [INV_mk]
      refine ⟨h1, ?_, by omega, ?_, ?_, ?_, h7, ?_, ?_, ?_⟩
      · rw [cnt_snoc]
        simp
        omega
      · rw [cnt_snoc]
        simp
        omega
      · intro a ha
        rcases mem_of_mem_set ha with h' | h'
        · exact h5 a h'
        · rw [h']
          intro hh
          cases hh
      · intro a ha hp
        rcases mem_of_mem_set ha with h' | h'
        · exact h6 a h' hp
        · rw [h'] at hp
          cases hp
      · intro h'
        exact mem_set_of_ne _ (h8 h') (by intro hh; cases hh) hti
      · intro a ha hp
        rcases mem_of_mem_set ha with h' | h'
        · exact h9 a h' hp
        · rw [h'] at hp
          cases hp
      · intro hmem'
        rcases mem_of_mem_set hmem' with h' | h'
        · exact h10 h'
        · cases h'
  | pAwaitSave =>
      simp only [stepTask]
      have hsr := sumW_set readW cfg.tasks i PC.pAwaitRead hti
      have hsb := sumW_set bodyW cfg.tasks i PC.pAwaitRead hti
      have hsf := sumW_set finW cfg.tasks i PC.pAwaitRead hti
      simp only [readW, bodyW, finW] at hsr hsb hsf
      rw [INV_mk]
      refine ⟨h1, ?_, by omega, ?_, ?_, ?_, h7, ?_, ?_, ?_⟩
      · rw [cnt_snoc]
        simp
        omega
      · rw [cnt_snoc]
        simp
        omega
      · intro a ha
        rcases mem_of_mem_set ha with h' | h'
        · exact h5 a h'
        · rw [h']
          intro hh
          cases hh
      · intro a ha hp
        rcases mem_of_mem_set ha with h' | h'
        · exact h6 a h' hp
        · rw [h'] at hp
          cases hp
      · intro h'
        exact mem_set_of_ne _ (h8 h') (by intro hh; cases hh) hti
      · intro a ha hp
        rcases mem_of_mem_set ha with h' | h'
        · exact h9 a h' hp
        · rw [h'] at hp
          cases hp
      · intro hmem'
        rcases mem_of_mem_set hmem' with h' | h'
        · exact h10 h'
        · cases h'
  | pAwaitRead =>
      simp only [stepTask]
      have hsum1 : 1 ≤ sumW bodyW cfg.tasks := sumW_pos hmem (by decide)
      have hr : cfg.shared.registry = Reg.inflight := by
        rcases hreg' : cfg.shared.registry with _ | _ | b
        · rw [hreg'] at h3
          simp at h3
          omega
        · rfl
        · rw [hreg'] at h3
          simp at h3
          omega
      rw [hr] at h2 h3
      simp at h2 h3
      have hsr := sumW_set readW cfg.tasks i PC.pAfterLoad hti
      have hsb := sumW_set bodyW cfg.tasks i PC.pAfterLoad hti
      have hsf := sumW_set finW cfg.tasks i PC.pAfterLoad hti
      simp only [readW, bodyW, finW] at hsr hsb hsf
      rw [INV_mk]
      refine ⟨(by intro hh; cases hh), ?_, ?_, (by omega), ?_, ?_, fun _ => rfl, ?_, ?_, ?_⟩
      · simp
        omega
      · simp
        omega
      · intro a ha
        rcases mem_of_mem_set ha with h' | h'
        · exact h5 a h'
        · rw [h']
          intro hh
          cases hh
      · intro a ha hp
        rfl
      · intro h'
        exact mem_set_of_ne _ (h8 h') (by intro hh; cases hh) hti
      · intro a ha hp
        rcases mem_of_mem_set ha with h' | h'
        · exact h9 a h' hp
        · rw [h'] at hp
          cases hp
      · intro hmem'
        rcases mem_of_mem_set hmem' with h' | h'
        · exact h10 h'
        · cases h'
  | pAwaitPromise =>
      simp only [stepTask]
      rcases hr : cfg.shared.registry with _ | _ | b
      · exact ⟨h1, h2, h3, h4, h5, h6, h7, h8, h9, h10⟩
      · exact ⟨h1, h2, h3, h4, h5, h6, h7, h8, h9, h10⟩
      · cases b with
        | false => exact absurd hr h1
        | true =>
            simp only []
            have hsr := sumW_set readW cfg.tasks i PC.pAfterLoad hti
            have hsb := sumW_set bodyW cfg.tasks i PC.pAfterLoad hti
            have hsf := sumW_set finW cfg.tasks i PC.pAfterLoad hti
            simp only [readW, bodyW, finW] at hsr hsb hsf
            rw [INV_mk2]
            refine ⟨h1, by omega, by omega, by omega, ?_, ?_, h7, ?_, ?_, ?_⟩
            · intro a ha
              rcases mem_of_mem_set ha with h' | h'
              · exact h5 a h'
              · rw [h']
                intro hh
                cases hh
            · intro a ha hp
              exact hr
            · intro h'
              exact mem_set_of_ne _ (h8 h') (by intro hh; cases hh) hti
            · intro a ha hp
              rcases mem_of_mem_set ha with h' | h'
              · exact h9 a h' hp
              · rw [h'] at hp
                cases hp
            · intro hmem'
              rcases mem_of_mem_set hmem' with h' | h'
              · exact h10 h'
              · cases h'
  | pAfterLoad =>
      simp only [stepTask]
      have hsr := sumW_set readW cfg.tasks i PC.pAwaitFilename hti
      have hsb := sumW_set bodyW cfg.tasks i PC.pAwaitFilename hti
      have hsf := sumW_set finW cfg.tasks i PC.pAwaitFilename hti
      simp only [readW, bodyW, finW] at hsr hsb hsf
      rw [INV_mk]
      refine ⟨h1, ?_, by omega, ?_, ?_, ?_, h7, ?_, ?_, ?_⟩
      · rw [cnt_snoc]
        simp
        omega
      · rw [cnt_snoc]
        simp
        omega
      · intro a ha
        rcases mem_of_mem_set ha with h' | h'
        · exact h5 a h'
        · rw [h']
          intro hh
          cases hh
      · intro a ha hp
        rcases mem_of_mem_set ha with h' | h'
        · exact h6 a h' hp
        · exact h6 _ hmem rfl
      · intro h'
        exact mem_set_of_ne _ (h8 h') (by intro hh; cases hh) hti
      · intro a ha hp
        rcases mem_of_mem_set ha with h' | h'
        · exact h9 a h' hp
        · rw [h'] at hp
          cases hp
      · intro hmem'
        rcases mem_of_mem_set hmem' with h' | h'
        · exact h10 h'
        · cases h'
  | pAwaitFilename =>
      simp only [stepTask]
      rw [if_neg (by simp [hfn])]
      by_cases hre : cfg.shared.raExists = true
      · rw [if_pos hre]
        simp only []
        have hsr := sumW_set readW cfg.tasks i PC.pPreFinalize hti
        have hsb := sumW_set bodyW cfg.tasks i PC.pPreFinalize hti
        have hsf := sumW_set finW cfg.tasks i PC.pPreFinalize hti
        simp only [readW, bodyW, finW] at hsr hsb hsf
        rw [INV_mk2]
        refine ⟨h1, by omega, by omega, by omega, ?_, ?_, h7, ?_, ?_, ?_⟩
        · intro a ha
          rcases mem_of_mem_set ha with h' | h'
          · exact h5 a h'
          · rw [h']
            intro hh
            cases hh
        · intro a ha hp
          rcases mem_of_mem_set ha with h' | h'
          · exact h6 a h' hp
          · exact h6 _ hmem rfl
        · intro h'
          exact mem_set_of_ne _ (h8 h') (by intro hh; cases hh) hti
        · intro a ha hp
          rcases mem_of_mem_set ha with h' | h'
          · exact h9 a h' hp
          · exact hre
        · intro hmem'
          rcases mem_of_mem_set hmem' with h' | h'
          · exact h10 h'
          · cases h'
      · rw [if_neg hre]
        simp only []
        have hsr := sumW_set readW cfg.tasks i PC.pAwaitProxyLoad hti
        have hsb := sumW_set bodyW cfg.tasks i PC.pAwaitProxyLoad hti
        have hsf := sumW_set finW cfg.tasks i PC.pAwaitProxyLoad hti
        simp only [readW, bodyW, finW] at hsr hsb hsf
        rw [INV_mk]
        refine ⟨h1, ?_, by omega, ?_, ?_, ?_, h7, ?_, ?_, ?_⟩
        · rw [cnt_snoc]
          simp
          omega
        · rw [cnt_snoc]
          simp
          omega
        · intro a ha
          rcases mem_of_mem_set ha with h' | h'
          · exact h5 a h'
          · rw [h']
            intro hh
            cases hh
        · intro a ha hp
          rcases mem_of_mem_set ha with h' | h'
          · exact h6 a h' hp
          · exact h6 _ hmem rfl
        · intro h'
          exact mem_set_of_ne _ (h8 h') (by intro hh; cases hh) hti
        · intro a ha hp
          rfl
        · intro hmem'
          rcases mem_of_mem_set hmem' with h' | h'
          · exact h10 h'
          · cases h'
  | pAwaitProxyLoad =>
      simp only [stepTask]
      rw [if_pos hla]
      simp only []
      have hsr := sumW_set readW cfg.tasks i PC.pAwaitDeps hti
      have hsb := sumW_set bodyW cfg.tasks i PC.pAwaitDeps hti
      have hsf := sumW_set finW cfg.tasks i PC.pAwaitDeps hti
      simp only [readW, bodyW, finW] at hsr hsb hsf
      rw [INV_mk]
      refine ⟨h1, ?_, by omega, ?_, ?_, ?_, h7, ?_, ?_, ?_⟩
      · rw [cnt_snoc]
        simp
        omega
      · rw [cnt_snoc]
        simp
        omega
      · intro a ha
        rcases mem_of_mem_set ha with h' | h'
        · exact h5 a h'
        · rw [h']
          intro hh
          cases hh
      · intro a ha hp
        rcases mem_of_mem_set ha with h' | h'
        · exact h6 a h' hp
        · exact h6 _ hmem rfl
      · intro h'
        exact mem_set_of_ne _ (h8 h') (by intro hh; cases hh) hti
      · intro a ha hp
        rcases mem_of_mem_set ha with h' | h'
        · exact h9 a h' hp
        · exact h9 _ hmem rfl
      · intro hmem'
        rcases mem_of_mem_set hmem' with h' | h'
        · exact h10 h'
        · cases h'
  | pAwaitDeps =>
      simp only [stepTask]
      rw [if_pos hgd]
      simp only []
      have hsr := sumW_set readW cfg.tasks i PC.pPreFinalize hti
      have hsb := sumW_set bodyW cfg.tasks i PC.pPreFinalize hti
      have hsf := sumW_set finW cfg.tasks i PC.pPreFinalize hti
      simp only [readW, bodyW, finW] at hsr hsb hsf
      rw [INV_mk2]
      refine ⟨h1, by omega, by omega, by omega, ?_, ?_, h7, ?_, ?_, ?_⟩
      · intro a ha
        rcases mem_of_mem_set ha with h' | h'
        · exact h5 a h'
        · rw [h']
          intro hh
          cases hh
      · intro a ha hp
        rcases mem_of_mem_set ha with h' | h'
        · exact h6 a h' hp
        · exact h6 _ hmem rfl
      · intro h'
        exact mem_set_of_ne _ (h8 h') (by intro hh; cases hh) hti
      · intro a ha hp
        rcases mem_of_mem_set ha with h' | h'
        · exact h9 a h' hp
        · exact h9 _ hmem rfl
      · intro hmem'
        rcases mem_of_mem_set hmem' with h' | h'
        · exact h10 h'
        · cases h'
  | pPreFinalize =>
      simp only [stepTask]
      rw [if_pos (h9 _ hmem rfl)]
      simp only []
      have hsr := sumW_set readW cfg.tasks i PC.pAwaitFinalize hti
      have hsb := sumW_set bodyW cfg.tasks i PC.pAwaitFinalize hti
      have hsf := sumW_set finW cfg.tasks i PC.pAwaitFinalize hti
      simp only [readW, bodyW, finW] at hsr hsb hsf
      rw [INV_mk]
      refine ⟨h1, ?_, by omega, ?_, ?_, ?_, h7, ?_, ?_, ?_⟩
      · rw [cnt_snoc]
        simp
        omega
      · rw [cnt_snoc]
        simp
        omega
      · intro a ha
        rcases mem_of_mem_set ha with h' | h'
        · exact h5 a h'
        · rw [h']
          intro hh
          cases hh
      · intro a ha hp
        rcases mem_of_mem_set ha with h' | h'
        · exact h6 a h' hp
        · exact h6 _ hmem rfl
      · intro h'
        exact mem_set_of_ne _ (h8 h') (by intro hh; cases hh) hti
      · intro a ha hp
        rcases mem_of_mem_set ha with h' | h'
        · exact h9 a h' hp
        · rw [h'] at hp
          cases hp
      · intro hmem'
        rcases mem_of_mem_set hmem' with h' | h'
        · exact h10 h'
        · cases h'
  | pAwaitFinalize =>
      simp only [stepTask]
      rw [if_pos hfo]
      simp only []
      have hsr := sumW_set readW cfg.tasks i (PC.pDone true) hti
      have hsb := sumW_set bodyW cfg.tasks i (PC.pDone true) hti
      have hsf := sumW_set finW cfg.tasks i (PC.pDone true) hti
      simp only [readW, bodyW, finW] at hsr hsb hsf
      rw [INV_mk]
      refine ⟨h1, by omega, by omega, by omega, ?_, ?_, h7, ?_, ?_, fun _ => rfl⟩
      · intro a ha
        rcases mem_of_mem_set ha with h' | h'
        · exact h5 a h'
        · rw [h']
          intro hh
          cases hh
      · intro a ha hp
        rcases mem_of_mem_set ha with h' | h'
        · exact h6 a h' hp
        · exact h6 _ hmem rfl
      · intro _
        exact mem_set_self _ hti
      · intro a ha hp
        rcases mem_of_mem_set ha with h' | h'
        · exact h9 a h' hp
        · rw [h'] at hp
          cases hp
  | pDone b =>
      simp only [stepTask]
      exact ⟨h1, h2, h3, h4, h5, h6, h7, h8, h9, h10⟩
  | pDoneErr =>
      simp only [stepTask]
      exact ⟨h1, h2, h3, h4, h5, h6, h7, h8, h9, h10⟩

theorem runC_INV (env : CEnv) (hg : GoodEnv env) :
    ∀ (s : List Nat) (cfg : Config), INV cfg → INV (runC env s cfg) := by
  intro s
  induction s with
  | nil =>
      intro cfg h
      exact h
  | cons i rest ih =>
      intro cfg h
      exact ih _ (stepC_INV env hg cfg i h)

theorem stepC_length (env : CEnv) (cfg : Config) (i : Nat) :
    (stepC env cfg i).tasks.length = cfg.tasks.length := by
  unfold stepC
  rcases hti : cfg.tasks.get? i with _ | pc
  · rfl
  simp only []
  rcases stepTask env cfg.shared pc with _ | p
  · rfl
  · simp [List.length_set]

theorem runC_length (env : CEnv) :
    ∀ (s : List Nat) (cfg : Config), (runC env s cfg).tasks.length = cfg.tasks.length := by
  intro s
  induction s with
  | nil =>
      intro cfg
      rfl
  | cons i rest ih =>
      intro cfg
      rw [runC, ih, stepC_length]

end Conc

end ODS

namespace ODS

theorem finW_le_one : ∀ pc : Conc.PC, Conc.finW pc ≤ 1 := by
  intro pc
  cases pc with
  | pStart => exact Nat.zero_le _
  | pAwaitHasContent => exact Nat.zero_le _
  | pAwaitFetch => exact Nat.zero_le _
  | pAwaitSave => exact Nat.zero_le _
  | pAwaitRead => exact Nat.zero_le _
  | pAwaitPromise => exact Nat.zero_le _
  | pAfterLoad => exact Nat.zero_le _
  | pAwaitFilename => exact Nat.zero_le _
  | pAwaitProxyLoad => exact Nat.zero_le _
  | pAwaitDeps => exact Nat.zero_le _
  | pPreFinalize => exact Nat.zero_le _
  | pAwaitFinalize => exact Nat.le_refl _
  | pDone b => cases b <;> simp [Conc.finW]
  | pDoneErr => exact Nat.zero_le _

theorem readW_le_bodyW : ∀ pc : Conc.PC, Conc.readW pc ≤ Conc.bodyW pc := by
  intro pc
  cases pc <;> simp [Conc.readW, Conc.bodyW]

theorem readW_done_eq_zero {pc : Conc.PC} (h : ∃ b, pc = Conc.PC.pDone b) :
    Conc.readW pc = 0 := by
  rcases h with ⟨b, hb⟩
  rw [hb]
  cases b <;> simp [Conc.readW]

/-- **C1 (amended).** N concurrent `_loadRenderingDesignArtboard` invocations
for one artboard id, with well-behaved collaborators, perform **at most one**
underlying content read under every schedule (exactly one once all callers
have settled), issue **between 1 and N** `finalize-artboard` commands, and no
caller ever rejects: the content load is deduplicated by the
`_loadingArtboardPromises` registry, but the rendering-finalize phase has no
in-flight deduplication, so the finalize count depends on the interleaving. -/
theorem concurrent_load_commands (env : Conc.CEnv) (hg : Conc.GoodEnv env)
    (n : Nat) (s : List Nat) :
    Conc.cnt Conc.CEv.contentRead
        (Conc.runC env s (Conc.initConfig n)).shared.trace ≤ 1
      ∧ Conc.cnt Conc.CEv.cmdFinalize
          (Conc.runC env s (Conc.initConfig n)).shared.trace ≤ n
      ∧ (∀ pc ∈ (Conc.runC env s (Conc.initConfig n)).tasks, pc ≠ Conc.PC.pDoneErr)
      ∧ ((∀ pc ∈ (Conc.runC env s (Conc.initConfig n)).tasks,
            ∃ b, pc = Conc.PC.pDone b) → 1 ≤ n →
          Conc.cnt Conc.CEv.contentRead
              (Conc.runC env s (Conc.initConfig n)).shared.trace = 1
            ∧ 1 ≤ Conc.cnt Conc.CEv.cmdFinalize
                (Conc.runC env s (Conc.initConfig n)).shared.trace) := by
  obtain ⟨h1, h2, h3, h4, h5, h6, h7, h8, h9, h10⟩ :=
    Conc.runC_INV env hg s (Conc.initConfig n) (Conc.INV_init n)
  have hlen : (Conc.runC env s (Conc.initConfig n)).tasks.length = n := by
    rw [Conc.runC_length]
    simp [Conc.initConfig]
  have hrb := Conc.sumW_le_sumW readW_le_bodyW (Conc.runC env s (Conc.initConfig n)).tasks
  refine ⟨?_, ?_, h5, ?_⟩
  · by_cases hrd : (Conc.runC env s (Conc.initConfig n)).shared.registry = Conc.Reg.done true
    · rw [hrd] at h2 h3
      simp at h2 h3
      omega
    · rw [if_neg hrd] at h2
      have hle : (if (Conc.runC env s (Conc.initConfig n)).shared.registry
          = Conc.Reg.inflight then 1 else 0) ≤ 1 := by
        by_cases hri : (Conc.runC env s (Conc.initConfig n)).shared.registry = Conc.Reg.inflight
        · rw [if_pos hri]
        · rw [if_neg hri]
          omega
      omega
  · have := Conc.sumW_le_length finW_le_one (Conc.runC env s (Conc.initConfig n)).tasks
    omega
  · intro hall hn
    have hne : (Conc.runC env s (Conc.initConfig n)).tasks ≠ [] := by
      intro hnil
      rw [hnil] at hlen
      simp at hlen
      omega
    obtain ⟨pc0, rest, hts⟩ := List.exists_cons_of_ne_nil hne
    have hm0 : pc0 ∈ (Conc.runC env s (Conc.initConfig n)).tasks := by
      rw [hts]
      exact List.mem_cons_self _ _
    obtain ⟨b0, hb0⟩ := hall pc0 hm0
    have hpd : Conc.PC.pDone true ∈ (Conc.runC env s (Conc.initConfig n)).tasks := by
      cases b0 with
      | true =>
          rw [← hb0]
          exact hm0
      | false =>
          refine h8 (h10 ?_)
          rw [← hb0]
          exact hm0
    have hrd : (Conc.runC env s (Conc.initConfig n)).shared.registry = Conc.Reg.done true :=
      h6 _ hpd rfl
    have hz : Conc.sumW Conc.readW (Conc.runC env s (Conc.initConfig n)).tasks = 0 :=
      Conc.sumW_eq_zero (fun pc hm => readW_done_eq_zero (hall pc hm))
    have hfin := Conc.sumW_pos hpd (by simp [Conc.finW] :
      1 ≤ Conc.finW (Conc.PC.pDone true))
    rw [hrd] at h2
    simp at h2
    constructor
    · omega
    · omega

open Conc in
/-- Counterexample to C1 as stated: with two concurrent invocations and
well-behaved collaborators, the interleaving in which both tasks pass the
readiness check before either reaches `markArtboardAsReady` makes **both**
issue `finalize-artboard` (two commands, not one), while the content read
happens once and both callers resolve — the registry dedups the content
load, but nothing dedups the finalize phase
(design-facade.ts 2660-2736 has no in-flight map of its own). -/
theorem concurrent_double_finalize :
    Conc.cnt Conc.CEv.cmdFinalize
        (Conc.runC ⟨true, true, true, true, true, true⟩
          [0, 1, 0, 0, 1, 0, 0, 1, 1, 0, 0, 0, 0, 1, 1]
          (Conc.initConfig 2)).shared.trace = 2
      ∧ Conc.cnt Conc.CEv.contentRead
          (Conc.runC ⟨true, true, true, true, true, true⟩
            [0, 1, 0, 0, 1, 0, 0, 1, 1, 0, 0, 0, 0, 1, 1]
            (Conc.initConfig 2)).shared.trace = 1
      ∧ ∀ pc ∈ (Conc.runC ⟨true, true, true, true, true, true⟩
            [0, 1, 0, 0, 1, 0, 0, 1, 1, 0, 0, 0, 0, 1, 1]
            (Conc.initConfig 2)).tasks, pc = Conc.PC.pDone true := by
  decide

/-- Witness for the amended C1: on the same two-caller interleaving the
amended bounds are realized — exactly one content read and at least one
finalize once both callers settle. -/
theorem concurrent_load_commands_witness :
    Conc.GoodEnv ⟨true, true, true, true, true, true⟩
      ∧ Conc.cnt Conc.CEv.contentRead
            (Conc.runC ⟨true, true, true, true, true, true⟩
              [0, 1, 0, 0, 1, 0, 0, 1, 1, 0, 0, 0, 0, 1, 1]
              (Conc.initConfig 2)).shared.trace = 1
      ∧ 1 ≤ Conc.cnt Conc.CEv.cmdFinalize
            (Conc.runC ⟨true, true, true, true, true, true⟩
              [0, 1, 0, 0, 1, 0, 0, 1, 1, 0, 0, 0, 0, 1, 1]
              (Conc.initConfig 2)).shared.trace :=
  ⟨⟨Or.inl rfl, rfl, rfl, rfl, rfl⟩,
   (concurrent_load_commands ⟨true, true, true, true, true, true⟩
      ⟨Or.inl rfl, rfl, rfl, rfl, rfl⟩ 2
      [0, 1, 0, 0, 1, 0, 0, 1, 1, 0, 0, 0, 0, 1, 1]).2.2.2
      (by decide) (by decide)⟩

end ODS
